import Mathlib

/-!
Verification of the version-resolution core (`compiler-core/src/dependency.rs`).

The development shallowly embeds the Rust source into Lean:

* Strings are modelled as `List Char` (`Str`), since the Rust code only uses
  ASCII-level operations (`trim`, `starts_with`, `replace`).
* `Version` and `Range` come from the external `hexpm` crate, which is not part
  of this repository's sources; they are modelled from the specification's data
  model (ordered `major.minor.patch[-prerelease]` tuples, and a requirement
  grammar denoted into interval-sets).  Prerelease labels are compared
  lexicographically by character code.
* Hash maps are modelled as association lists with replace-on-insert, looked up
  with `alookup`; `HashMap` equality corresponds to extensional `alookup`
  equality.
* The PubGrub search algorithm lives behind the `pubgrub` library dependency
  and is likewise not part of the repository sources; it is modelled from the
  specification (section 4.6) as a fueled conflict-driven loop further below.
-/

/-- Character strings, modelled as lists of characters. -/
abbrev Str := List Char

/-- Lexicographic step: compare two numbers, falling through to `k` on a tie. -/
def lexNat (x y : Nat) (k : Bool) : Bool :=
  if x < y then true else if y < x then false else k

/-- Lexicographic "less or equal" on strings by character code. -/
def strLeB : Str → Str → Bool
  | [], _ => true
  | _ :: _, [] => false
  | c :: cs, d :: ds => lexNat c.toNat d.toNat (strLeB cs ds)

/-- A package version: ordered `major.minor.patch` triple with an optional
prerelease label.  Modelled from the spec's data model for the external
`hexpm::version::Version` type. -/
structure Version where
  major : Nat
  minor : Nat
  patch : Nat
  pre : Option Str
deriving DecidableEq, Repr

/-- Order on prerelease labels: a version without a label sorts above any
version with one (so `none` is the top element). -/
def preLeB : Option Str → Option Str → Bool
  | none, none => true
  | none, some _ => false
  | some _, none => true
  | some s, some t => strLeB s t

/-- Total order on versions: lexicographic on the numeric triple, then the
prerelease label (absent label greatest). -/
def Version.leB (a b : Version) : Bool :=
  lexNat a.major b.major (lexNat a.minor b.minor (lexNat a.patch b.patch (preLeB a.pre b.pre)))

/-- Strict order, defined from `leB` by totality. -/
def Version.ltB (a b : Version) : Bool := !(Version.leB b a)

/-- Whether the version carries a prerelease label (`hexpm`'s `is_pre`). -/
def Version.isPre (v : Version) : Bool := v.pre.isSome

/-- The decimal digit character for `d` (expects `d < 10`). -/
def digitChar : Nat → Char
  | 0 => '0' | 1 => '1' | 2 => '2' | 3 => '3' | 4 => '4'
  | 5 => '5' | 6 => '6' | 7 => '7' | 8 => '8' | _ => '9'

/-- Decimal digits of `n`, most significant first, with explicit fuel so that
the definition is structurally recursive (the fuel `n + 1` always suffices). -/
def natCharsAux : Nat → Nat → Str → Str
  | 0, _, acc => acc
  | f + 1, n, acc =>
    if n < 10 then digitChar n :: acc
    else natCharsAux f (n / 10) (digitChar (n % 10) :: acc)

/-- Decimal rendering of a natural number. -/
def natChars (n : Nat) : Str := natCharsAux (n + 1) n []

/-- Numeric value of a digit string (accumulating from the left). -/
def digitsVal (ds : Str) : Nat := ds.foldl (fun a c => 10 * a + (c.toNat - 48)) 0

/-- Rendering of a version as `major.minor.patch[-pre]`.  Models the spec's
release-shape grammar (the external crate's `Display`). -/
def Version.toStr (v : Version) : Str :=
  natChars v.major ++ ('.' :: natChars v.minor) ++ ('.' :: natChars v.patch) ++
    (match v.pre with
     | none => []
     | some p => '-' :: p)

/-- Parse a run of leading decimal digits; `none` when there is none.
Returns the value together with the unconsumed remainder. -/
def parseNatChars (l : Str) : Option (Nat × Str) :=
  match l.takeWhile Char.isDigit with
  | [] => none
  | ds => some (digitsVal ds, l.dropWhile Char.isDigit)

/-- Modelled from the spec: `Version` parsing for the grammar
`major.minor.patch[-prerelease]` (section 6 release shape); the `hexpm`
crate supplying `Version::parse` is outside this repository's sources. -/
def parseVersion (l : Str) : Option Version := do
  let (mj, r1) ← parseNatChars l
  match r1 with
  | '.' :: r2 => do
    let (mn, r3) ← parseNatChars r2
    match r3 with
    | '.' :: r4 => do
      let (pt, r5) ← parseNatChars r4
      match r5 with
      | [] => some ⟨mj, mn, pt, none⟩
      | '-' :: rest => some ⟨mj, mn, pt, some rest⟩
      | _ => none
    | _ => none
  | _ => none

/-- Characters legal in a prerelease label (ASCII alphanumerics, `-` and
`.`, the semver identifier characters).  Versions built by the registry
satisfy this; it rules out labels containing whitespace or `=` which could
not have been parsed from a requirement. -/
def versionCharOk (c : Char) : Bool :=
  (48 ≤ c.toNat && c.toNat ≤ 57) || (65 ≤ c.toNat && c.toNat ≤ 90) ||
    (97 ≤ c.toNat && c.toNat ≤ 122) || c = '-' || c = '.'

/-- Well-formedness of a version: its prerelease label, when present, uses
only legal identifier characters. -/
def Version.Wf (v : Version) : Prop :=
  match v.pre with
  | none => True
  | some p => ∀ c ∈ p, versionCharOk c = true

instance (v : Version) : Decidable v.Wf := by
  unfold Version.Wf
  cases v.pre <;> infer_instance

/-- A version requirement, modelled from the spec's requirement grammar
(operators `==`, `>=`, `<=`, `>`, `<`, `~>`, conjunction `and`, wildcard `*`,
and a bare version literal).  The source's `hexpm::version::Range` stores the
raw string; this model stores the parsed constraint and renders the canonical
string form. -/
inductive Range where
  | any : Range
  | bare (v : Version) : Range
  | eq (v : Version) : Range
  | gte (v : Version) : Range
  | lte (v : Version) : Range
  | gt (v : Version) : Range
  | lt (v : Version) : Range
  | tilde2 (major minor : Nat) : Range
  | tilde3 (v : Version) : Range
  | conj (r1 r2 : Range) : Range
deriving DecidableEq, Repr

/-- Canonical textual form of a requirement (the raw string the source's
`Range` would carry, as displayed in error messages). -/
def Range.toStr : Range → Str
  | .any => ['*']
  | .bare v => v.toStr
  | .eq v => '=' :: '=' :: ' ' :: v.toStr
  | .gte v => '>' :: '=' :: ' ' :: v.toStr
  | .lte v => '<' :: '=' :: ' ' :: v.toStr
  | .gt v => '>' :: ' ' :: v.toStr
  | .lt v => '<' :: ' ' :: v.toStr
  | .tilde2 mj mn => '~' :: '>' :: ' ' :: (natChars mj ++ '.' :: natChars mn)
  | .tilde3 v => '~' :: '>' :: ' ' :: v.toStr
  | .conj r1 r2 => r1.toStr ++ (' ' :: 'a' :: 'n' :: 'd' :: ' ' :: r2.toStr)

/-- Lower bound of a version interval. -/
inductive LB where
  | ninf : LB
  | inc (v : Version) : LB
  | exc (v : Version) : LB
deriving DecidableEq, Repr

/-- Upper bound of a version interval. -/
inductive UB where
  | pinf : UB
  | inc (v : Version) : UB
  | exc (v : Version) : UB
deriving DecidableEq, Repr

/-- One contiguous version interval. -/
abbrev Seg := LB × UB

/-- An interval-set of versions: the union of finitely many intervals.
Modelled from the spec's Range model ("normalized to a canonical interval-set
supporting intersection, containment, and complement"), standing in for the
`pubgrub` crate's `Range<Version>`. -/
abbrev VS := List Seg

def memLB (b : LB) (x : Version) : Bool :=
  match b with
  | .ninf => true
  | .inc v => Version.leB v x
  | .exc v => Version.ltB v x

def memUB (b : UB) (x : Version) : Bool :=
  match b with
  | .pinf => true
  | .inc v => Version.leB x v
  | .exc v => Version.ltB x v

def segMem (s : Seg) (x : Version) : Bool := memLB s.1 x && memUB s.2 x

/-- Interval-set membership. -/
def VS.contains (S : VS) (x : Version) : Bool := S.any (fun s => segMem s x)

/-- The full interval-set (every version). -/
def fullVS : VS := [(LB.ninf, UB.pinf)]

/-- The interval-set containing exactly one version. -/
def exactVS (v : Version) : VS := [(LB.inc v, UB.inc v)]

/-- "Is the left lower bound at most as strict as the right one": every
version admitted by the right bound is admitted by the left one. -/
def lbLeB : LB → LB → Bool
  | .ninf, _ => true
  | _, .ninf => false
  | .inc v, .inc w => Version.leB v w
  | .inc v, .exc w => Version.leB v w
  | .exc v, .inc w => Version.ltB v w
  | .exc v, .exc w => Version.leB v w

/-- The stricter of two lower bounds. -/
def lbMax (a b : LB) : LB := if lbLeB a b then b else a

/-- "Is the left upper bound at most as strict as the right one". -/
def ubLeB : UB → UB → Bool
  | .pinf, _ => true
  | _, .pinf => false
  | .inc v, .inc w => Version.leB w v
  | .inc v, .exc w => Version.leB w v
  | .exc v, .inc w => Version.ltB w v
  | .exc v, .exc w => Version.leB w v

/-- The stricter of two upper bounds. -/
def ubMin (a b : UB) : UB := if ubLeB a b then b else a

/-- Syntactic nonemptiness check for an interval (may over-approximate for
adjacent exclusive bounds; it never deems an inhabited interval empty). -/
def segNonempty (s : Seg) : Bool :=
  match s with
  | (.ninf, _) => true
  | (_, .pinf) => true
  | (.inc v, .inc w) => Version.leB v w
  | (.inc v, .exc w) => Version.ltB v w
  | (.exc v, .inc w) => Version.ltB v w
  | (.exc v, .exc w) => Version.ltB v w

/-- Intersection of two intervals, `none` when (syntactically) empty. -/
def segInter (a b : Seg) : Option Seg :=
  let s := (lbMax a.1 b.1, ubMin a.2 b.2)
  if segNonempty s then some s else none

/-- Intersection of interval-sets (pairwise interval intersections). -/
def VS.inter (S T : VS) : VS :=
  S.flatMap (fun a => T.filterMap (fun b => segInter a b))

/-- Complement of one interval, as an interval-set. -/
def segCompl (s : Seg) : VS :=
  (match s.1 with
   | LB.ninf => []
   | LB.inc v => [(LB.ninf, UB.exc v)]
   | LB.exc v => [(LB.ninf, UB.inc v)]) ++
  (match s.2 with
   | UB.pinf => []
   | UB.inc v => [(LB.exc v, UB.pinf)]
   | UB.exc v => [(LB.inc v, UB.pinf)])

/-- Complement of an interval-set. -/
def VS.compl (S : VS) : VS := S.foldl (fun acc s => VS.inter acc (segCompl s)) fullVS

/-- Syntactic emptiness of an interval-set (sound: a set deemed empty has no
members). -/
def VS.isEmptyB (S : VS) : Bool := S.isEmpty

/-- Subset test via intersection with the complement. -/
def VS.subset (S T : VS) : Bool := (VS.inter S (VS.compl T)).isEmptyB

/-- Disjointness test. -/
def VS.disjoint (S T : VS) : Bool := (VS.inter S T).isEmptyB

/-- The smallest version strictly above the whole patch level of `v`
(`hexpm`'s bump used by the exact-version encoding: per the source comment,
"pubgrub checks exact version by checking if a version is between the exact
and the version 1 bump ahead", where "a bump includes the whole patch"). -/
def bumpPatch (v : Version) : Version := ⟨v.major, v.minor, v.patch + 1, none⟩

/-- Modelled from the spec: denotation of a requirement into an interval-set
(the source's `Range::to_pubgrub`, supplied by the external `hexpm` crate).
A bare literal and `==` denote the interval from the version up to the next
patch bump, which is exactly the behaviour the source's exact-pin filter
works around. -/
def Range.toVS : Range → VS
  | .any => fullVS
  | .bare v => [(LB.inc v, UB.exc (bumpPatch v))]
  | .eq v => [(LB.inc v, UB.exc (bumpPatch v))]
  | .gte v => [(LB.inc v, UB.pinf)]
  | .lte v => [(LB.ninf, UB.inc v)]
  | .gt v => [(LB.exc v, UB.pinf)]
  | .lt v => [(LB.ninf, UB.exc v)]
  | .tilde2 mj mn => [(LB.inc ⟨mj, mn, 0, none⟩, UB.exc ⟨mj + 1, 0, 0, none⟩)]
  | .tilde3 v => [(LB.inc v, UB.exc ⟨v.major, v.minor + 1, 0, none⟩)]
  | .conj r1 r2 => VS.inter r1.toVS r2.toVS

/-- Containment of a version in a requirement's interval-set. -/
def Range.contains (r : Range) (v : Version) : Bool := r.toVS.contains v

instance exceptDecEq {ε α : Type} [DecidableEq ε] [DecidableEq α] :
    DecidableEq (Except ε α) := fun x y =>
  match x, y with
  | .ok a, .ok b =>
    if h : a = b then .isTrue (h ▸ rfl) else .isFalse (fun hc => h (Except.ok.inj hc))
  | .error a, .error b =>
    if h : a = b then .isTrue (h ▸ rfl) else .isFalse (fun hc => h (Except.error.inj hc))
  | .ok _, .error _ => .isFalse (fun hc => Except.noConfusion hc)
  | .error _, .ok _ => .isFalse (fun hc => Except.noConfusion hc)

/-- Retirement reasons (`hexpm::RetirementReason`). -/
inductive RetirementReason where
  | other | invalid | security | deprecated | renamed
deriving DecidableEq, Repr

/-- Retirement status attached to a retired release. -/
structure RetirementStatus where
  reason : RetirementReason
  message : Str
deriving DecidableEq, Repr

/-- A declared dependency (`hexpm::Dependency`): requirement plus fields the
resolver carries but does not interpret. -/
structure Dependency where
  app : Option Str
  optional : Bool
  repository : Option Str
  requirement : Range
deriving DecidableEq, Repr

/-- A release of a package (`hexpm::Release`). -/
structure Release where
  version : Version
  requirements : List (Str × Dependency)
  retirement_status : Option RetirementStatus
  outer_checksum : List Nat
deriving DecidableEq, Repr

/-- `Release::is_retired`. -/
def Release.is_retired (r : Release) : Bool := r.retirement_status.isSome

/-- A package with its releases (`hexpm::Package`). -/
structure Package where
  name : Str
  repository : Str
  releases : List Release
deriving DecidableEq, Repr

/-- Association-list lookup, modelling `HashMap::get`. -/
def alookup {α : Type} (k : Str) : List (Str × α) → Option α
  | [] => none
  | (k', v) :: rest => if k' = k then some v else alookup k rest

/-- Association-list insert, modelling `HashMap::insert` (replaces any
previous binding of the key). -/
def insertKV {α : Type} (k : Str) (v : α) (l : List (Str × α)) : List (Str × α) :=
  (k, v) :: l.filter (fun p => decide (p.1 ≠ k))

/-- The keys of an association list. -/
def keysOf {α : Type} (l : List (Str × α)) : List Str := l.map (fun p => p.1)

/-- Trim whitespace from the front of a string (`str::trim_start`). -/
def trimStart (l : Str) : Str := l.dropWhile Char.isWhitespace

/-- Trim whitespace from both ends of a string (`str::trim`). -/
def trimChars (l : Str) : Str := ((trimStart l).reverse.dropWhile Char.isWhitespace).reverse

/-- Does the string start with `==` (`str::starts_with("==")`)? -/
def startsWithEqEq : Str → Bool
  | c :: d :: _ => c = '=' && d = '='
  | _ => false

/-- Remove every (left-to-right, non-overlapping) occurrence of `==`
(`str::replace("==", "")`). -/
def replaceEqEq : Str → Str
  | [] => []
  | [c] => [c]
  | c :: d :: rest =>
    if c = '=' ∧ d = '=' then replaceEqEq rest else c :: replaceEqEq (d :: rest)

/-- Is the first byte an ASCII digit (`first_byte.map_or(false, is_ascii_digit)`)? -/
def firstIsDigit : Str → Bool
  | [] => false
  | c :: _ => c.isDigit

/-- `parse_exact_version` from the source: if the string would parse to an
exact version then return the version. -/
def parse_exact_version (ver : Str) : Option Version :=
  let version := trimChars ver
  if startsWithEqEq version || firstIsDigit version then
    let version2 := replaceEqEq version
    let version3 := trimChars version2
    match parseVersion version3 with
    | some v => some v
    | none => none
  else none

/-- The resolution error type (`PubGrubError` for the resolver, with a fuel
marker for the fueled loop model).  `failure` carries the message of
`PubGrubError::Failure`; `errorRetrievingDependencies` models a propagated
fetch failure (the spec's ProviderFailure); `noSolution` models
`PubGrubError::NoSolution` (the spec's ResolutionFailure, derivation tree
elided); `fuelExhausted` is an artifact of embedding the unbounded search
loop with explicit fuel and corresponds to no source behaviour. -/
inductive ResolutionError where
  | failure (msg : Str)
  | errorRetrievingDependencies (msg : Str)
  | noSolution
  | fuelExhausted
deriving DecidableEq, Repr

/-- The lock-conflict message produced by `root_dependencies`. -/
def lockConflictMsg (pkg : Str) (requirement : Range) (version : Version) : Str :=
  pkg ++ (" is specified with the requirement `").data ++ requirement.toStr ++
    ("`, but it is locked to ").data ++ version.toStr ++ (", which is incompatible.").data

/-- The `Dependency` built for a locked version when seeding the root
requirement map (`Range::new(version.to_string())` is a bare version
literal). -/
def lockedDependency (v : Version) : Dependency :=
  { app := none, optional := false, repository := none, requirement := Range.bare v }

/-- The `Dependency` built for an explicit root requirement. -/
def plainDependency (r : Range) : Dependency :=
  { app := none, optional := false, repository := none, requirement := r }

/-- The seeded requirement map: every locked version recorded as a hard
requirement (`root_dependencies`, first half). -/
def seedLocked (locked : List (Str × Version)) : List (Str × Dependency) :=
  locked.foldl (fun acc p => insertKV p.1 (lockedDependency p.2) acc) []

/-- The per-requirement loop of `root_dependencies`: an unlocked name's range
is inserted as-is; a locked name's range must contain the locked version,
otherwise resolution fails immediately with the lock-conflict message. -/
def rootDepsLoop (locked : List (Str × Version)) :
    List (Str × Range) → List (Str × Dependency) →
    Except ResolutionError (List (Str × Dependency))
  | [], acc => Except.ok acc
  | (name, range) :: rest, acc =>
    match alookup name locked with
    | none => rootDepsLoop locked rest (insertKV name (plainDependency range) acc)
    | some lockedVersion =>
      if range.contains lockedVersion then rootDepsLoop locked rest acc
      else Except.error (ResolutionError.failure (lockConflictMsg name range lockedVersion))

/-- `root_dependencies` from the source. -/
def root_dependencies (base : List (Str × Range)) (locked : List (Str × Version)) :
    Except ResolutionError (List (Str × Dependency)) :=
  rootDepsLoop locked base (seedLocked locked)

/-- The exact-pin set of `resolve_versions` (lines 37-42): requirements whose
raw string parses as an exact version. -/
def exactDepsOf (requirements : List (Str × Dependency)) : List (Str × Version) :=
  requirements.filterMap (fun p => (parse_exact_version p.2.requirement.toStr).map ((p.1, ·)))

/-- The ascending release comparison used by `package.releases.sort_by`. -/
def relLe (a b : Release) : Prop := Version.leB a.version b.version = true

instance : DecidableRel relLe := fun a b => by
  unfold relLe
  infer_instance

/-- The release ordering applied by `ensure_package_fetched`: sort ascending
by version with a stable sort, reverse (newest first), then move all
prerelease releases after the others, each group keeping its order (the Rust
`sort_by` is a stable sort; a stable sort is modelled by insertion sort, with
which it agrees on every input). -/
def sortReleases (releases : List Release) : List Release :=
  let sorted := (List.insertionSort relLe releases).reverse
  let parts := sorted.partition (fun r => r.version.isPre)
  parts.2 ++ parts.1

/-- The metadata cache: package name to fetched package. -/
abbrev Cache := List (Str × Package)

/-- A fetch capability (the `PackageFetcher` trait object): deterministic
function from package name to package or error message. -/
abbrev Fetcher := Str → Except Str Package

/-- `ensure_package_fetched`: no-op when the name is cached, otherwise fetch,
sort the releases, and insert.  A fetch failure is propagated and nothing is
inserted. -/
def ensure_package_fetched (remote : Fetcher) (cache : Cache) (name : Str) :
    Except Str Cache :=
  match alookup name cache with
  | some _ => Except.ok cache
  | none =>
    match remote name with
    | Except.error e => Except.error e
    | Except.ok package =>
      Except.ok (insertKV name { package with releases := sortReleases package.releases } cache)

/-- The permitted-version list of `choose_package_version`
(`list_available_versions`): all cached releases of the package, restricted to
the pinned version when the package is in the exact-pin set. -/
def listAvailableVersions (cache : Cache) (exact_only : List (Str × Version)) (name : Str) :
    List Version :=
  match alookup name cache with
  | none => []
  | some package =>
    (package.releases.filter (fun release =>
      match alookup name exact_only with
      | some ver => decide (release.version = ver)
      | none => true)).map (fun release => release.version)

/-- `pubgrub::solver::Dependencies`. -/
inductive Dependencies where
  | unknown : Dependencies
  | known (deps : List (Str × VS)) : Dependencies
deriving DecidableEq, Repr

/-- `DependencyProvider::get_dependencies`: fetch the package, locate the
release with the requested version (absent: Unknown), hide retired releases
unless locked to exactly that version, and otherwise translate each declared
requirement into its interval-set. -/
def get_dependencies (remote : Fetcher) (locked : List (Str × Version)) (cache : Cache)
    (name : Str) (version : Version) : Except Str (Cache × Dependencies) :=
  match ensure_package_fetched remote cache name with
  | Except.error e => Except.error e
  | Except.ok cache2 =>
    match (alookup name cache2).toList.flatMap Package.releases
        |>.find? (fun r => decide (r.version = version)) with
    | none => Except.ok (cache2, Dependencies.unknown)
    | some release =>
      if release.is_retired ∧ alookup name locked ≠ some version then
        Except.ok (cache2, Dependencies.unknown)
      else
        Except.ok (cache2,
          Dependencies.known (release.requirements.map
            (fun p => (p.1, p.2.requirement.toVS))))

/-- Newest-first ordering on releases (the reverse of `relLe`). -/
def relGe (a b : Release) : Prop := Version.leB b.version a.version = true

/-- A small concrete package used by witnesses: three releases listed out of
order, one of them a prerelease. -/
def wPackage : Package :=
  { name := ['p'], repository := ['h'],
    releases :=
      [ { version := ⟨0, 1, 0, none⟩, requirements := [], retirement_status := none,
          outer_checksum := [] },
        { version := ⟨0, 3, 0, some ['r', 'c']⟩, requirements := [], retirement_status := none,
          outer_checksum := [] },
        { version := ⟨0, 2, 0, none⟩, requirements := [], retirement_status := none,
          outer_checksum := [] } ] }

/-- A concrete retired release for witnesses. -/
def wRetired : Release :=
  { version := ⟨0, 2, 0, none⟩,
    requirements := [(['d'], plainDependency (Range.gte ⟨0, 1, 0, none⟩))],
    retirement_status := some { reason := RetirementReason.security, message := [] },
    outer_checksum := [] }

/-- A concrete package with one retired release for witnesses. -/
def wRetPackage : Package :=
  { name := ['q'], repository := ['h'], releases := [wRetired] }

/-- A package whose single release declares an exact-syntax requirement on
package `t`, for the C9 witness. -/
def wDepPackage : Package :=
  { name := ['s'], repository := ['h'],
    releases :=
      [ { version := ⟨1, 0, 0, none⟩,
          requirements := [(['t'], plainDependency (Range.bare ⟨1, 0, 0, none⟩))],
          retirement_status := none, outer_checksum := [] } ] }

/-- The exact-pin detector as the claim words it: after trimming, a leading
`==` is stripped (only the prefix) and the remainder must parse as a Version;
otherwise a digit-leading string must itself parse as a Version. -/
def exactPinClaimRef (s : Str) : Option Version :=
  let t := trimChars s
  if startsWithEqEq t then parseVersion (t.drop 2)
  else if firstIsDigit t then parseVersion t
  else none

/-- The exact-pin detector as the code actually behaves (the amended claim):
after trimming, when the string starts with `==` or with an ASCII digit,
every occurrence of `==` is removed, the result is trimmed again and parsed
as a Version. -/
def exactPinAmendedRef (s : Str) : Option Version :=
  let t := trimChars s
  if startsWithEqEq t || firstIsDigit t then parseVersion (trimChars (replaceEqEq t))
  else none

/-- Modelled from the spec (section 4.6): a solver term, asserting that a
package's version is inside (`pos`) or outside (`neg`) an interval-set. -/
inductive Term where
  | pos (vs : VS) : Term
  | neg (vs : VS) : Term
deriving DecidableEq, Repr

/-- The negation of a term. -/
def Term.negate : Term → Term
  | .pos vs => .neg vs
  | .neg vs => .pos vs

/-- The set of versions a term admits. -/
def Term.toVS : Term → VS
  | .pos vs => vs
  | .neg vs => VS.compl vs

/-- Modelled from the spec: an incompatibility is a set of (package, term)
constraints asserted never to hold simultaneously. -/
abbrev Incompat := List (Str × Term)

/-- Modelled from the spec: an entry of the partial solution, either a
decision ("package assigned version") or a derivation ("package constrained
by term because of an incompatibility"), both tagged with a decision
level. -/
inductive Assignment where
  | decision (pkg : Str) (version : Version) (level : Nat) : Assignment
  | derivation (pkg : Str) (t : Term) (level : Nat) (cause : Incompat) : Assignment
deriving DecidableEq, Repr

def Assignment.pkg : Assignment → Str
  | .decision p _ _ => p
  | .derivation p _ _ _ => p

def Assignment.level : Assignment → Nat
  | .decision _ _ l => l
  | .derivation _ _ l _ => l

def Assignment.isDecision : Assignment → Bool
  | .decision _ _ _ => true
  | .derivation _ _ _ _ => false

/-- The set of versions an assignment admits for its package. -/
def Assignment.constraintVS : Assignment → VS
  | .decision _ v _ => exactVS v
  | .derivation _ t _ _ => t.toVS

/-- Intersection of two terms over the same package.  A term is positive
when it asserts the package is selected inside the set, negative when it only
excludes the set; the intersection is positive as soon as one operand is. -/
def termIntersect : Term → Term → Term
  | .pos a, .pos b => .pos (VS.inter a b)
  | .pos a, .neg b => .pos (VS.inter a (VS.compl b))
  | .neg a, .pos b => .pos (VS.inter (VS.compl a) b)
  | .neg a, .neg b => .neg (VS.compl (VS.inter (VS.compl a) (VS.compl b)))

/-- Does the first term entail the second?  A negative term never entails a
positive one, because a negative term is also satisfied by not selecting the
package at all. -/
def termSubset : Term → Term → Bool
  | .pos a, .pos b => VS.subset a b
  | .pos a, .neg b => VS.disjoint a b
  | .neg _, .pos _ => false
  | .neg a, .neg b => VS.subset b a

/-- Are the two terms incompatible?  Two negative terms are never
incompatible, because not selecting the package satisfies both. -/
def termDisjoint : Term → Term → Bool
  | .pos a, .pos b => VS.disjoint a b
  | .pos a, .neg b => VS.subset a b
  | .neg a, .pos b => VS.subset b a
  | .neg _, .neg _ => false

/-- The term asserted by an assignment: a decision selects exactly its
version, a derivation asserts its derived term. -/
def Assignment.toTerm : Assignment → Term
  | .decision _ v _ => Term.pos (exactVS v)
  | .derivation _ t _ _ => t

/-- The accumulated constraint the partial solution places on a package:
the intersection (as a term) of all its assignments' terms, or `none` when
the package has no assignment yet. -/
def psolConstraint (psol : List Assignment) (p : Str) : Option Term :=
  match psol.filter (fun a => decide (a.pkg = p)) with
  | [] => none
  | a :: rest => some (rest.foldl (fun acc b => termIntersect acc b.toTerm) a.toTerm)

/-- Relation of one term to the partial solution. -/
inductive TermRel where
  | satisfied | contradicted | inconclusive
deriving DecidableEq, Repr

/-- Modelled from the spec: a term is satisfied when the accumulated
constraint entails it, contradicted when the accumulated constraint is
incompatible with it, inconclusive otherwise (in particular for an
unconstrained package). -/
def relTerm (psol : List Assignment) (p : Str) (t : Term) : TermRel :=
  match psolConstraint psol p with
  | none => TermRel.inconclusive
  | some acc =>
    if termSubset acc t then TermRel.satisfied
    else if termDisjoint acc t then TermRel.contradicted
    else TermRel.inconclusive

/-- Relation of an incompatibility to the partial solution. -/
inductive IncompatRel where
  | satisfied
  | almost (p : Str) (t : Term)
  | other
deriving DecidableEq, Repr

/-- Modelled from the spec: an incompatibility is satisfied (a conflict) when
all its terms are satisfied; when exactly one term is unresolved and the rest
are satisfied, that term's negation can be derived (unit propagation). -/
def relIncompat (psol : List Assignment) (I : Incompat) : IncompatRel :=
  if I.all (fun pt => decide (relTerm psol pt.1 pt.2 = TermRel.satisfied)) then
    IncompatRel.satisfied
  else if I.any (fun pt => decide (relTerm psol pt.1 pt.2 = TermRel.contradicted)) then
    IncompatRel.other
  else
    match I.filter (fun pt => decide (relTerm psol pt.1 pt.2 ≠ TermRel.satisfied)) with
    | [pt] => IncompatRel.almost pt.1 pt.2
    | _ => IncompatRel.other

/-- The current decision level: the number of decisions taken. -/
def decisionLevel (psol : List Assignment) : Nat := psol.countP (fun a => a.isDecision)

/-- First conflicting incompatibility, if any. -/
def findConflict (psol : List Assignment) (store : List Incompat) : Option Incompat :=
  store.find? (fun I => decide (relIncompat psol I = IncompatRel.satisfied))

/-- First almost-satisfied incompatibility with its unresolved term. -/
def findAlmost (psol : List Assignment) (store : List Incompat) :
    Option (Incompat × Str × Term) :=
  store.findSome? (fun I =>
    match relIncompat psol I with
    | IncompatRel.almost p t => some (I, p, t)
    | _ => none)

/-- Modelled from the spec: unit propagation to a fixpoint.  Scans the
incompatibility store; a satisfied incompatibility is a conflict, an
almost-satisfied one lets the solver derive the negation of its unresolved
term; repeats until neither applies.  Returns `none` when the fuel runs
out. -/
def propagate : Nat → List Incompat → List Assignment →
    Option (Option Incompat × List Assignment)
  | 0, _, _ => none
  | fuel + 1, store, psol =>
    match findConflict psol store with
    | some I => some (some I, psol)
    | none =>
      match findAlmost psol store with
      | some (I, p, t) =>
        propagate fuel store (psol ++ [Assignment.derivation p t.negate (decisionLevel psol) I])
      | none => some (none, psol)

/-- Is the incompatibility satisfied by this partial solution? -/
def satisfiedB (psol : List Assignment) (I : Incompat) : Bool :=
  decide (relIncompat psol I = IncompatRel.satisfied)

/-- Index of the earliest prefix of the partial solution that satisfies the
incompatibility (the satisfier position). -/
def satisfierIdx (psol : List Assignment) (I : Incompat) : Option Nat :=
  (List.range psol.length).find? (fun k => satisfiedB (psol.take (k + 1)) I)

/-- Union of two incompatibilities' term lists, intersecting terms on a
shared package. -/
def mergeTerms (I J : Incompat) : Incompat :=
  J.foldl (fun acc pt =>
    match alookup pt.1 acc with
    | none => acc ++ [pt]
    | some t0 => acc.filter (fun q => decide (q.1 ≠ pt.1)) ++ [(pt.1, termIntersect t0 pt.2)]) I

/-- Modelled from the spec: the learned incompatibility obtained by resolving
a conflict against the cause of the satisfying derivation, eliminating the
shared package. -/
def priorCause (I cause : Incompat) (p : Str) : Incompat :=
  mergeTerms (I.filter (fun pt => decide (pt.1 ≠ p))) (cause.filter (fun pt => decide (pt.1 ≠ p)))

/-- A terminal incompatibility: empty, or a single positive root term
containing the root version (the spec's "satisfied unconditionally at the
root"). -/
def isTerminal (rootName : Str) (rootVersion : Version) (I : Incompat) : Bool :=
  I.isEmpty ||
    (match I with
     | [(p, Term.pos vs)] => decide (p = rootName) && vs.contains rootVersion
     | _ => false)

/-- Remove every assignment above the backjump level. -/
def backtrack (psol : List Assignment) (lvl : Nat) : List Assignment :=
  psol.filter (fun a => decide (a.level ≤ lvl))

/-- Solver-level errors; `fuelOut` is an artifact of the fueled embedding. -/
inductive SolveErr where
  | fuelOut
  | noSolution
  | providerError (msg : Str)
deriving DecidableEq, Repr

/-- Modelled from the spec (section 4.6, step 2): conflict resolution.
Returns the learned incompatibility and the decision level to backtrack to,
or terminal failure. -/
def resolveConflict (rootName : Str) (rootVersion : Version) :
    Nat → Incompat → List Assignment → Except SolveErr (Incompat × Nat)
  | 0, _, _ => Except.error SolveErr.fuelOut
  | fuel + 1, I, psol =>
    if isTerminal rootName rootVersion I then Except.error SolveErr.noSolution
    else
      match satisfierIdx psol I with
      | none => Except.error SolveErr.fuelOut
      | some k =>
        match psol.get? k with
        | none => Except.error SolveErr.fuelOut
        | some sat =>
          let prevIdx := (List.range k).find? (fun j => satisfiedB (psol.take (j + 1) ++ [sat]) I)
          let prevLevel :=
            match prevIdx with
            | some j => ((psol.get? j).map Assignment.level).getD 1
            | none => 1
          match sat with
          | Assignment.decision _ _ _ => Except.ok (I, prevLevel)
          | Assignment.derivation p _ lvl cause =>
            if prevLevel < lvl then Except.ok (I, prevLevel)
            else resolveConflict rootName rootVersion fuel (priorCause I cause p) psol

/-- The packages decided by the partial solution, with their versions. -/
def decisionsOf (psol : List Assignment) : List (Str × Version) :=
  psol.filterMap (fun a =>
    match a with
    | Assignment.decision p v _ => some (p, v)
    | _ => none)

/-- The packages decided by the partial solution. -/
def decidedPkgs (psol : List Assignment) : List Str := keysOf (decisionsOf psol)

/-- The packages positively constrained by the partial solution. -/
def positivePkgs (psol : List Assignment) : List Str :=
  (psol.filterMap (fun a =>
    match a with
    | Assignment.decision p _ _ => some p
    | Assignment.derivation p (Term.pos _) _ _ => some p
    | _ => none)).dedup

/-- The spec's "undecided set": packages positively constrained but not yet
decided, each paired with its currently-allowed interval-set. -/
def candidatePkgs (psol : List Assignment) : List (Str × VS) :=
  ((positivePkgs psol).filter (fun p => decide (p ∉ decidedPkgs psol))).map
    (fun p => (p, ((psolConstraint psol p).map Term.toVS).getD fullVS))

/-- Fetch every candidate package in order (step 1 of
`choose_package_version`); the first failure aborts. -/
def ensureAll (remote : Fetcher) : Cache → List Str → Except Str Cache
  | cache, [] => Except.ok cache
  | cache, p :: rest =>
    match ensure_package_fetched remote cache p with
    | Except.error e => Except.error e
    | Except.ok cache2 => ensureAll remote cache2 rest

/-- How many permitted versions of `p` lie in the allowed set (the count used
by `choose_package_with_fewest_versions`). -/
def countInRange (cache : Cache) (exact : List (Str × Version)) (p : Str) (vs : VS) : Nat :=
  (listAvailableVersions cache exact p).countP (fun v => vs.contains v)

/-- The candidate with the fewest permitted versions (ties keep the earlier
candidate), as in `choose_package_with_fewest_versions`. -/
def pickFewest (cache : Cache) (exact : List (Str × Version)) :
    List (Str × VS) → Option (Str × VS)
  | [] => none
  | c :: rest =>
    some (rest.foldl (fun best x =>
      if countInRange cache exact x.1 x.2 < countInRange cache exact best.1 best.2 then x
      else best) c)

/-- The first permitted version inside the allowed set (the chosen version:
the permitted list is newest-first). -/
def firstInRange (cache : Cache) (exact : List (Str × Version)) (p : Str) (vs : VS) :
    Option Version :=
  (listAvailableVersions cache exact p).find? (fun v => vs.contains v)

/-- The incompatibilities contributed by the dependencies of a chosen
release: "not (package = version and dependency outside its range)". -/
def depIncompats (p : Str) (v : Version) (deps : List (Str × VS)) : List Incompat :=
  deps.map (fun d => [(p, Term.pos (exactVS v)), (d.1, Term.neg d.2)])

/-- The solver state: metadata cache, incompatibility store, partial
solution. -/
structure SState where
  cache : Cache
  store : List Incompat
  psol : List Assignment
deriving Repr

/-- Modelled from the spec (section 4.6): the conflict-driven resolution
loop.  Each iteration propagates to a fixpoint; a conflict is resolved into a
learned incompatibility followed by backtracking; otherwise, if no positively
constrained package is undecided the accumulated decisions are the solution,
else the policy layer chooses the next (package, version), the decision is
appended and the release's dependencies are folded in as fresh
incompatibilities. -/
def solveLoop (remote : Fetcher) (locked : List (Str × Version))
    (exact : List (Str × Version)) (rootName : Str) (rootVersion : Version) :
    Nat → SState → Except SolveErr (List (Str × Version))
  | 0, _ => Except.error SolveErr.fuelOut
  | fuel + 1, st =>
    match propagate (fuel + 1) st.store st.psol with
    | none => Except.error SolveErr.fuelOut
    | some (some I, psol2) =>
      match resolveConflict rootName rootVersion (fuel + 1) I psol2 with
      | Except.error e => Except.error e
      | Except.ok (learned, lvl) =>
        solveLoop remote locked exact rootName rootVersion fuel
          { st with store := st.store ++ [learned], psol := backtrack psol2 lvl }
    | some (none, psol2) =>
      match candidatePkgs psol2 with
      | [] => Except.ok (decisionsOf psol2)
      | c :: cs =>
        match ensureAll remote st.cache ((c :: cs).map (fun q => q.1)) with
        | Except.error e => Except.error (SolveErr.providerError e)
        | Except.ok cache2 =>
          match pickFewest cache2 exact (c :: cs) with
          | none => Except.error SolveErr.fuelOut
          | some (p, vs) =>
            match firstInRange cache2 exact p vs with
            | none =>
              solveLoop remote locked exact rootName rootVersion fuel
                { cache := cache2, store := st.store ++ [[(p, Term.pos vs)]], psol := psol2 }
            | some v =>
              let psol3 := psol2 ++ [Assignment.decision p v (decisionLevel psol2 + 1)]
              match get_dependencies remote locked cache2 p v with
              | Except.error e => Except.error (SolveErr.providerError e)
              | Except.ok (cache3, Dependencies.unknown) =>
                solveLoop remote locked exact rootName rootVersion fuel
                  { cache := cache3, store := st.store ++ [[(p, Term.pos (exactVS v))]],
                    psol := psol3 }
              | Except.ok (cache3, Dependencies.known deps) =>
                solveLoop remote locked exact rootName rootVersion fuel
                  { cache := cache3, store := st.store ++ depIncompats p v deps, psol := psol3 }

/-- The synthetic root version `0.0.0`. -/
def rootVersion0 : Version := ⟨0, 0, 0, none⟩

/-- The initial solver state for a resolution call: the provided packages
plus the synthetic root in the cache, and the "root must be chosen"
incompatibility. -/
def initState (provided : List (Str × Package)) (root_name : Str)
    (requirements : List (Str × Dependency)) : SState :=
  let rootRelease : Release :=
    { version := rootVersion0, requirements := requirements,
      retirement_status := none, outer_checksum := [] }
  let root : Package :=
    { name := root_name, repository := ("local").data, releases := [rootRelease] }
  { cache := insertKV root_name root provided,
    store := [[(root_name, Term.neg (exactVS rootVersion0))]],
    psol := [] }

/-- `resolve_versions` from the source: build the root requirements, compute
the exact-pin set, seed the synthetic root package, run the search, and strip
the root from the result.  The search itself lives behind the `pubgrub`
library and is modelled from the spec as the fueled loop above; `fuel` bounds
its iterations and is no part of the source (the source loop is unbounded). -/
def resolve_versions (fuel : Nat) (package_fetcher : Fetcher)
    (provided_packages : List (Str × Package)) (root_name : Str)
    (dependencies : List (Str × Range)) (locked : List (Str × Version)) :
    Except ResolutionError (List (Str × Version)) :=
  match root_dependencies dependencies locked with
  | Except.error e => Except.error e
  | Except.ok requirements =>
    let exact_deps := exactDepsOf requirements
    match solveLoop package_fetcher locked exact_deps root_name rootVersion0 fuel
        (initState provided_packages root_name requirements) with
    | Except.error SolveErr.fuelOut => Except.error ResolutionError.fuelExhausted
    | Except.error SolveErr.noSolution => Except.error ResolutionError.noSolution
    | Except.error (SolveErr.providerError m) =>
      Except.error (ResolutionError.errorRetrievingDependencies m)
    | Except.ok sol => Except.ok (sol.filter (fun q => decide (q.1 ≠ root_name)))

/-- The root requirement map produced for a single wildcard dependency. -/
def c6reqs (name : Str) : List (Str × Dependency) := [(name, plainDependency Range.any)]

/-- The initial "root must be chosen" incompatibility. -/
def c6I0 (rn : Str) : Incompat := [(rn, Term.neg (exactVS rootVersion0))]

/-- The dependency incompatibility linking the root to the required package. -/
def c6I1 (rn name : Str) : Incompat :=
  [(rn, Term.pos (exactVS rootVersion0)), (name, Term.neg fullVS)]

/-- Partial solution after the first unit propagation: the root is forced. -/
def c6psol1 (rn : Str) : List Assignment :=
  [Assignment.derivation rn (Term.pos (exactVS rootVersion0)) 0 (c6I0 rn)]

/-- Partial solution after deciding the root. -/
def c6psol2 (rn : Str) : List Assignment :=
  c6psol1 rn ++ [Assignment.decision rn rootVersion0 1]

/-- Partial solution after propagating the root's dependency. -/
def c6psol3 (rn name : Str) : List Assignment :=
  c6psol2 rn ++ [Assignment.derivation name (Term.pos fullVS) 1 (c6I1 rn name)]

/-- Partial solution after deciding the required package at version `w`. -/
def c6psol4 (rn name : Str) (w : Version) : List Assignment :=
  c6psol3 rn name ++ [Assignment.decision name w 2]

/-- The synthetic root package seeded by `initState` for this scenario. -/
def c6root (rn name : Str) : Package :=
  { name := rn, repository := ("local").data,
    releases := [{ version := rootVersion0, requirements := c6reqs name,
                   retirement_status := none, outer_checksum := [] }] }

/-- The initial metadata cache: just the synthetic root. -/
def c6cache0 (rn name : Str) : Cache := [(rn, c6root rn name)]

instance : Inhabited Term := ⟨Term.pos []⟩

instance : Inhabited Assignment := ⟨Assignment.decision [] rootVersion0 0⟩

/-- The cache after fetching the required package. -/
def c6cache1 (rn name : Str) (pkg : Package) : Cache :=
  insertKV name { pkg with releases := sortReleases pkg.releases } (c6cache0 rn name)

/-- The synthetic root package for an empty requirement set. -/
def c6rootE (rn : Str) : Package :=
  { name := rn, repository := ("local").data,
    releases := [{ version := rootVersion0, requirements := [],
                   retirement_status := none, outer_checksum := [] }] }

/-- The initial cache for an empty requirement set over provided packages. -/
def c6cacheE (rn : Str) (prov : List (Str × Package)) : Cache :=
  insertKV rn (c6rootE rn) prov

/-- A two-release dependency-free package for the C6 witness. -/
def c6wPkg : Package :=
  ⟨("a").data, ("h").data,
   [⟨⟨1, 0, 0, none⟩, [], none, []⟩, ⟨⟨2, 0, 0, none⟩, [], none, []⟩]⟩

/-- The fetcher serving the C6 witness package. -/
def c6wRemote : Fetcher := fun _ => Except.ok c6wPkg

/-- The package whose newest release carries an unsatisfiable dependency. -/
def c6cexPkgA : Package :=
  ⟨("a").data, ("h").data,
   [⟨⟨2, 0, 0, none⟩, [(("q").data, plainDependency (Range.gte ⟨1, 0, 0, none⟩))], none, []⟩,
    ⟨⟨1, 0, 0, none⟩, [], none, []⟩]⟩

/-- The dependency package offering only `0.5.0`. -/
def c6cexPkgQ : Package := ⟨("q").data, ("h").data, [⟨⟨0, 5, 0, none⟩, [], none, []⟩]⟩

/-- The fetcher for the C6 counterexample. -/
def c6cexRemote : Fetcher := fun n =>
  if n = ("a").data then Except.ok c6cexPkgA
  else if n = ("q").data then Except.ok c6cexPkgQ
  else Except.error ("nf").data

/-- All intervals of the set are the exact singleton interval of `v`. -/
def allExact (v : Version) (S : VS) : Prop := ∀ s ∈ S, s = (LB.inc v, UB.inc v)

/-- The synthetic root package built by `initState`. -/
def c10root (rn : Str) (reqs : List (Str × Dependency)) : Package :=
  { name := rn, repository := ("local").data,
    releases := [{ version := rootVersion0, requirements := reqs,
                   retirement_status := none, outer_checksum := [] }] }

/-- The incompatibility tying the root decision to the seeded requirement of a
locked package. -/
def c10In (rn n : Str) (V : Version) : Incompat :=
  [(rn, Term.pos (exactVS rootVersion0)), (n, Term.neg ((Range.bare V).toVS))]

/-- The solver-state invariant carrying everything needed to conclude that the
locked package ends up decided at its locked version. -/
def c10Inv (rn n : Str) (V : Version) (reqs : List (Str × Dependency)) (st : SState) : Prop :=
  alookup rn st.cache = some (c10root rn reqs) ∧
  (∃ rest, st.store = c6I0 rn :: rest) ∧
  (∀ I ∈ st.store, I ≠ []) ∧
  ((∃ v l, Assignment.decision rn v l ∈ st.psol) → c10In rn n V ∈ st.store) ∧
  (∀ v l, Assignment.decision n v l ∈ st.psol → v = V) ∧
  (∀ v l, Assignment.decision rn v l ∈ st.psol → v = rootVersion0) ∧
  (Assignment.derivation rn (Term.pos (exactVS rootVersion0)) 0 (c6I0 rn) ∈ st.psol ∨
    st.psol = [])

/-- A fetcher serving a single one-release package, for the C10 witness. -/
def c10wRemote : Fetcher :=
  fun _ => Except.ok ⟨("q").data, ("h").data, [⟨⟨1, 2, 3, none⟩, [], none, []⟩]⟩

theorem lexNat_refl (x : Nat) (k : Bool) : lexNat x x k = k := by
  simp [lexNat]

theorem lexNat_total {x y : Nat} {k1 k2 : Bool} (h : k1 = true ∨ k2 = true) :
    lexNat x y k1 = true ∨ lexNat y x k2 = true := by
  unfold lexNat
  rcases Nat.lt_trichotomy x y with hlt | heq | hgt
  · left; simp [hlt]
  · subst heq
    rcases h with h | h
    · left; simp [h]
    · right; simp [h]
  · right; simp [hgt]

theorem lexNat_trans {x y z : Nat} {k1 k2 k3 : Bool} (h1 : lexNat x y k1 = true)
    (h2 : lexNat y z k2 = true) (hk : k1 = true → k2 = true → k3 = true) :
    lexNat x z k3 = true := by
  unfold lexNat at h1 h2 ⊢
  by_cases hxy : x < y
  · have hyz : y ≤ z := by
      by_contra hc
      have hzy : z < y := by omega
      have hyz' : ¬ y < z := by omega
      simp [hyz', hzy] at h2
    have hxz : x < z := Nat.lt_of_lt_of_le hxy hyz
    simp [hxz]
  · by_cases hyx : y < x
    · simp [hxy, hyx] at h1
    · have hxy' : x = y := by omega
      subst hxy'
      have hk1 : k1 = true := by simpa [hxy] using h1
      by_cases hxz : x < z
      · simp [hxz]
      · by_cases hzx : z < x
        · simp [hxz, hzx] at h2
        · have hk2 : k2 = true := by simpa [hxz, hzx] using h2
          simp [hxz, hzx, hk hk1 hk2]

theorem strLeB_refl (s : Str) : strLeB s s = true := by
  induction s with
  | nil => rfl
  | cons c cs ih => simp [strLeB, lexNat_refl, ih]

theorem strLeB_total (s t : Str) : strLeB s t = true ∨ strLeB t s = true := by
  induction s generalizing t with
  | nil => left; rfl
  | cons c cs ih =>
    cases t with
    | nil => right; rfl
    | cons d ds => exact lexNat_total (ih ds)

theorem strLeB_trans {s t u : Str} (h1 : strLeB s t = true) (h2 : strLeB t u = true) :
    strLeB s u = true := by
  induction s generalizing t u with
  | nil => rfl
  | cons c cs ih =>
    cases t with
    | nil => simp [strLeB] at h1
    | cons d ds =>
      cases u with
      | nil => simp [strLeB] at h2
      | cons e es =>
        exact lexNat_trans h1 h2 (fun ha hb => ih ha hb)

theorem preLeB_refl (p : Option Str) : preLeB p p = true := by
  cases p <;> simp [preLeB, strLeB_refl]

theorem preLeB_total (p q : Option Str) : preLeB p q = true ∨ preLeB q p = true := by
  cases p with
  | none => cases q <;> simp [preLeB]
  | some s =>
    cases q with
    | none => simp [preLeB]
    | some t => exact strLeB_total s t

theorem preLeB_trans {p q r : Option Str} (h1 : preLeB p q = true) (h2 : preLeB q r = true) :
    preLeB p r = true := by
  cases p <;> cases q <;> cases r <;> simp_all [preLeB]
  exact strLeB_trans h1 h2

theorem Version.leB_refl (a : Version) : Version.leB a a = true := by
  simp [Version.leB, lexNat_refl, preLeB_refl]

theorem Version.leB_total (a b : Version) :
    Version.leB a b = true ∨ Version.leB b a = true :=
  lexNat_total (lexNat_total (lexNat_total (preLeB_total a.pre b.pre)))

theorem Version.leB_trans {a b c : Version} (h1 : Version.leB a b = true)
    (h2 : Version.leB b c = true) : Version.leB a c = true := by
  refine lexNat_trans h1 h2 (fun u1 u2 => ?_)
  refine lexNat_trans u1 u2 (fun w1 w2 => ?_)
  refine lexNat_trans w1 w2 (fun q1 q2 => ?_)
  exact preLeB_trans q1 q2

theorem alookup_filter_ne {α : Type} {k k' : Str} (h : k ≠ k') (l : List (Str × α)) :
    alookup k' (l.filter (fun p => decide (p.1 ≠ k))) = alookup k' l := by
  induction l with
  | nil => rfl
  | cons p rest ih =>
    cases p with
    | mk pk pv =>
      by_cases hpk : pk = k
      · subst hpk
        have hne : ¬ pk = k' := fun hc => h (hc ▸ rfl)
        have hd : (decide (pk ≠ pk)) = false := by simp
        simp only [List.filter_cons, hd, cond_false]
        simp only [alookup, if_neg hne] at ih ⊢
        simpa using ih
      · have hd : (decide (pk ≠ k)) = true := by simpa using hpk
        simp only [List.filter_cons, hd, cond_true]
        simp only [alookup]
        by_cases hk' : pk = k'
        · simp [hk']
        · simp only [if_neg hk']
          exact ih

theorem alookup_insert_self {α : Type} (k : Str) (v : α) (l : List (Str × α)) :
    alookup k (insertKV k v l) = some v := by
  simp [insertKV, alookup]

theorem alookup_insert_ne {α : Type} {k k' : Str} (v : α) (l : List (Str × α))
    (h : k ≠ k') : alookup k' (insertKV k v l) = alookup k' l := by
  simp only [insertKV, alookup, if_neg h]
  exact alookup_filter_ne h l

theorem alookup_eq_some_mem {α : Type} {k : Str} {v : α} {l : List (Str × α)}
    (h : alookup k l = some v) : (k, v) ∈ l := by
  induction l with
  | nil => simp [alookup] at h
  | cons p rest ih =>
    cases p with
    | mk pk pv =>
      by_cases hk : pk = k
      · subst hk
        have hv : pv = v := by simpa [alookup] using h
        subst hv
        exact List.mem_cons_self _ _
      · simp only [alookup, if_neg hk] at h
        exact List.mem_cons_of_mem _ (ih h)

theorem mem_alookup_eq_some {α : Type} {k : Str} {v : α} {l : List (Str × α)}
    (hnd : (keysOf l).Nodup) (h : (k, v) ∈ l) : alookup k l = some v := by
  induction l with
  | nil => simp at h
  | cons p rest ih =>
    cases p with
    | mk pk pv =>
      simp only [keysOf, List.map_cons, List.nodup_cons] at hnd
      rcases List.mem_cons.mp h with heq | hmem
      · cases heq
        simp [alookup]
      · have hk : pk ≠ k := by
          intro hc
          subst hc
          exact hnd.1 (List.mem_map_of_mem (fun q => q.1) hmem)
        simp only [alookup, if_neg hk]
        exact ih hnd.2 hmem

theorem alookup_none_iff_not_mem_keys {α : Type} {k : Str} {l : List (Str × α)} :
    alookup k l = none ↔ k ∉ keysOf l := by
  induction l with
  | nil => simp [alookup, keysOf]
  | cons p rest ih =>
    cases p with
    | mk pk pv =>
      simp only [keysOf, List.map_cons, List.mem_cons]
      by_cases hk : pk = k
      · subst hk
        have hL : alookup pk ((pk, pv) :: rest) = some pv := by simp [alookup]
        constructor
        · intro hc
          rw [hL] at hc
          exact absurd hc (by simp)
        · intro hc
          exact absurd (Or.inl rfl) hc
      · simp only [alookup, if_neg hk]
        rw [ih]
        simp only [keysOf]
        constructor
        · intro hnm hc
          rcases hc with hc | hc
          · exact hk hc.symm
          · exact hnm hc
        · intro hnm hc
          exact hnm (Or.inr hc)

instance : IsTotal Release relLe :=
  ⟨fun a b => Version.leB_total a.version b.version⟩

instance : IsTrans Release relLe :=
  ⟨fun _ _ _ h1 h2 => Version.leB_trans h1 h2⟩

theorem sortReleases_eq_filter_split (rs : List Release) :
    sortReleases rs =
      ((List.insertionSort relLe rs).reverse.filter (fun r => !r.version.isPre)) ++
      ((List.insertionSort relLe rs).reverse.filter (fun r => r.version.isPre)) := by
  simp only [sortReleases, List.partition_eq_filter_filter]
  rfl

theorem sortReleases_perm (rs : List Release) : (sortReleases rs).Perm rs := by
  rw [sortReleases_eq_filter_split]
  have h1 : (((List.insertionSort relLe rs).reverse.filter (fun r => !r.version.isPre)) ++
      ((List.insertionSort relLe rs).reverse.filter (fun r => r.version.isPre))).Perm
      ((List.insertionSort relLe rs).reverse) := by
    have := List.filter_append_perm (fun r : Release => !r.version.isPre)
      (List.insertionSort relLe rs).reverse
    simpa using this
  exact (h1.trans (List.reverse_perm _)).trans (List.perm_insertionSort relLe rs)

theorem sorted_reverse_insertionSort (rs : List Release) :
    List.Pairwise relGe (List.insertionSort relLe rs).reverse := by
  rw [List.pairwise_reverse]
  exact List.sorted_insertionSort relLe rs

theorem sortReleases_filter_nonpre (rs : List Release) :
    (sortReleases rs).filter (fun r => !r.version.isPre) =
      (List.insertionSort relLe rs).reverse.filter (fun r => !r.version.isPre) := by
  rw [sortReleases_eq_filter_split, List.filter_append]
  rw [List.filter_filter, List.filter_filter]
  simp

theorem sortReleases_filter_pre (rs : List Release) :
    (sortReleases rs).filter (fun r => r.version.isPre) =
      (List.insertionSort relLe rs).reverse.filter (fun r => r.version.isPre) := by
  rw [sortReleases_eq_filter_split, List.filter_append]
  rw [List.filter_filter, List.filter_filter]
  simp

theorem sortReleases_split (rs : List Release) :
    sortReleases rs =
      (sortReleases rs).filter (fun r => !r.version.isPre) ++
      (sortReleases rs).filter (fun r => r.version.isPre) := by
  rw [sortReleases_filter_nonpre, sortReleases_filter_pre]
  exact sortReleases_eq_filter_split rs

theorem sortReleases_nonpre_sorted (rs : List Release) :
    List.Pairwise relGe ((sortReleases rs).filter (fun r => !r.version.isPre)) := by
  rw [sortReleases_filter_nonpre]
  exact (sorted_reverse_insertionSort rs).filter _

theorem sortReleases_pre_sorted (rs : List Release) :
    List.Pairwise relGe ((sortReleases rs).filter (fun r => r.version.isPre)) := by
  rw [sortReleases_filter_pre]
  exact (sorted_reverse_insertionSort rs).filter _

/-- C4: for every package whose fetch succeeds, the releases stored in the
metadata cache by `ensure_package_fetched` are a permutation of the fetched
releases arranged as all non-prerelease releases followed by all prerelease
releases, each group sorted by version descending; and once the name is
cached, a further `ensure_package_fetched` makes no fetch call (the result
does not depend on the fetcher) and leaves the cache unchanged. -/
theorem c4_ensure_fetched_ordering (remote : Fetcher) (cache : Cache) (name : Str)
    (package : Package) (h1 : alookup name cache = none)
    (h2 : remote name = Except.ok package) :
    ensure_package_fetched remote cache name =
      Except.ok (insertKV name { package with releases := sortReleases package.releases } cache) ∧
    (sortReleases package.releases).Perm package.releases ∧
    sortReleases package.releases =
      (sortReleases package.releases).filter (fun r => !r.version.isPre) ++
      (sortReleases package.releases).filter (fun r => r.version.isPre) ∧
    List.Pairwise relGe ((sortReleases package.releases).filter (fun r => !r.version.isPre)) ∧
    List.Pairwise relGe ((sortReleases package.releases).filter (fun r => r.version.isPre)) ∧
    (∀ g : Fetcher, ensure_package_fetched g
        (insertKV name { package with releases := sortReleases package.releases } cache) name =
      Except.ok (insertKV name { package with releases := sortReleases package.releases } cache)) := by
  refine ⟨?_, sortReleases_perm _, sortReleases_split _, sortReleases_nonpre_sorted _,
    sortReleases_pre_sorted _, ?_⟩
  · simp [ensure_package_fetched, h1, h2]
  · intro g
    simp [ensure_package_fetched, alookup_insert_self]

theorem c4_ensure_fetched_ordering_witness :
    ensure_package_fetched (fun _ => Except.ok wPackage) [] ['p'] =
      Except.ok (insertKV ['p'] { wPackage with releases := sortReleases wPackage.releases } []) ∧
    (sortReleases wPackage.releases).Perm wPackage.releases ∧
    (sortReleases wPackage.releases).map (fun r => r.version) =
      [⟨0, 2, 0, none⟩, ⟨0, 1, 0, none⟩, ⟨0, 3, 0, some ['r', 'c']⟩] :=
  ⟨(c4_ensure_fetched_ordering (fun _ => Except.ok wPackage) [] ['p'] wPackage rfl rfl).1,
   (c4_ensure_fetched_ordering (fun _ => Except.ok wPackage) [] ['p'] wPackage rfl rfl).2.1,
   by decide⟩

/-- C7: for an uncached name whose fetch fails, `ensure_package_fetched`
propagates the failure, the cache entry stays absent (the call returns the
error without producing a cache), a later call with a working fetcher
performs the fetch, and `get_dependencies` propagates the same failure,
aborting the resolution step. -/
theorem c7_fetch_failure_propagates (remote : Fetcher) (cache : Cache) (name : Str)
    (e : Str) (locked : List (Str × Version)) (version : Version)
    (h1 : alookup name cache = none) (h2 : remote name = Except.error e) :
    ensure_package_fetched remote cache name = Except.error e ∧
    (∀ (g : Fetcher) (package : Package), g name = Except.ok package →
      ensure_package_fetched g cache name =
        Except.ok (insertKV name { package with releases := sortReleases package.releases } cache)) ∧
    get_dependencies remote locked cache name version = Except.error e := by
  refine ⟨?_, ?_, ?_⟩
  · simp [ensure_package_fetched, h1, h2]
  · intro g package hg
    simp [ensure_package_fetched, h1, hg]
  · simp [get_dependencies, ensure_package_fetched, h1, h2]

theorem c7_fetch_failure_propagates_witness :
    ensure_package_fetched (fun _ => Except.error ['x']) [] ['p'] = Except.error ['x'] ∧
    ensure_package_fetched (fun _ => Except.ok wPackage) [] ['p'] =
      Except.ok (insertKV ['p'] { wPackage with releases := sortReleases wPackage.releases } []) ∧
    get_dependencies (fun _ => Except.error ['x']) [] [] ['p'] ⟨0, 1, 0, none⟩ =
      Except.error ['x'] :=
  ⟨(c7_fetch_failure_propagates (fun _ => Except.error ['x']) [] ['p'] ['x'] [] ⟨0, 1, 0, none⟩
      rfl rfl).1,
   (c7_fetch_failure_propagates (fun _ => Except.error ['x']) [] ['p'] ['x'] [] ⟨0, 1, 0, none⟩
      rfl rfl).2.1 (fun _ => Except.ok wPackage) wPackage rfl,
   (c7_fetch_failure_propagates (fun _ => Except.error ['x']) [] ['p'] ['x'] [] ⟨0, 1, 0, none⟩
      rfl rfl).2.2⟩

/-- C1: once the release for `(name, version)` is located and it is retired,
`get_dependencies` answers Unknown exactly when the locked set does not pin
`name` to `version`; when it does, the retired release's requirements are
translated and answered as Known. -/
theorem c1_retirement_filter (remote : Fetcher) (locked : List (Str × Version))
    (cache cache2 : Cache) (name : Str) (version : Version) (package : Package)
    (release : Release)
    (h1 : ensure_package_fetched remote cache name = Except.ok cache2)
    (h2 : alookup name cache2 = some package)
    (h3 : package.releases.find? (fun r => decide (r.version = version)) = some release)
    (h4 : release.is_retired = true) :
    (alookup name locked ≠ some version →
      get_dependencies remote locked cache name version =
        Except.ok (cache2, Dependencies.unknown)) ∧
    (alookup name locked = some version →
      get_dependencies remote locked cache name version =
        Except.ok (cache2, Dependencies.known (release.requirements.map
          (fun p => (p.1, p.2.requirement.toVS))))) := by
  constructor
  · intro hne
    simp [get_dependencies, h1, h2, h3, h4, hne]
  · intro heq
    simp [get_dependencies, h1, h2, h3, h4, heq]

theorem c1_retirement_filter_witness :
    (get_dependencies (fun _ => Except.error ['x']) [] [(['q'], wRetPackage)] ['q']
        ⟨0, 2, 0, none⟩ = Except.ok ([(['q'], wRetPackage)], Dependencies.unknown)) ∧
    (get_dependencies (fun _ => Except.error ['x']) [(['q'], ⟨0, 2, 0, none⟩)]
        [(['q'], wRetPackage)] ['q'] ⟨0, 2, 0, none⟩ =
      Except.ok ([(['q'], wRetPackage)], Dependencies.known (wRetired.requirements.map
        (fun p => (p.1, p.2.requirement.toVS))))) :=
  ⟨(c1_retirement_filter (fun _ => Except.error ['x']) [] [(['q'], wRetPackage)]
      [(['q'], wRetPackage)] ['q'] ⟨0, 2, 0, none⟩ wRetPackage wRetired rfl rfl (by decide)
      rfl).1 (by decide),
   (c1_retirement_filter (fun _ => Except.error ['x']) [(['q'], ⟨0, 2, 0, none⟩)]
      [(['q'], wRetPackage)] [(['q'], wRetPackage)] ['q'] ⟨0, 2, 0, none⟩ wRetPackage wRetired
      rfl rfl (by decide) rfl).2 (by decide)⟩

theorem filter_version_eq_of_mem {rs : List Release} {V : Version}
    (hnd : (rs.map (fun r => r.version)).Nodup) (hm : V ∈ rs.map (fun r => r.version)) :
    (rs.filter (fun r => decide (r.version = V))).map (fun r => r.version) = [V] := by
  induction rs with
  | nil => simp at hm
  | cons r rest ih =>
    simp only [List.map_cons, List.nodup_cons] at hnd
    by_cases hv : r.version = V
    · have hnm : V ∉ rest.map (fun r => r.version) := hv ▸ hnd.1
      have hfe : rest.filter (fun r => decide (r.version = V)) = [] := by
        rw [List.filter_eq_nil_iff]
        intro a ha
        simp only [decide_eq_true_eq]
        intro hc
        exact hnm (hc ▸ List.mem_map_of_mem (fun r => r.version) ha)
      simp [List.filter_cons, hv, hfe]
    · rcases List.mem_cons.mp hm with hc | hc
      · exact absurd hc.symm hv
      · simp only [List.filter_cons, decide_eq_true_eq, hv, if_false]
        simpa using ih hnd.2 hc

theorem filter_version_eq_of_not_mem {rs : List Release} {V : Version}
    (hm : V ∉ rs.map (fun r => r.version)) :
    (rs.filter (fun r => decide (r.version = V))).map (fun r => r.version) = [] := by
  induction rs with
  | nil => rfl
  | cons r rest ih =>
    simp only [List.map_cons, List.mem_cons, not_or] at hm
    simp only [List.filter_cons, decide_eq_true_eq]
    rw [if_neg (fun hc => hm.1 hc.symm)]
    exact ih hm.2

/-- C2: when a package is pinned in the exact-pin set, the permitted-version
list given to `choose_package_version` contains only the pinned version; it
is exactly `[V]` when `V` occurs among the fetched releases and empty
otherwise. -/
theorem c2_exact_pin_filter (cache : Cache) (exact_only : List (Str × Version))
    (name : Str) (V : Version) (package : Package)
    (h1 : alookup name exact_only = some V)
    (h2 : alookup name cache = some package)
    (hnd : (package.releases.map (fun r => r.version)).Nodup) :
    (∀ v ∈ listAvailableVersions cache exact_only name, v = V) ∧
    (V ∈ package.releases.map (fun r => r.version) →
      listAvailableVersions cache exact_only name = [V]) ∧
    (V ∉ package.releases.map (fun r => r.version) →
      listAvailableVersions cache exact_only name = []) := by
  have hl : listAvailableVersions cache exact_only name =
      (package.releases.filter (fun r => decide (r.version = V))).map (fun r => r.version) := by
    simp [listAvailableVersions, h2, h1]
  refine ⟨?_, ?_, ?_⟩
  · intro v hv
    rw [hl] at hv
    rcases List.mem_map.mp hv with ⟨r, hr, hvr⟩
    have := (List.mem_filter.mp hr).2
    simp only [decide_eq_true_eq] at this
    rw [← hvr, this]
  · intro hm
    rw [hl]
    exact filter_version_eq_of_mem hnd hm
  · intro hm
    rw [hl]
    exact filter_version_eq_of_not_mem hm

theorem c2_exact_pin_filter_witness :
    (listAvailableVersions [(['p'], wPackage)] [(['p'], ⟨0, 2, 0, none⟩)] ['p'] =
      [⟨0, 2, 0, none⟩]) ∧
    (listAvailableVersions [(['p'], wPackage)] [(['p'], ⟨9, 9, 9, none⟩)] ['p'] = []) :=
  ⟨(c2_exact_pin_filter [(['p'], wPackage)] [(['p'], ⟨0, 2, 0, none⟩)] ['p'] ⟨0, 2, 0, none⟩
      wPackage rfl rfl (by decide)).2.1 (by decide),
   (c2_exact_pin_filter [(['p'], wPackage)] [(['p'], ⟨9, 9, 9, none⟩)] ['p'] ⟨9, 9, 9, none⟩
      wPackage rfl rfl (by decide)).2.2 (by decide)⟩

theorem alookup_exactDeps_none {requirements : List (Str × Dependency)} {name : Str}
    (h : name ∉ keysOf requirements) : alookup name (exactDepsOf requirements) = none := by
  induction requirements with
  | nil => rfl
  | cons p rest ih =>
    simp only [keysOf, List.map_cons, List.mem_cons, not_or] at h
    simp only [exactDepsOf, List.filterMap_cons]
    cases hp : parse_exact_version p.2.requirement.toStr with
    | none => exact ih h.2
    | some w =>
      have hne : ¬ p.1 = name := fun hc => h.1 (hc ▸ rfl)
      show alookup name ((p.1, w) :: exactDepsOf rest) = none
      rw [show alookup name ((p.1, w) :: exactDepsOf rest) =
        alookup name (exactDepsOf rest) from if_neg hne]
      exact ih h.2

/-- C9: the exact-pin set is computed only from the merged root requirements;
a package pinned with exact syntax inside some release's requirement map but
absent from the root requirements is not in the exact-pin set, and its
permitted-version list is unrestricted (all cached versions). -/
theorem c9_exact_pins_root_only (requirements : List (Str × Dependency)) (cache : Cache)
    (name qname : Str) (package package2 : Package) (release : Release) (d : Dependency)
    (w : Version)
    (hq : (qname, package2) ∈ cache) (hrel : release ∈ package2.releases)
    (hd : (name, d) ∈ release.requirements)
    (hexact : parse_exact_version d.requirement.toStr = some w)
    (hroot : name ∉ keysOf requirements)
    (hc : alookup name cache = some package) :
    alookup name (exactDepsOf requirements) = none ∧
    listAvailableVersions cache (exactDepsOf requirements) name =
      package.releases.map (fun r => r.version) := by
  have hnone : alookup name (exactDepsOf requirements) = none := alookup_exactDeps_none hroot
  refine ⟨hnone, ?_⟩
  unfold listAvailableVersions
  rw [hc, hnone]
  simp

theorem c9_exact_pins_root_only_witness :
    alookup ['t'] (exactDepsOf []) = none ∧
    listAvailableVersions [(['s'], wDepPackage), (['t'], wPackage)] (exactDepsOf []) ['t'] =
      wPackage.releases.map (fun r => r.version) :=
  c9_exact_pins_root_only [] [(['s'], wDepPackage), (['t'], wPackage)] ['t'] ['s']
    wPackage wDepPackage
    { version := ⟨1, 0, 0, none⟩,
      requirements := [(['t'], plainDependency (Range.bare ⟨1, 0, 0, none⟩))],
      retirement_status := none, outer_checksum := [] }
    (plainDependency (Range.bare ⟨1, 0, 0, none⟩)) ⟨1, 0, 0, none⟩
    (by decide) (by decide) (by decide) (by decide) (by decide) (by decide)

/-- C5 (amended): `parse_exact_version` returns a version exactly when, after
trimming, the string starts with `==` or an ASCII digit and the string with
every `==` occurrence removed (trimmed again) parses as a Version. -/
theorem c5_exact_pin_detector (s : Str) :
    parse_exact_version s = exactPinAmendedRef s := by
  unfold parse_exact_version exactPinAmendedRef
  cases h : startsWithEqEq (trimChars s) || firstIsDigit (trimChars s) with
  | false => simp [h]
  | true =>
    simp only [h, if_true]
    cases hp : parseVersion (trimChars (replaceEqEq (trimChars s))) <;> simp [hp]

theorem c5_exact_pin_detector_witness :
    parse_exact_version ("== 1.2.3".data) = some ⟨1, 2, 3, none⟩ ∧
    exactPinAmendedRef ("== 1.2.3".data) = some ⟨1, 2, 3, none⟩ :=
  ⟨by rw [c5_exact_pin_detector]; decide, by decide⟩

/-- C5 counterexample: on `"==1.0.0=="` the code removes every `==` and
parses `1.0.0`, while the claim's reading (strip only the prefix and parse
the remainder) yields no exact version. -/
theorem c5_exact_pin_detector_cex :
    parse_exact_version ("==1.0.0==".data) = some ⟨1, 0, 0, none⟩ ∧
    exactPinClaimRef ("==1.0.0==".data) = none := by
  constructor <;> decide

theorem rootDepsLoop_locked_lookup {locked : List (Str × Version)}
    {E : List (Str × Range)} {acc m : List (Str × Dependency)} {name : Str} {V : Version}
    (hl : alookup name locked = some V)
    (hacc : alookup name acc = some (lockedDependency V))
    (hok : rootDepsLoop locked E acc = Except.ok m) :
    alookup name m = some (lockedDependency V) := by
  induction E generalizing acc with
  | nil =>
    simp only [rootDepsLoop] at hok
    cases hok
    exact hacc
  | cons p rest ih =>
    cases p with
    | mk n0 r0 =>
      cases hn0 : alookup n0 locked with
      | none =>
        have hok2 : rootDepsLoop locked rest (insertKV n0 (plainDependency r0) acc) =
            Except.ok m := by
          simpa only [rootDepsLoop, hn0] using hok
        have hne : n0 ≠ name := by
          intro hc
          rw [hc, hl] at hn0
          cases hn0
        exact ih ((alookup_insert_ne _ _ hne).trans hacc) hok2
      | some v0 =>
        by_cases hcv : r0.contains v0 = true
        · have hok2 : rootDepsLoop locked rest acc = Except.ok m := by
            simpa only [rootDepsLoop, hn0, hcv, if_true] using hok
          exact ih hacc hok2
        · exfalso
          have hbad : Except.error (ResolutionError.failure (lockConflictMsg n0 r0 v0)) =
              (Except.ok m : Except ResolutionError (List (Str × Dependency))) := by
            simpa only [rootDepsLoop, hn0, hcv, if_false] using hok
          cases hbad

theorem seedLocked_aux_not_mem {locked : List (Str × Version)}
    {acc : List (Str × Dependency)} {name : Str}
    (h : name ∉ keysOf locked) :
    alookup name (locked.foldl (fun acc p => insertKV p.1 (lockedDependency p.2) acc) acc) =
      alookup name acc := by
  induction locked generalizing acc with
  | nil => rfl
  | cons p rest ih =>
    simp only [keysOf, List.map_cons, List.mem_cons, not_or] at h
    simp only [List.foldl_cons]
    rw [ih h.2]
    exact alookup_insert_ne _ _ (fun hc => h.1 hc.symm)

theorem seedLocked_aux_lookup {locked : List (Str × Version)} {acc : List (Str × Dependency)}
    {name : Str} {V : Version}
    (hnd : (keysOf locked).Nodup) (h : alookup name locked = some V) :
    alookup name (locked.foldl (fun acc p => insertKV p.1 (lockedDependency p.2) acc) acc) =
      some (lockedDependency V) := by
  induction locked generalizing acc with
  | nil => cases h
  | cons p rest ih =>
    cases p with
    | mk k w =>
      simp only [keysOf, List.map_cons, List.nodup_cons] at hnd
      by_cases hk : k = name
      · subst hk
        have hV : w = V := by simpa [alookup] using h
        subst hV
        simp only [List.foldl_cons]
        have hnm : k ∉ keysOf rest := hnd.1
        rw [seedLocked_aux_not_mem hnm]
        exact alookup_insert_self _ _ _
      · simp only [alookup, if_neg hk] at h
        simp only [List.foldl_cons]
        exact ih hnd.2 h

theorem seedLocked_lookup {locked : List (Str × Version)} {name : Str} {V : Version}
    (hnd : (keysOf locked).Nodup) (h : alookup name locked = some V) :
    alookup name (seedLocked locked) = some (lockedDependency V) :=
  seedLocked_aux_lookup hnd h

theorem rootDepsLoop_error_of_violation {locked : List (Str × Version)}
    {E : List (Str × Range)} (acc : List (Str × Dependency)) {n : Str} {r : Range} {v : Version}
    (hmem : (n, r) ∈ E) (hl : alookup n locked = some v) (hnc : r.contains v = false) :
    ∃ n2 r2 v2, (n2, r2) ∈ E ∧ alookup n2 locked = some v2 ∧ r2.contains v2 = false ∧
      rootDepsLoop locked E acc =
        Except.error (ResolutionError.failure (lockConflictMsg n2 r2 v2)) := by
  induction E generalizing acc with
  | nil => cases hmem
  | cons p rest ih =>
    cases p with
    | mk n0 r0 =>
      cases hn0 : alookup n0 locked with
      | none =>
        have hmem2 : (n, r) ∈ rest := by
          rcases List.mem_cons.mp hmem with hc | hc
          · exfalso
            have hn : n0 = n := congrArg Prod.fst hc.symm
            rw [hn, hl] at hn0
            cases hn0
          · exact hc
        rcases ih (insertKV n0 (plainDependency r0) acc) hmem2 with ⟨n2, r2, v2, hm2, hl2, hc2, heq⟩
        refine ⟨n2, r2, v2, List.mem_cons_of_mem _ hm2, hl2, hc2, ?_⟩
        simpa only [rootDepsLoop, hn0] using heq
      | some v0 =>
        by_cases hcv : r0.contains v0 = true
        · have hmem2 : (n, r) ∈ rest := by
            rcases List.mem_cons.mp hmem with hc | hc
            · exfalso
              have hn : n0 = n := congrArg Prod.fst hc.symm
              have hr : r0 = r := congrArg Prod.snd hc.symm
              rw [hn, hl] at hn0
              cases hn0
              rw [hr] at hcv
              rw [hcv] at hnc
              cases hnc
            · exact hc
          rcases ih acc hmem2 with ⟨n2, r2, v2, hm2, hl2, hc2, heq⟩
          refine ⟨n2, r2, v2, List.mem_cons_of_mem _ hm2, hl2, hc2, ?_⟩
          simpa only [rootDepsLoop, hn0, hcv, if_true] using heq
        · refine ⟨n0, r0, v0, List.mem_cons_self _ _, hn0, by simpa using hcv, ?_⟩
          simp [rootDepsLoop, hn0, hcv]

/-- C3 (amended): a locked name whose explicit requirement's interval-set
does not contain the locked version makes root-requirement building fail with
a LockConflict message of exactly the documented shape, instantiated at a
violating (name, requirement, locked version) triple (the first one in
iteration order; when several requirements violate their locks, only the
first reached is reported).  When building succeeds, every locked explicit
requirement contains its locked version and the seeded exact requirement for
the locked version is kept. -/
theorem c3_lock_conflict (E : List (Str × Range)) (locked : List (Str × Version))
    (name : Str) (R : Range) (V : Version)
    (hmem : (name, R) ∈ E) (hlock : alookup name locked = some V)
    (hnd : (keysOf locked).Nodup) :
    (R.contains V = false →
      ∃ n2 R2 V2, (n2, R2) ∈ E ∧ alookup n2 locked = some V2 ∧ R2.contains V2 = false ∧
        root_dependencies E locked =
          Except.error (ResolutionError.failure (lockConflictMsg n2 R2 V2))) ∧
    (∀ m, root_dependencies E locked = Except.ok m →
      R.contains V = true ∧ alookup name m = some (lockedDependency V)) := by
  constructor
  · intro hnc
    exact rootDepsLoop_error_of_violation (seedLocked locked) hmem hlock hnc
  · intro m hok
    have hcv : R.contains V = true := by
      by_contra hc
      have hfalse : R.contains V = false := by
        cases hres : R.contains V
        · rfl
        · exact absurd hres hc
      rcases rootDepsLoop_error_of_violation (seedLocked locked) hmem hlock hfalse with
        ⟨n2, R2, V2, _, _, _, heq⟩
      rw [root_dependencies] at hok
      rw [heq] at hok
      cases hok
    refine ⟨hcv, ?_⟩
    exact rootDepsLoop_locked_lookup hlock (seedLocked_lookup hnd hlock) hok

theorem c3_lock_conflict_witness :
    Range.contains (Range.gte ⟨1, 0, 0, none⟩) ⟨1, 2, 0, none⟩ = true ∧
    alookup ['a'] [(['a'], lockedDependency ⟨1, 2, 0, none⟩)] =
      some (lockedDependency ⟨1, 2, 0, none⟩) :=
  (c3_lock_conflict [(['a'], Range.gte ⟨1, 0, 0, none⟩)] [(['a'], ⟨1, 2, 0, none⟩)]
    ['a'] (Range.gte ⟨1, 0, 0, none⟩) ⟨1, 2, 0, none⟩ (by decide) (by decide) (by decide)).2
    [(['a'], lockedDependency ⟨1, 2, 0, none⟩)] (by decide)

/-- C3 counterexample: with two explicit requirements each incompatible with
its locked version, building fails with the message for the first violation,
so the claim's universally quantified message equality fails at the second
pair, even though its hypotheses hold. -/
theorem c3_lock_conflict_cex :
    alookup ['b'] [(['a'], (⟨2, 0, 0, none⟩ : Version)), (['b'], (⟨2, 0, 0, none⟩ : Version))] =
      some ⟨2, 0, 0, none⟩ ∧
    Range.contains (Range.lt ⟨1, 0, 0, none⟩) ⟨2, 0, 0, none⟩ = false ∧
    (['b'], Range.lt ⟨1, 0, 0, none⟩) ∈
      [(['a'], Range.lt ⟨1, 0, 0, none⟩), (['b'], Range.lt ⟨1, 0, 0, none⟩)] ∧
    root_dependencies [(['a'], Range.lt ⟨1, 0, 0, none⟩), (['b'], Range.lt ⟨1, 0, 0, none⟩)]
        [(['a'], ⟨2, 0, 0, none⟩), (['b'], ⟨2, 0, 0, none⟩)] =
      Except.error (ResolutionError.failure
        (lockConflictMsg ['a'] (Range.lt ⟨1, 0, 0, none⟩) ⟨2, 0, 0, none⟩)) ∧
    root_dependencies [(['a'], Range.lt ⟨1, 0, 0, none⟩), (['b'], Range.lt ⟨1, 0, 0, none⟩)]
        [(['a'], ⟨2, 0, 0, none⟩), (['b'], ⟨2, 0, 0, none⟩)] ≠
      Except.error (ResolutionError.failure
        (lockConflictMsg ['b'] (Range.lt ⟨1, 0, 0, none⟩) ⟨2, 0, 0, none⟩)) := by
  refine ⟨by decide, by decide, by decide, by decide, by decide⟩

theorem rootDepsLoop_lookup_locked {locked : List (Str × Version)} {E : List (Str × Range)}
    {acc m : List (Str × Dependency)} {k : Str} {v : Version}
    (hlk : alookup k locked = some v)
    (hok : rootDepsLoop locked E acc = Except.ok m) :
    alookup k m = alookup k acc := by
  induction E generalizing acc with
  | nil =>
    simp only [rootDepsLoop] at hok
    cases hok
    rfl
  | cons p rest ih =>
    cases p with
    | mk n0 r0 =>
      cases hn0 : alookup n0 locked with
      | none =>
        have hok2 : rootDepsLoop locked rest (insertKV n0 (plainDependency r0) acc) =
            Except.ok m := by
          simpa only [rootDepsLoop, hn0] using hok
        have hne : n0 ≠ k := by
          intro hc
          rw [hc, hlk] at hn0
          cases hn0
        rw [ih hok2]
        exact alookup_insert_ne _ _ hne
      | some v0 =>
        by_cases hcv : r0.contains v0 = true
        · have hok2 : rootDepsLoop locked rest acc = Except.ok m := by
            simpa only [rootDepsLoop, hn0, hcv, if_true] using hok
          exact ih hok2
        · exfalso
          have hbad : Except.error (ResolutionError.failure (lockConflictMsg n0 r0 v0)) =
              (Except.ok m : Except ResolutionError (List (Str × Dependency))) := by
            simpa only [rootDepsLoop, hn0, hcv, if_false] using hok
          cases hbad

theorem rootDepsLoop_lookup_absent {locked : List (Str × Version)} {E : List (Str × Range)}
    {acc m : List (Str × Dependency)} {k : Str}
    (hk : k ∉ keysOf E)
    (hok : rootDepsLoop locked E acc = Except.ok m) :
    alookup k m = alookup k acc := by
  induction E generalizing acc with
  | nil =>
    simp only [rootDepsLoop] at hok
    cases hok
    rfl
  | cons p rest ih =>
    cases p with
    | mk n0 r0 =>
      simp only [keysOf, List.map_cons, List.mem_cons, not_or] at hk
      have hk2 : k ∉ keysOf rest := hk.2
      cases hn0 : alookup n0 locked with
      | none =>
        have hok2 : rootDepsLoop locked rest (insertKV n0 (plainDependency r0) acc) =
            Except.ok m := by
          simpa only [rootDepsLoop, hn0] using hok
        rw [ih hk2 hok2]
        exact alookup_insert_ne _ _ (fun hc => hk.1 hc.symm)
      | some v0 =>
        by_cases hcv : r0.contains v0 = true
        · have hok2 : rootDepsLoop locked rest acc = Except.ok m := by
            simpa only [rootDepsLoop, hn0, hcv, if_true] using hok
          exact ih hk2 hok2
        · exfalso
          have hbad : Except.error (ResolutionError.failure (lockConflictMsg n0 r0 v0)) =
              (Except.ok m : Except ResolutionError (List (Str × Dependency))) := by
            simpa only [rootDepsLoop, hn0, hcv, if_false] using hok
          cases hbad

theorem rootDepsLoop_lookup_unlocked {locked : List (Str × Version)} {E : List (Str × Range)}
    {acc m : List (Str × Dependency)} {k : Str} {r : Range}
    (hndE : (keysOf E).Nodup)
    (hok : rootDepsLoop locked E acc = Except.ok m)
    (hE : alookup k E = some r) (hlk : alookup k locked = none) :
    alookup k m = some (plainDependency r) := by
  induction E generalizing acc with
  | nil => cases hE
  | cons p rest ih =>
    cases p with
    | mk n0 r0 =>
      simp only [keysOf, List.map_cons, List.nodup_cons] at hndE
      by_cases hk : n0 = k
      · subst hk
        have hr : r0 = r := by simpa [alookup] using hE
        subst hr
        have hok2 : rootDepsLoop locked rest (insertKV n0 (plainDependency r0) acc) =
            Except.ok m := by
          simpa only [rootDepsLoop, hlk] using hok
        rw [rootDepsLoop_lookup_absent hndE.1 hok2]
        exact alookup_insert_self _ _ _
      · have hE2 : alookup k rest = some r := by
          simpa only [alookup, if_neg hk] using hE
        cases hn0 : alookup n0 locked with
        | none =>
          have hok2 : rootDepsLoop locked rest (insertKV n0 (plainDependency r0) acc) =
              Except.ok m := by
            simpa only [rootDepsLoop, hn0] using hok
          exact ih hndE.2 hok2 hE2
        | some v0 =>
          by_cases hcv : r0.contains v0 = true
          · have hok2 : rootDepsLoop locked rest acc = Except.ok m := by
              simpa only [rootDepsLoop, hn0, hcv, if_true] using hok
            exact ih hndE.2 hok2 hE2
          · exfalso
            have hbad : Except.error (ResolutionError.failure (lockConflictMsg n0 r0 v0)) =
                (Except.ok m : Except ResolutionError (List (Str × Dependency))) := by
              simpa only [rootDepsLoop, hn0, hcv, if_false] using hok
            cases hbad

theorem rootDepsLoop_ok_of_no_violation {locked : List (Str × Version)}
    {E : List (Str × Range)} (acc : List (Str × Dependency))
    (h : ∀ n r v, (n, r) ∈ E → alookup n locked = some v → r.contains v = true) :
    ∃ m, rootDepsLoop locked E acc = Except.ok m := by
  induction E generalizing acc with
  | nil => exact ⟨acc, rfl⟩
  | cons p rest ih =>
    cases p with
    | mk n0 r0 =>
      have h2 : ∀ n r v, (n, r) ∈ rest → alookup n locked = some v → r.contains v = true :=
        fun n r v hm => h n r v (List.mem_cons_of_mem _ hm)
      cases hn0 : alookup n0 locked with
      | none =>
        rcases ih (insertKV n0 (plainDependency r0) acc) h2 with ⟨m, hm⟩
        exact ⟨m, by simpa only [rootDepsLoop, hn0] using hm⟩
      | some v0 =>
        have hcv : r0.contains v0 = true := h n0 r0 v0 (List.mem_cons_self _ _) hn0
        rcases ih acc h2 with ⟨m, hm⟩
        exact ⟨m, by simpa only [rootDepsLoop, hn0, hcv, if_true] using hm⟩

theorem alookup_perm {α : Type} {l1 l2 : List (Str × α)} (hp : l1.Perm l2)
    (hnd : (keysOf l1).Nodup) (k : Str) : alookup k l1 = alookup k l2 := by
  have hmapPerm := hp.map (fun p : Str × α => p.1)
  have hnd2 : (keysOf l2).Nodup := by
    simp only [keysOf] at hnd ⊢
    exact hmapPerm.nodup_iff.mp hnd
  cases h : alookup k l1 with
  | none =>
    have hk : k ∉ keysOf l1 := alookup_none_iff_not_mem_keys.mp h
    have hk2 : k ∉ keysOf l2 := by
      simp only [keysOf] at hk ⊢
      exact fun hc => hk (hmapPerm.mem_iff.mpr hc)
    exact (alookup_none_iff_not_mem_keys.mpr hk2).symm
  | some v =>
    have hm : (k, v) ∈ l2 := hp.mem_iff.mp (alookup_eq_some_mem h)
    exact (mem_alookup_eq_some hnd2 hm).symm

/-- C8 (amended): for explicit requirement sequences with pairwise-distinct
names that are permutations of each other, root-requirement building succeeds
for one order exactly when it succeeds for the other, and on success the
resulting requirement maps agree extensionally.  (As stated the claim fails:
with duplicate explicit names the later occurrence overwrites the earlier
one, so the result depends on the order; and when several requirements
conflict with their locks, different orders report different failure
messages.) -/
theorem c8_permutation_invariance (E1 E2 : List (Str × Range))
    (locked : List (Str × Version)) (hperm : E1.Perm E2)
    (hnd1 : (keysOf E1).Nodup) :
    ((∃ m, root_dependencies E1 locked = Except.ok m) ↔
      (∃ m, root_dependencies E2 locked = Except.ok m)) ∧
    (∀ m1 m2, root_dependencies E1 locked = Except.ok m1 →
      root_dependencies E2 locked = Except.ok m2 →
      ∀ k, alookup k m1 = alookup k m2) := by
  have hnd2 : (keysOf E2).Nodup := by
    simp only [keysOf] at hnd1 ⊢
    exact (hperm.map (fun p : Str × Range => p.1)).nodup_iff.mp hnd1
  have hnoviol : ∀ (E : List (Str × Range)) m, rootDepsLoop locked E (seedLocked locked) =
      Except.ok m →
      ∀ n r v, (n, r) ∈ E → alookup n locked = some v → r.contains v = true := by
    intro E m hm n r v hmem hlk
    by_contra hc
    have hf : r.contains v = false := by
      cases hres : r.contains v
      · rfl
      · exact absurd hres hc
    rcases rootDepsLoop_error_of_violation (seedLocked locked) hmem hlk hf with
      ⟨n2, r2, v2, _, _, _, heq⟩
    rw [heq] at hm
    cases hm
  constructor
  · constructor
    · rintro ⟨m, hm⟩
      apply rootDepsLoop_ok_of_no_violation
      intro n r v hmem hlk
      exact hnoviol E1 m hm n r v (hperm.mem_iff.mpr hmem) hlk
    · rintro ⟨m, hm⟩
      apply rootDepsLoop_ok_of_no_violation
      intro n r v hmem hlk
      exact hnoviol E2 m hm n r v (hperm.mem_iff.mp hmem) hlk
  · intro m1 m2 h1 h2 k
    have hEk : alookup k E1 = alookup k E2 := alookup_perm hperm hnd1 k
    cases hE : alookup k E1 with
    | none =>
      have hE2 : alookup k E2 = none := hEk ▸ hE
      rw [rootDepsLoop_lookup_absent (alookup_none_iff_not_mem_keys.mp hE) h1,
        rootDepsLoop_lookup_absent (alookup_none_iff_not_mem_keys.mp hE2) h2]
    | some r =>
      have hE2 : alookup k E2 = some r := hEk ▸ hE
      cases hlk : alookup k locked with
      | none =>
        rw [rootDepsLoop_lookup_unlocked hnd1 h1 hE hlk,
          rootDepsLoop_lookup_unlocked hnd2 h2 hE2 hlk]
      | some v =>
        rw [rootDepsLoop_lookup_locked hlk h1, rootDepsLoop_lookup_locked hlk h2]

theorem c8_permutation_invariance_witness :
    (∀ m1 m2,
      root_dependencies [(['a'], Range.any), (['b'], Range.gte ⟨1, 0, 0, none⟩)] [] =
        Except.ok m1 →
      root_dependencies [(['b'], Range.gte ⟨1, 0, 0, none⟩), (['a'], Range.any)] [] =
        Except.ok m2 →
      ∀ k, alookup k m1 = alookup k m2) ∧
    alookup ['a'] [(['b'], plainDependency (Range.gte ⟨1, 0, 0, none⟩)),
        (['a'], plainDependency Range.any)] =
      alookup ['a'] [(['a'], plainDependency Range.any),
        (['b'], plainDependency (Range.gte ⟨1, 0, 0, none⟩))] :=
  ⟨(c8_permutation_invariance [(['a'], Range.any), (['b'], Range.gte ⟨1, 0, 0, none⟩)]
      [(['b'], Range.gte ⟨1, 0, 0, none⟩), (['a'], Range.any)] []
      (List.Perm.swap _ _ _) (by decide)).2,
   (c8_permutation_invariance [(['a'], Range.any), (['b'], Range.gte ⟨1, 0, 0, none⟩)]
      [(['b'], Range.gte ⟨1, 0, 0, none⟩), (['a'], Range.any)] []
      (List.Perm.swap _ _ _) (by decide)).2 _ _ (by decide) (by decide) ['a']⟩

/-- C8 counterexample: two explicit requirements with the same name are
permutations of each other in either order, yet the two orders produce
requirement maps that disagree on that name (the later one wins), so the
result is not independent of iteration order as the claim states. -/
theorem c8_permutation_invariance_cex :
    ([(['a'], Range.gte ⟨1, 0, 0, none⟩), (['a'], Range.gte ⟨2, 0, 0, none⟩)] :
        List (Str × Range)).Perm
      [(['a'], Range.gte ⟨2, 0, 0, none⟩), (['a'], Range.gte ⟨1, 0, 0, none⟩)] ∧
    root_dependencies [(['a'], Range.gte ⟨1, 0, 0, none⟩), (['a'], Range.gte ⟨2, 0, 0, none⟩)]
        [] = Except.ok [(['a'], plainDependency (Range.gte ⟨2, 0, 0, none⟩))] ∧
    root_dependencies [(['a'], Range.gte ⟨2, 0, 0, none⟩), (['a'], Range.gte ⟨1, 0, 0, none⟩)]
        [] = Except.ok [(['a'], plainDependency (Range.gte ⟨1, 0, 0, none⟩))] ∧
    alookup ['a'] [(['a'], plainDependency (Range.gte ⟨2, 0, 0, none⟩))] ≠
      alookup ['a'] [(['a'], plainDependency (Range.gte ⟨1, 0, 0, none⟩))] :=
  ⟨List.Perm.swap _ _ _, by decide, by decide, by decide⟩

theorem digitChar_isDigit {d : Nat} (h : d < 10) : (digitChar d).isDigit = true := by
  interval_cases d <;> decide

theorem digitChar_toNat {d : Nat} (h : d < 10) : (digitChar d).toNat = 48 + d := by
  interval_cases d <;> decide

theorem digitChar_not_ws {d : Nat} (h : d < 10) : (digitChar d).isWhitespace = false := by
  interval_cases d <;> decide

theorem digitChar_ne_eq {d : Nat} (h : d < 10) : digitChar d ≠ '=' := by
  interval_cases d <;> decide

theorem natCharsAux_acc (f n : Nat) (acc : Str) :
    natCharsAux f n acc = natCharsAux f n [] ++ acc := by
  induction f generalizing n acc with
  | zero => rfl
  | succ f ih =>
    by_cases h : n < 10
    · simp [natCharsAux, h]
    · simp only [natCharsAux, if_neg h]
      rw [ih (n / 10) (digitChar (n % 10) :: acc), ih (n / 10) [digitChar (n % 10)]]
      simp

theorem natCharsAux_fuel (n : Nat) : ∀ f g : Nat, n < f → n < g →
    natCharsAux f n [] = natCharsAux g n [] := by
  induction n using Nat.strong_induction_on with
  | _ n ih =>
    intro f g hf hg
    cases f with
    | zero => omega
    | succ f1 =>
      cases g with
      | zero => omega
      | succ g1 =>
        by_cases h : n < 10
        · simp [natCharsAux, h]
        · simp only [natCharsAux, if_neg h]
          rw [natCharsAux_acc f1, natCharsAux_acc g1]
          have hlt : n / 10 < n := Nat.div_lt_self (by omega) (by omega)
          rw [ih (n / 10) hlt f1 g1 (by omega) (by omega)]

theorem natChars_step {n : Nat} (h : 10 ≤ n) :
    natChars n = natChars (n / 10) ++ [digitChar (n % 10)] := by
  unfold natChars
  have hn : ¬ n < 10 := by omega
  conv_lhs => rw [natCharsAux]
  rw [if_neg hn]
  rw [natCharsAux_acc n (n / 10)]
  have hlt : n / 10 < n := Nat.div_lt_self (by omega) (by omega)
  rw [natCharsAux_fuel (n / 10) n (n / 10 + 1) hlt (Nat.lt_succ_self _)]

theorem natChars_small {n : Nat} (h : n < 10) : natChars n = [digitChar n] := by
  unfold natChars natCharsAux
  rw [if_pos h]

theorem natChars_spec (n : Nat) :
    (∀ c ∈ natChars n, c.isDigit = true) ∧ natChars n ≠ [] ∧ digitsVal (natChars n) = n := by
  induction n using Nat.strong_induction_on with
  | _ n ih =>
    by_cases h : n < 10
    · rw [natChars_small h]
      refine ⟨?_, by simp, ?_⟩
      · intro c hc
        rcases List.mem_singleton.mp hc with rfl
        exact digitChar_isDigit h
      · simp only [digitsVal, List.foldl_cons, List.foldl_nil]
        rw [digitChar_toNat h]
        omega
    · have h10 : 10 ≤ n := by omega
      rw [natChars_step h10]
      have hlt : n / 10 < n := Nat.div_lt_self (by omega) (by omega)
      rcases ih (n / 10) hlt with ⟨hdig, hne, hval⟩
      refine ⟨?_, by simp, ?_⟩
      · intro c hc
        rcases List.mem_append.mp hc with hc | hc
        · exact hdig c hc
        · rcases List.mem_singleton.mp hc with rfl
          exact digitChar_isDigit (Nat.mod_lt _ (by omega))
      · simp only [digitsVal, List.foldl_append, List.foldl_cons, List.foldl_nil]
        have := hval
        simp only [digitsVal] at this
        rw [this, digitChar_toNat (Nat.mod_lt _ (by omega))]
        omega

theorem takeWhile_digits_append {ds rest : Str} (hds : ∀ c ∈ ds, c.isDigit = true)
    (hrest : match rest with | [] => True | c :: _ => c.isDigit = false) :
    (ds ++ rest).takeWhile Char.isDigit = ds ∧ (ds ++ rest).dropWhile Char.isDigit = rest := by
  induction ds with
  | nil =>
    cases rest with
    | nil => exact ⟨rfl, rfl⟩
    | cons c cs =>
      simp only at hrest
      simp [List.takeWhile_cons, List.dropWhile_cons, hrest]
  | cons c cs ih =>
    have hc : c.isDigit = true := hds c (List.mem_cons_self _ _)
    have ih2 := ih (fun d hd => hds d (List.mem_cons_of_mem _ hd))
    constructor
    · simp [List.takeWhile_cons, hc, ih2.1]
    · simp [List.dropWhile_cons, hc, ih2.2]

theorem parseNatChars_roundtrip (n : Nat) (rest : Str)
    (hrest : match rest with | [] => True | c :: _ => c.isDigit = false) :
    parseNatChars (natChars n ++ rest) = some (n, rest) := by
  rcases natChars_spec n with ⟨hdig, hne, hval⟩
  rcases takeWhile_digits_append hdig hrest with ⟨ht, hd⟩
  unfold parseNatChars
  rw [ht, hd]
  generalize hg : natChars n = ds at hval hne
  cases ds with
  | nil => exact absurd rfl hne
  | cons c cs =>
    rw [show (match c :: cs with
      | [] => none
      | ds => some (digitsVal ds, rest)) = some (digitsVal (c :: cs), rest) from rfl]
    rw [hval]

theorem parseVersion_toStr (v : Version) : parseVersion v.toStr = some v := by
  rcases v with ⟨mj, mn, pt, pre⟩
  cases pre with
  | none =>
    have h1 : Version.toStr ⟨mj, mn, pt, none⟩ =
        natChars mj ++ ('.' :: (natChars mn ++ ('.' :: natChars pt))) := by
      simp [Version.toStr]
    rw [h1]
    unfold parseVersion
    rw [parseNatChars_roundtrip mj ('.' :: (natChars mn ++ ('.' :: natChars pt)))
      ((by decide : ('.'.isDigit = false)))]
    simp only [Option.bind_eq_bind, Option.some_bind]
    rw [parseNatChars_roundtrip mn ('.' :: natChars pt) ((by decide : ('.'.isDigit = false)))]
    simp only [Option.some_bind]
    rw [show parseNatChars (natChars pt) = some (pt, ([] : Str)) from by
      simpa using parseNatChars_roundtrip pt [] trivial]
    simp only [Option.some_bind]
  | some p =>
    have h1 : Version.toStr ⟨mj, mn, pt, some p⟩ =
        natChars mj ++ ('.' :: (natChars mn ++ ('.' :: (natChars pt ++ ('-' :: p))))) := by
      simp [Version.toStr]
    rw [h1]
    unfold parseVersion
    rw [parseNatChars_roundtrip mj
      ('.' :: (natChars mn ++ ('.' :: (natChars pt ++ ('-' :: p)))))
      ((by decide : ('.'.isDigit = false)))]
    simp only [Option.bind_eq_bind, Option.some_bind]
    rw [parseNatChars_roundtrip mn ('.' :: (natChars pt ++ ('-' :: p)))
      ((by decide : ('.'.isDigit = false)))]
    simp only [Option.some_bind]
    rw [parseNatChars_roundtrip pt ('-' :: p) ((by decide : ('-'.isDigit = false)))]
    simp only [Option.some_bind]

theorem versionCharOk_not_ws {c : Char} (h : versionCharOk c = true) :
    c.isWhitespace = false := by
  have h1 : c ≠ ' ' := fun hc => by rw [hc] at h; exact absurd h (by decide)
  have h2 : c ≠ '\t' := fun hc => by rw [hc] at h; exact absurd h (by decide)
  have h3 : c ≠ '\r' := fun hc => by rw [hc] at h; exact absurd h (by decide)
  have h4 : c ≠ '\n' := fun hc => by rw [hc] at h; exact absurd h (by decide)
  simp [Char.isWhitespace, h1, h2, h3, h4]

theorem versionCharOk_ne_eq {c : Char} (h : versionCharOk c = true) : c ≠ '=' :=
  fun hc => by rw [hc] at h; exact absurd h (by decide)

theorem natChars_digitChar (n : Nat) : ∀ c ∈ natChars n, ∃ d, d < 10 ∧ c = digitChar d := by
  induction n using Nat.strong_induction_on with
  | _ n ih =>
    by_cases h : n < 10
    · rw [natChars_small h]
      intro c hc
      rcases List.mem_singleton.mp hc with rfl
      exact ⟨n, h, rfl⟩
    · rw [natChars_step (by omega)]
      intro c hc
      rcases List.mem_append.mp hc with hc | hc
      · exact ih (n / 10) (Nat.div_lt_self (by omega) (by omega)) c hc
      · rcases List.mem_singleton.mp hc with rfl
        exact ⟨n % 10, Nat.mod_lt _ (by omega), rfl⟩

theorem toStr_chars {v : Version} (hwf : v.Wf) :
    ∀ c ∈ v.toStr, c.isWhitespace = false ∧ c ≠ '=' := by
  rcases v with ⟨mj, mn, pt, pre⟩
  intro c hc
  simp only [Version.toStr, List.append_assoc, List.cons_append, List.mem_append,
    List.mem_cons] at hc
  have hdigit : ∀ m : Nat, c ∈ natChars m → c.isWhitespace = false ∧ c ≠ '=' := by
    intro m hm
    rcases natChars_digitChar m c hm with ⟨d, hd, rfl⟩
    exact ⟨digitChar_not_ws hd, digitChar_ne_eq hd⟩
  rcases hc with hc | hc
  · exact hdigit mj hc
  · rcases hc with rfl | hc
    · exact ⟨by decide, by decide⟩
    · rcases hc with hc | hc
      · exact hdigit mn hc
      · rcases hc with rfl | hc
        · exact ⟨by decide, by decide⟩
        · rcases hc with hc | hc
          · exact hdigit pt hc
          · cases pre with
            | none => simp at hc
            | some p =>
              simp only [List.mem_cons] at hc
              rcases hc with rfl | hc
              · exact ⟨by decide, by decide⟩
              · have hok : versionCharOk c = true := hwf c hc
                exact ⟨versionCharOk_not_ws hok, versionCharOk_ne_eq hok⟩

theorem trimStart_of_no_ws {l : Str} (h : ∀ c ∈ l, c.isWhitespace = false) :
    trimStart l = l := by
  cases l with
  | nil => rfl
  | cons c cs =>
    unfold trimStart
    rw [List.dropWhile_cons, h c (List.mem_cons_self _ _)]
    simp

theorem trimChars_of_no_ws {l : Str} (h : ∀ c ∈ l, c.isWhitespace = false) :
    trimChars l = l := by
  unfold trimChars
  rw [trimStart_of_no_ws h]
  cases hrev : l.reverse with
  | nil =>
    have : l = [] := by simpa using congrArg List.reverse hrev
    simp [this]
  | cons c cs =>
    have hcmem : c ∈ l := by
      have : c ∈ l.reverse := by rw [hrev]; exact List.mem_cons_self _ _
      simpa using this
    rw [List.dropWhile_cons, h c hcmem]
    simp only [if_false, Bool.false_eq_true]
    rw [← hrev]
    simp

theorem replaceEqEq_of_no_eq {l : Str} (h : '=' ∉ l) : replaceEqEq l = l := by
  induction l with
  | nil => rfl
  | cons c rest ih =>
    cases rest with
    | nil => rfl
    | cons d rest2 =>
      have hc : ¬(c = '=' ∧ d = '=') := by
        rintro ⟨rfl, _⟩
        exact h (List.mem_cons_self _ _)
      have hd : '=' ∉ d :: rest2 := fun hm => h (List.mem_cons_of_mem _ hm)
      show (if c = '=' ∧ d = '=' then replaceEqEq rest2 else c :: replaceEqEq (d :: rest2)) =
        c :: d :: rest2
      rw [if_neg hc, ih hd]

theorem firstIsDigit_toStr (v : Version) : firstIsDigit v.toStr = true := by
  rcases natChars_spec v.major with ⟨hdig, hne, _⟩
  rcases hn : natChars v.major with _ | ⟨c, cs⟩
  · exact absurd hn hne
  · have hc : c.isDigit = true := hdig c (by rw [hn]; exact List.mem_cons_self _ _)
    rcases v with ⟨mj, mn, pt, pre⟩
    simp only [Version.toStr]
    rw [hn]
    simpa [firstIsDigit] using hc

/-- The raw string of a seeded locked requirement parses back to exactly the
locked version: this is what places every locked name in the exact-pin set. -/
theorem parse_exact_version_bare {v : Version} (hwf : v.Wf) :
    parse_exact_version (Range.bare v).toStr = some v := by
  have htoStr : (Range.bare v).toStr = v.toStr := rfl
  rw [htoStr]
  have hnws : ∀ c ∈ v.toStr, c.isWhitespace = false := fun c hc => (toStr_chars hwf c hc).1
  have hneq : '=' ∉ v.toStr := fun hm => (toStr_chars hwf '=' hm).2 rfl
  unfold parse_exact_version
  rw [trimChars_of_no_ws hnws]
  simp only [firstIsDigit_toStr v, Bool.or_true, if_true, replaceEqEq_of_no_eq hneq,
    trimChars_of_no_ws hnws, parseVersion_toStr v]

theorem alookup_exactDepsOf {reqs : List (Str × Dependency)} {n : Str} {d : Dependency}
    {w : Version} (h : alookup n reqs = some d)
    (hp : parse_exact_version d.requirement.toStr = some w) :
    alookup n (exactDepsOf reqs) = some w := by
  induction reqs with
  | nil => cases h
  | cons p rest ih =>
    cases p with
    | mk k dv =>
      by_cases hk : k = n
      · subst hk
        have hd : dv = d := by simpa [alookup] using h
        subst hd
        simp only [exactDepsOf, List.filterMap_cons, hp]
        show alookup k ((k, w) :: exactDepsOf rest) = some w
        simp [alookup]
      · have h2 : alookup n rest = some d := by simpa [alookup, hk] using h
        simp only [exactDepsOf, List.filterMap_cons]
        cases hq : parse_exact_version dv.requirement.toStr with
        | none => exact ih h2
        | some u =>
          show alookup n ((k, u) :: exactDepsOf rest) = some w
          rw [show alookup n ((k, u) :: exactDepsOf rest) =
            alookup n (exactDepsOf rest) from if_neg hk]
          exact ih h2

theorem leB_of_ltB {a b : Version} (h : Version.ltB a b = true) : Version.leB a b = true := by
  unfold Version.ltB at h
  rcases Version.leB_total a b with h2 | h2
  · exact h2
  · rw [h2] at h
    cases h

theorem le_lt_trans_v {a b c : Version} (h1 : Version.leB a b = true)
    (h2 : Version.ltB b c = true) : Version.ltB a c = true := by
  unfold Version.ltB at h2 ⊢
  cases hca : Version.leB c a with
  | false => rfl
  | true =>
    have : Version.leB c b = true := Version.leB_trans hca h1
    rw [this] at h2
    cases h2

theorem lt_le_trans_v {a b c : Version} (h1 : Version.ltB a b = true)
    (h2 : Version.leB b c = true) : Version.ltB a c = true := by
  unfold Version.ltB at h1 ⊢
  cases hca : Version.leB c a with
  | false => rfl
  | true =>
    have : Version.leB b a = true := Version.leB_trans h2 hca
    rw [this] at h1
    cases h1

theorem lt_lt_trans_v {a b c : Version} (h1 : Version.ltB a b = true)
    (h2 : Version.ltB b c = true) : Version.ltB a c = true :=
  le_lt_trans_v (leB_of_ltB h1) h2

theorem memLB_of_lbLeB {a b : LB} {x : Version} (h : lbLeB a b = true)
    (hm : memLB b x = true) : memLB a x = true := by
  cases a with
  | ninf => rfl
  | inc v =>
    cases b with
    | ninf => cases h
    | inc w => exact Version.leB_trans (by simpa [lbLeB] using h) (by simpa [memLB] using hm)
    | exc w =>
      have hvw : Version.leB v w = true := by simpa [lbLeB] using h
      have hwx : Version.ltB w x = true := by simpa [memLB] using hm
      simpa [memLB] using leB_of_ltB (le_lt_trans_v hvw hwx)
  | exc v =>
    cases b with
    | ninf => cases h
    | inc w =>
      have hvw : Version.ltB v w = true := by simpa [lbLeB] using h
      have hwx : Version.leB w x = true := by simpa [memLB] using hm
      simpa [memLB] using lt_le_trans_v hvw hwx
    | exc w =>
      have hvw : Version.leB v w = true := by simpa [lbLeB] using h
      have hwx : Version.ltB w x = true := by simpa [memLB] using hm
      simpa [memLB] using le_lt_trans_v hvw hwx

theorem memLB_of_not_lbLeB {a b : LB} {x : Version} (h : lbLeB a b = false)
    (hm : memLB a x = true) : memLB b x = true := by
  cases b with
  | ninf => rfl
  | inc w =>
    cases a with
    | ninf => cases h
    | inc v =>
      have hvw : Version.leB v w = false := by simpa [lbLeB] using h
      have hwv : Version.leB w v = true := by
        rcases Version.leB_total v w with h2 | h2
        · rw [h2] at hvw; cases hvw
        · exact h2
      exact Version.leB_trans hwv (by simpa [memLB] using hm)
    | exc v =>
      have hvw : Version.ltB v w = false := by simpa [lbLeB] using h
      have hwv : Version.leB w v = true := by
        unfold Version.ltB at hvw
        cases h2 : Version.leB w v with
        | true => rfl
        | false => rw [h2] at hvw; cases hvw
      have hvx : Version.ltB v x = true := by simpa [memLB] using hm
      simpa [memLB] using leB_of_ltB (le_lt_trans_v hwv hvx)
  | exc w =>
    cases a with
    | ninf => cases h
    | inc v =>
      have hvw : Version.leB v w = false := by simpa [lbLeB] using h
      have hwv : Version.ltB w v = true := by simpa [Version.ltB] using hvw
      have hvx : Version.leB v x = true := by simpa [memLB] using hm
      simpa [memLB] using lt_le_trans_v hwv hvx
    | exc v =>
      have hvw : Version.leB v w = false := by simpa [lbLeB] using h
      have hwv : Version.ltB w v = true := by simpa [Version.ltB] using hvw
      have hvx : Version.ltB v x = true := by simpa [memLB] using hm
      simpa [memLB] using lt_lt_trans_v hwv hvx

theorem memLB_lbMax (a b : LB) (x : Version) :
    memLB (lbMax a b) x = (memLB a x && memLB b x) := by
  unfold lbMax
  by_cases h : lbLeB a b = true
  · rw [if_pos h]
    cases hbx : memLB b x with
    | true => simp [memLB_of_lbLeB h hbx]
    | false => simp
  · rw [if_neg h]
    have hf : lbLeB a b = false := by
      cases h2 : lbLeB a b
      · rfl
      · exact absurd h2 h
    cases hax : memLB a x with
    | true => simp [memLB_of_not_lbLeB hf hax]
    | false => simp

theorem memUB_of_ubLeB {a b : UB} {x : Version} (h : ubLeB a b = true)
    (hm : memUB b x = true) : memUB a x = true := by
  cases a with
  | pinf => rfl
  | inc v =>
    cases b with
    | pinf => cases h
    | inc w => exact Version.leB_trans (by simpa [memUB] using hm) (by simpa [ubLeB] using h)
    | exc w =>
      have hwv : Version.leB w v = true := by simpa [ubLeB] using h
      have hxw : Version.ltB x w = true := by simpa [memUB] using hm
      simpa [memUB] using leB_of_ltB (lt_le_trans_v hxw hwv)
  | exc v =>
    cases b with
    | pinf => cases h
    | inc w =>
      have hwv : Version.ltB w v = true := by simpa [ubLeB] using h
      have hxw : Version.leB x w = true := by simpa [memUB] using hm
      simpa [memUB] using le_lt_trans_v hxw hwv
    | exc w =>
      have hwv : Version.leB w v = true := by simpa [ubLeB] using h
      have hxw : Version.ltB x w = true := by simpa [memUB] using hm
      simpa [memUB] using lt_le_trans_v hxw hwv

theorem memUB_of_not_ubLeB {a b : UB} {x : Version} (h : ubLeB a b = false)
    (hm : memUB a x = true) : memUB b x = true := by
  cases b with
  | pinf => rfl
  | inc w =>
    cases a with
    | pinf => cases h
    | inc v =>
      have hwv : Version.leB w v = false := by simpa [ubLeB] using h
      have hvw : Version.leB v w = true := by
        rcases Version.leB_total v w with h2 | h2
        · exact h2
        · rw [h2] at hwv; cases hwv
      exact Version.leB_trans (by simpa [memUB] using hm) hvw
    | exc v =>
      have hwv : Version.ltB w v = false := by simpa [ubLeB] using h
      have hvw : Version.leB v w = true := by
        unfold Version.ltB at hwv
        cases h2 : Version.leB v w with
        | true => rfl
        | false => rw [h2] at hwv; cases hwv
      have hxv : Version.ltB x v = true := by simpa [memUB] using hm
      simpa [memUB] using leB_of_ltB (lt_le_trans_v hxv hvw)
  | exc w =>
    cases a with
    | pinf => cases h
    | inc v =>
      have hwv : Version.leB w v = false := by simpa [ubLeB] using h
      have hvw : Version.ltB v w = true := by simpa [Version.ltB] using hwv
      have hxv : Version.leB x v = true := by simpa [memUB] using hm
      simpa [memUB] using le_lt_trans_v hxv hvw
    | exc v =>
      have hwv : Version.leB w v = false := by simpa [ubLeB] using h
      have hvw : Version.ltB v w = true := by simpa [Version.ltB] using hwv
      have hxv : Version.ltB x v = true := by simpa [memUB] using hm
      simpa [memUB] using lt_lt_trans_v hxv hvw

theorem memUB_ubMin (a b : UB) (x : Version) :
    memUB (ubMin a b) x = (memUB a x && memUB b x) := by
  unfold ubMin
  by_cases h : ubLeB a b = true
  · rw [if_pos h]
    cases hbx : memUB b x with
    | true => simp [memUB_of_ubLeB h hbx]
    | false => simp
  · rw [if_neg h]
    have hf : ubLeB a b = false := by
      cases h2 : ubLeB a b
      · rfl
      · exact absurd h2 h
    cases hax : memUB a x with
    | true => simp [memUB_of_not_ubLeB hf hax]
    | false => simp

theorem segNonempty_of_mem {s : Seg} {x : Version} (h : segMem s x = true) :
    segNonempty s = true := by
  rcases s with ⟨l, u⟩
  simp only [segMem, Bool.and_eq_true] at h
  obtain ⟨hl, hu⟩ := h
  cases l with
  | ninf => cases u <;> rfl
  | inc v =>
    cases u with
    | pinf => rfl
    | inc w =>
      exact Version.leB_trans (by simpa [memLB] using hl) (by simpa [memUB] using hu)
    | exc w =>
      simp only [segNonempty]
      exact le_lt_trans_v (by simpa [memLB] using hl) (by simpa [memUB] using hu)
  | exc v =>
    cases u with
    | pinf => rfl
    | inc w =>
      simp only [segNonempty]
      exact lt_le_trans_v (by simpa [memLB] using hl) (by simpa [memUB] using hu)
    | exc w =>
      simp only [segNonempty]
      exact lt_lt_trans_v (by simpa [memLB] using hl) (by simpa [memUB] using hu)

theorem segInter_some_mem {a b s : Seg} {x : Version} (h : segInter a b = some s) :
    segMem s x = (segMem a x && segMem b x) := by
  unfold segInter at h
  by_cases hne : segNonempty (lbMax a.1 b.1, ubMin a.2 b.2) = true
  · rw [if_pos hne] at h
    cases h
    show (memLB (lbMax a.1 b.1) x && memUB (ubMin a.2 b.2) x) = _
    rw [memLB_lbMax, memUB_ubMin]
    cases hA : memLB a.1 x <;> cases hB : memLB b.1 x <;>
      cases hC : memUB a.2 x <;> cases hD : memUB b.2 x <;> simp [segMem, hA, hB, hC, hD]
  · rw [if_neg hne] at h
    cases h

theorem segInter_none_mem {a b : Seg} {x : Version} (h : segInter a b = none) :
    (segMem a x && segMem b x) = false := by
  unfold segInter at h
  by_cases hne : segNonempty (lbMax a.1 b.1, ubMin a.2 b.2) = true
  · rw [if_pos hne] at h
    cases h
  · rw [if_neg hne] at h
    cases hab : (segMem a x && segMem b x) with
    | false => rfl
    | true =>
      exfalso
      apply hne
      apply segNonempty_of_mem (x := x)
      simp only [segMem, Bool.and_eq_true] at hab
      obtain ⟨⟨ha1, ha2⟩, hb1, hb2⟩ := hab
      show (memLB (lbMax a.1 b.1) x && memUB (ubMin a.2 b.2) x) = true
      rw [memLB_lbMax, memUB_ubMin, ha1, ha2, hb1, hb2]
      rfl

theorem any_flatMap {α β : Type} (l : List α) (f : α → List β) (p : β → Bool) :
    ((l.flatMap f).any p) = l.any (fun a => (f a).any p) := by
  induction l with
  | nil => rfl
  | cons a rest ih => simp [List.flatMap_cons, List.any_append, ih]

theorem any_filterMap {α β : Type} (l : List α) (f : α → Option β) (p : β → Bool) :
    ((l.filterMap f).any p) = l.any (fun a => ((f a).map p).getD false) := by
  induction l with
  | nil => rfl
  | cons a rest ih =>
    cases hf : f a with
    | none => simp [List.filterMap_cons, hf, ih]
    | some b => simp [List.filterMap_cons, hf, ih]

theorem any_const_and {α : Type} (l : List α) (c : Bool) (p : α → Bool) :
    (l.any (fun a => c && p a)) = (c && l.any p) := by
  cases c with
  | false => simp
  | true => simp

theorem any_congr {α : Type} {l : List α} {p q : α → Bool} (h : ∀ a ∈ l, p a = q a) :
    l.any p = l.any q := by
  induction l with
  | nil => rfl
  | cons a rest ih =>
    simp only [List.any_cons]
    rw [h a (List.mem_cons_self _ _), ih (fun b hb => h b (List.mem_cons_of_mem _ hb))]

theorem VS.contains_inter (S T : VS) (x : Version) :
    (VS.inter S T).contains x = (S.contains x && T.contains x) := by
  unfold VS.inter VS.contains
  rw [any_flatMap]
  have hinner : ∀ a : Seg, ((T.filterMap (fun b => segInter a b)).any (fun s => segMem s x)) =
      (segMem a x && T.any (fun s => segMem s x)) := by
    intro a
    rw [any_filterMap]
    have : ∀ b : Seg, (((segInter a b).map (fun s => segMem s x)).getD false) =
        (segMem a x && segMem b x) := by
      intro b
      cases hi : segInter a b with
      | none => simp [segInter_none_mem (x := x) hi]
      | some s => simp [segInter_some_mem (x := x) hi]
    calc (T.any (fun b => ((segInter a b).map (fun s => segMem s x)).getD false))
        = T.any (fun b => segMem a x && segMem b x) := by
          apply any_congr
          intro b _
          exact this b
      _ = (segMem a x && T.any (fun s => segMem s x)) := any_const_and T _ _
  calc (S.any fun a => (T.filterMap (fun b => segInter a b)).any (fun s => segMem s x))
      = S.any (fun a => segMem a x && T.any (fun s => segMem s x)) := by
        apply any_congr
        intro a _
        exact hinner a
    _ = _ := by
        rw [show (S.any fun a => segMem a x && T.any (fun s => segMem s x)) =
          (T.any (fun s => segMem s x) && S.any (fun s => segMem s x)) from ?_]
        · cases hS : S.any (fun s => segMem s x) <;> cases hT : T.any (fun s => segMem s x) <;>
            simp [hS, hT]
        · calc (S.any fun a => segMem a x && T.any (fun s => segMem s x))
              = S.any (fun a => T.any (fun s => segMem s x) && segMem a x) := by
                apply any_congr
                intro a _
                cases h1 : segMem a x <;> cases h2 : T.any (fun s => segMem s x) <;> simp [h1, h2]
            _ = _ := any_const_and S _ _

theorem VS.contains_segCompl (s : Seg) (x : Version) :
    (segCompl s).contains x = !(segMem s x) := by
  rcases s with ⟨l, u⟩
  cases l <;> cases u <;>
    simp [segCompl, VS.contains, segMem, memLB, memUB, Version.ltB, Bool.not_and,
      Bool.or_comm]

theorem VS.contains_full (x : Version) : fullVS.contains x = true := rfl

theorem VS.contains_foldl_compl (L : List Seg) (A : VS) (x : Version) :
    ((L.foldl (fun acc s => VS.inter acc (segCompl s)) A).contains x) =
      (A.contains x && L.all (fun s => !(segMem s x))) := by
  induction L generalizing A with
  | nil => simp
  | cons s rest ih =>
    simp only [List.foldl_cons, List.all_cons]
    rw [ih, VS.contains_inter, VS.contains_segCompl, Bool.and_assoc]

theorem VS.contains_compl (S : VS) (x : Version) :
    (VS.compl S).contains x = !(S.contains x) := by
  unfold VS.compl
  rw [VS.contains_foldl_compl, VS.contains_full]
  simp only [Bool.true_and]
  induction S with
  | nil => rfl
  | cons s rest ih =>
    simp only [List.all_cons, List.any_cons, ih, VS.contains, Bool.not_or]

theorem VS.subset_sound {S T : VS} {x : Version} (h : VS.subset S T = true)
    (hx : S.contains x = true) : T.contains x = true := by
  unfold VS.subset VS.isEmptyB at h
  have hempty : VS.inter S (VS.compl T) = [] := by
    cases hI : VS.inter S (VS.compl T) with
    | nil => rfl
    | cons a rest => rw [hI] at h; cases h
  have hc : (VS.inter S (VS.compl T)).contains x = false := by
    rw [hempty]; rfl
  rw [VS.contains_inter, VS.contains_compl] at hc
  cases hT : T.contains x with
  | true => rfl
  | false =>
    rw [hx, hT] at hc
    cases hc

theorem VS.disjoint_sound {S T : VS} {x : Version} (h : VS.disjoint S T = true)
    (hx : S.contains x = true) : T.contains x = false := by
  unfold VS.disjoint VS.isEmptyB at h
  have hempty : VS.inter S T = [] := by
    cases hI : VS.inter S T with
    | nil => rfl
    | cons a rest => rw [hI] at h; cases h
  have hc : (VS.inter S T).contains x = false := by
    rw [hempty]; rfl
  rw [VS.contains_inter, hx] at hc
  simpa using hc

theorem inter_nil (S : VS) : VS.inter S [] = [] := by
  induction S with
  | nil => rfl
  | cons s rest ih =>
    show ([].filterMap (fun b => segInter s b)) ++ VS.inter rest [] = []
    rw [ih]
    rfl

theorem compl_nil : VS.compl ([] : VS) = fullVS := rfl

theorem inter_full_exact (w : Version) : VS.inter fullVS (exactVS w) = exactVS w := by
  simp [VS.inter, fullVS, exactVS, segInter, lbMax, ubMin, lbLeB, ubLeB, segNonempty,
    Version.leB_refl]

theorem inter_exact_full (w : Version) : VS.inter (exactVS w) fullVS = exactVS w := by
  simp [VS.inter, fullVS, exactVS, segInter, lbMax, ubMin, lbLeB, ubLeB, segNonempty,
    Version.leB_refl]

theorem inter_exact_self (w : Version) : VS.inter (exactVS w) (exactVS w) = exactVS w := by
  simp [VS.inter, exactVS, segInter, lbMax, ubMin, lbLeB, ubLeB, segNonempty,
    Version.leB_refl]

theorem inter_full_full : VS.inter fullVS fullVS = fullVS := rfl

theorem contains_full_any (v : Version) : fullVS.contains v = true := rfl

theorem compl_full : VS.compl fullVS = [] := rfl

theorem subset_full (S : VS) : VS.subset S fullVS = true := by
  simp [VS.subset, compl_full, inter_nil, VS.isEmptyB]

theorem disjoint_nil (S : VS) : VS.disjoint S [] = true := by
  simp [VS.disjoint, inter_nil, VS.isEmptyB]

theorem subset_exact_nil (w : Version) : VS.subset (exactVS w) [] = false := by
  rw [VS.subset, compl_nil, inter_exact_full]
  rfl

theorem contains_exact_self (w : Version) : (exactVS w).contains w = true := by
  simp [VS.contains, exactVS, segMem, memLB, memUB, Version.leB_refl]

theorem c6_root_deps (name : Str) :
    root_dependencies [(name, Range.any)] [] = Except.ok (c6reqs name) := rfl

theorem c6_exact_deps (name : Str) : exactDepsOf (c6reqs name) = [] := rfl

theorem c6_init_eval (rn name : Str) :
    initState [] rn (c6reqs name) = ⟨c6cache0 rn name, [c6I0 rn], []⟩ := rfl

theorem psolConstraint_nil (p : Str) : psolConstraint [] p = none := rfl

theorem psolConstraint_c6psol1 (rn : Str) :
    psolConstraint (c6psol1 rn) rn = some (Term.pos (exactVS rootVersion0)) := by
  simp [psolConstraint, c6psol1, c6I0, Assignment.pkg, Assignment.toTerm]

theorem relTerm_c6psol1_neg (rn : Str) :
    relTerm (c6psol1 rn) rn (Term.neg (exactVS rootVersion0)) = TermRel.contradicted := by
  unfold relTerm
  rw [psolConstraint_c6psol1]
  decide

theorem findConflict_c6psol1 (rn : Str) :
    findConflict (c6psol1 rn) [c6I0 rn] = none := by
  simp [findConflict, c6I0, relIncompat, relTerm_c6psol1_neg]

theorem findAlmost_c6psol1 (rn : Str) :
    findAlmost (c6psol1 rn) [c6I0 rn] = none := by
  simp [findAlmost, c6I0, relIncompat, relTerm_c6psol1_neg]

theorem c6_propagate_init (rn : Str) (m : Nat) :
    propagate (m + 2) [c6I0 rn] [] = some (none, c6psol1 rn) := by
  have h1 : propagate (m + 2) [c6I0 rn] [] =
      propagate (m + 1) [c6I0 rn] (c6psol1 rn) := rfl
  rw [h1]
  simp only [propagate, findConflict_c6psol1, findAlmost_c6psol1]

theorem candidates_c6psol1 (rn : Str) :
    candidatePkgs (c6psol1 rn) = [(rn, exactVS rootVersion0)] := by
  simp [candidatePkgs, positivePkgs, decidedPkgs, decisionsOf, c6psol1, keysOf,
    List.dedup]
  rw [show psolConstraint [Assignment.derivation rn (Term.pos (exactVS rootVersion0)) 0
        (c6I0 rn)] rn = some (Term.pos (exactVS rootVersion0)) from psolConstraint_c6psol1 rn]
  rfl

theorem alookup_c6cache0 (rn name : Str) :
    alookup rn (c6cache0 rn name) = some (c6root rn name) :=
  alookup_insert_self rn (c6root rn name) []

theorem ensureAll_c6cache0 (remote : Fetcher) (rn name : Str) :
    ensureAll remote (c6cache0 rn name) [rn] = Except.ok (c6cache0 rn name) := by
  simp [ensureAll, ensure_package_fetched, alookup_c6cache0]

theorem firstInRange_c6cache0 (rn name : Str) :
    firstInRange (c6cache0 rn name) [] rn (exactVS rootVersion0) = some rootVersion0 := by
  simp [firstInRange, listAvailableVersions, alookup_c6cache0, c6root, alookup,
    contains_exact_self]

theorem getDeps_c6root (remote : Fetcher) (rn name : Str) :
    get_dependencies remote [] (c6cache0 rn name) rn rootVersion0 =
      Except.ok (c6cache0 rn name, Dependencies.known [(name, fullVS)]) := by
  simp [get_dependencies, ensure_package_fetched, alookup_c6cache0, c6root, c6reqs,
    Release.is_retired, alookup, plainDependency, Range.toVS]

theorem c6_stepA (remote : Fetcher) (rn name : Str) (k : Nat) :
    solveLoop remote [] [] rn rootVersion0 (k + 2) ⟨c6cache0 rn name, [c6I0 rn], []⟩ =
    solveLoop remote [] [] rn rootVersion0 (k + 1)
      ⟨c6cache0 rn name, [c6I0 rn, c6I1 rn name], c6psol2 rn⟩ := by
  have hprop : propagate (k + 2) [c6I0 rn] [] = some (none, c6psol1 rn) :=
    c6_propagate_init rn k
  simp only [solveLoop, hprop, candidates_c6psol1, List.map_cons, List.map_nil,
    ensureAll_c6cache0, pickFewest, List.foldl_nil, firstInRange_c6cache0,
    getDeps_c6root]
  rfl

theorem psolConstraint_c6psol2_rn (rn : Str) :
    psolConstraint (c6psol2 rn) rn = some (Term.pos (exactVS rootVersion0)) := by
  simp [psolConstraint, c6psol2, c6psol1, Assignment.pkg, Assignment.toTerm, termIntersect,
    inter_exact_self]

theorem psolConstraint_c6psol2_name {rn name : Str} (hne : name ≠ rn) :
    psolConstraint (c6psol2 rn) name = none := by
  simp [psolConstraint, c6psol2, c6psol1, Assignment.pkg, Ne.symm hne]

theorem relTerm_c6psol2_neg (rn : Str) :
    relTerm (c6psol2 rn) rn (Term.neg (exactVS rootVersion0)) = TermRel.contradicted := by
  unfold relTerm
  rw [psolConstraint_c6psol2_rn]
  decide

theorem relTerm_c6psol2_pos (rn : Str) :
    relTerm (c6psol2 rn) rn (Term.pos (exactVS rootVersion0)) = TermRel.satisfied := by
  unfold relTerm
  rw [psolConstraint_c6psol2_rn]
  decide

theorem relTerm_c6psol2_name {rn name : Str} (hne : name ≠ rn) (t : Term) :
    relTerm (c6psol2 rn) name t = TermRel.inconclusive := by
  unfold relTerm
  rw [psolConstraint_c6psol2_name hne]

theorem relIncompat_c6psol2_I0 (rn : Str) :
    relIncompat (c6psol2 rn) (c6I0 rn) = IncompatRel.other := by
  simp [relIncompat, c6I0, relTerm_c6psol2_neg]

theorem relIncompat_c6psol2_I1 {rn name : Str} (hne : name ≠ rn) :
    relIncompat (c6psol2 rn) (c6I1 rn name) =
      IncompatRel.almost name (Term.neg fullVS) := by
  simp [relIncompat, c6I1, relTerm_c6psol2_pos, relTerm_c6psol2_name hne]

theorem findConflict_c6psol2 {rn name : Str} (hne : name ≠ rn) :
    findConflict (c6psol2 rn) [c6I0 rn, c6I1 rn name] = none := by
  simp [findConflict, relIncompat_c6psol2_I0, relIncompat_c6psol2_I1 hne]

theorem findAlmost_c6psol2 {rn name : Str} (hne : name ≠ rn) :
    findAlmost (c6psol2 rn) [c6I0 rn, c6I1 rn name] =
      some (c6I1 rn name, name, Term.neg fullVS) := by
  simp [findAlmost, relIncompat_c6psol2_I0, relIncompat_c6psol2_I1 hne]

theorem psolConstraint_c6psol3_rn {rn name : Str} (hne : name ≠ rn) :
    psolConstraint (c6psol3 rn name) rn = some (Term.pos (exactVS rootVersion0)) := by
  simp [psolConstraint, c6psol3, c6psol2, c6psol1, Assignment.pkg, Assignment.toTerm,
    termIntersect, hne, inter_exact_self]

theorem psolConstraint_c6psol3_name {rn name : Str} (hne : name ≠ rn) :
    psolConstraint (c6psol3 rn name) name = some (Term.pos fullVS) := by
  simp [psolConstraint, c6psol3, c6psol2, c6psol1, Assignment.pkg, Assignment.toTerm,
    Ne.symm hne]

theorem relTerm_c6psol3_neg {rn name : Str} (hne : name ≠ rn) :
    relTerm (c6psol3 rn name) rn (Term.neg (exactVS rootVersion0)) = TermRel.contradicted := by
  unfold relTerm
  rw [psolConstraint_c6psol3_rn hne]
  decide

theorem relTerm_c6psol3_pos {rn name : Str} (hne : name ≠ rn) :
    relTerm (c6psol3 rn name) rn (Term.pos (exactVS rootVersion0)) = TermRel.satisfied := by
  unfold relTerm
  rw [psolConstraint_c6psol3_rn hne]
  decide

theorem relTerm_c6psol3_name {rn name : Str} (hne : name ≠ rn) :
    relTerm (c6psol3 rn name) name (Term.neg fullVS) = TermRel.contradicted := by
  unfold relTerm
  rw [psolConstraint_c6psol3_name hne]
  decide

theorem relIncompat_c6psol3_I0 {rn name : Str} (hne : name ≠ rn) :
    relIncompat (c6psol3 rn name) (c6I0 rn) = IncompatRel.other := by
  simp [relIncompat, c6I0, relTerm_c6psol3_neg hne]

theorem relIncompat_c6psol3_I1 {rn name : Str} (hne : name ≠ rn) :
    relIncompat (c6psol3 rn name) (c6I1 rn name) = IncompatRel.other := by
  simp [relIncompat, c6I1, relTerm_c6psol3_pos hne, relTerm_c6psol3_name hne]

theorem findConflict_c6psol3 {rn name : Str} (hne : name ≠ rn) :
    findConflict (c6psol3 rn name) [c6I0 rn, c6I1 rn name] = none := by
  simp [findConflict, relIncompat_c6psol3_I0 hne, relIncompat_c6psol3_I1 hne]

theorem findAlmost_c6psol3 {rn name : Str} (hne : name ≠ rn) :
    findAlmost (c6psol3 rn name) [c6I0 rn, c6I1 rn name] = none := by
  simp [findAlmost, relIncompat_c6psol3_I0 hne, relIncompat_c6psol3_I1 hne]

theorem c6_propagate_psol2 {rn name : Str} (hne : name ≠ rn) (m : Nat) :
    propagate (m + 2) [c6I0 rn, c6I1 rn name] (c6psol2 rn) =
      some (none, c6psol3 rn name) := by
  have h1 : propagate (m + 2) [c6I0 rn, c6I1 rn name] (c6psol2 rn) =
      propagate (m + 1) [c6I0 rn, c6I1 rn name] (c6psol3 rn name) := by
    simp only [propagate, findConflict_c6psol2 hne, findAlmost_c6psol2 hne]
    rfl
  rw [h1]
  simp only [propagate, findConflict_c6psol3 hne, findAlmost_c6psol3 hne]

theorem positive_c6psol3 {rn name : Str} (hne : name ≠ rn) :
    positivePkgs (c6psol3 rn name) = [rn, name] := by
  have h2 : (rn :: name :: [] : List Str).dedup = [rn, name] := by
    rw [List.dedup_cons_of_not_mem]
    · simp
    · simp [Ne.symm hne]
  have h3 : (rn :: rn :: name :: [] : List Str).dedup = [rn, name] := by
    rw [List.dedup_cons_of_mem]
    · exact h2
    · simp
  simp only [positivePkgs, c6psol3, c6psol2, c6psol1, List.filterMap_append,
    List.filterMap_cons, List.filterMap_nil]
  exact h3

theorem decided_c6psol3 (rn name : Str) : decidedPkgs (c6psol3 rn name) = [rn] := by
  simp [decidedPkgs, decisionsOf, keysOf, c6psol3, c6psol2, c6psol1]

theorem candidates_c6psol3 {rn name : Str} (hne : name ≠ rn) :
    candidatePkgs (c6psol3 rn name) = [(name, fullVS)] := by
  unfold candidatePkgs
  rw [positive_c6psol3 hne, decided_c6psol3]
  simp [hne]
  rw [psolConstraint_c6psol3_name hne]
  rfl

theorem alookup_c6cache0_name {rn name : Str} (hne : name ≠ rn) :
    alookup name (c6cache0 rn name) = none := by
  simp [c6cache0, alookup, Ne.symm hne]

theorem ensureAll_c6cache0_name {remote : Fetcher} {rn name : Str} {pkg : Package}
    (hne : name ≠ rn) (hf : remote name = Except.ok pkg) :
    ensureAll remote (c6cache0 rn name) [name] = Except.ok (c6cache1 rn name pkg) := by
  simp [ensureAll, ensure_package_fetched, alookup_c6cache0_name hne, hf, c6cache1]

theorem alookup_c6cache1 (rn name : Str) (pkg : Package) :
    alookup name (c6cache1 rn name pkg) =
      some { pkg with releases := sortReleases pkg.releases } :=
  alookup_insert_self name _ _

theorem firstInRange_c6cache1 {rn name : Str} {pkg : Package} {h : Release}
    {t : List Release} (hs : sortReleases pkg.releases = h :: t) :
    firstInRange (c6cache1 rn name pkg) [] name fullVS = some h.version := by
  simp [firstInRange, listAvailableVersions, alookup_c6cache1, hs, alookup,
    contains_full_any]

theorem getDeps_c6cache1 {remote : Fetcher} {rn name : Str} {pkg : Package} {h : Release}
    {t : List Release} (hs : sortReleases pkg.releases = h :: t)
    (hnr : h.retirement_status = none) (hnd : h.requirements = []) :
    get_dependencies remote [] (c6cache1 rn name pkg) name h.version =
      Except.ok (c6cache1 rn name pkg, Dependencies.known []) := by
  simp [get_dependencies, ensure_package_fetched, alookup_c6cache1, hs,
    Release.is_retired, hnr, hnd, alookup]

theorem c6_stepB {remote : Fetcher} {rn name : Str} {pkg : Package} {h : Release}
    {t : List Release} (hne : name ≠ rn) (hf : remote name = Except.ok pkg)
    (hs : sortReleases pkg.releases = h :: t) (hnr : h.retirement_status = none)
    (hnd : h.requirements = []) (k : Nat) :
    solveLoop remote [] [] rn rootVersion0 (k + 2)
      ⟨c6cache0 rn name, [c6I0 rn, c6I1 rn name], c6psol2 rn⟩ =
    solveLoop remote [] [] rn rootVersion0 (k + 1)
      ⟨c6cache1 rn name pkg, [c6I0 rn, c6I1 rn name], c6psol4 rn name h.version⟩ := by
  have hprop : propagate (k + 2) [c6I0 rn, c6I1 rn name] (c6psol2 rn) =
      some (none, c6psol3 rn name) := c6_propagate_psol2 hne k
  simp only [solveLoop, hprop, candidates_c6psol3 hne, List.map_cons, List.map_nil,
    ensureAll_c6cache0_name hne hf, pickFewest, List.foldl_nil,
    firstInRange_c6cache1 hs, getDeps_c6cache1 hs hnr hnd]
  rfl

theorem psolConstraint_c6psol4_rn {rn name : Str} (hne : name ≠ rn) (w : Version) :
    psolConstraint (c6psol4 rn name w) rn = some (Term.pos (exactVS rootVersion0)) := by
  simp [psolConstraint, c6psol4, c6psol3, c6psol2, c6psol1, Assignment.pkg,
    Assignment.toTerm, termIntersect, hne, inter_exact_self]

theorem psolConstraint_c6psol4_name {rn name : Str} (hne : name ≠ rn) (w : Version) :
    psolConstraint (c6psol4 rn name w) name = some (Term.pos (exactVS w)) := by
  simp [psolConstraint, c6psol4, c6psol3, c6psol2, c6psol1, Assignment.pkg,
    Assignment.toTerm, termIntersect, Ne.symm hne, inter_full_exact]

theorem relTerm_c6psol4_neg {rn name : Str} (hne : name ≠ rn) (w : Version) :
    relTerm (c6psol4 rn name w) rn (Term.neg (exactVS rootVersion0)) =
      TermRel.contradicted := by
  unfold relTerm
  rw [psolConstraint_c6psol4_rn hne]
  decide

theorem relTerm_c6psol4_pos {rn name : Str} (hne : name ≠ rn) (w : Version) :
    relTerm (c6psol4 rn name w) rn (Term.pos (exactVS rootVersion0)) =
      TermRel.satisfied := by
  unfold relTerm
  rw [psolConstraint_c6psol4_rn hne]
  decide

theorem relTerm_c6psol4_name {rn name : Str} (hne : name ≠ rn) (w : Version) :
    relTerm (c6psol4 rn name w) name (Term.neg fullVS) = TermRel.contradicted := by
  unfold relTerm
  rw [psolConstraint_c6psol4_name hne]
  have h1 : termSubset (Term.pos (exactVS w)) (Term.neg fullVS) = false := by
    simp only [termSubset, VS.disjoint, inter_exact_full, VS.isEmptyB]
    rfl
  have h2 : termDisjoint (Term.pos (exactVS w)) (Term.neg fullVS) = true := by
    simp only [termDisjoint, subset_full]
  simp [h1, h2]

theorem relIncompat_c6psol4_I0 {rn name : Str} (hne : name ≠ rn) (w : Version) :
    relIncompat (c6psol4 rn name w) (c6I0 rn) = IncompatRel.other := by
  simp [relIncompat, c6I0, relTerm_c6psol4_neg hne]

theorem relIncompat_c6psol4_I1 {rn name : Str} (hne : name ≠ rn) (w : Version) :
    relIncompat (c6psol4 rn name w) (c6I1 rn name) = IncompatRel.other := by
  simp [relIncompat, c6I1, relTerm_c6psol4_pos hne, relTerm_c6psol4_name hne]

theorem findConflict_c6psol4 {rn name : Str} (hne : name ≠ rn) (w : Version) :
    findConflict (c6psol4 rn name w) [c6I0 rn, c6I1 rn name] = none := by
  simp [findConflict, relIncompat_c6psol4_I0 hne, relIncompat_c6psol4_I1 hne]

theorem findAlmost_c6psol4 {rn name : Str} (hne : name ≠ rn) (w : Version) :
    findAlmost (c6psol4 rn name w) [c6I0 rn, c6I1 rn name] = none := by
  simp [findAlmost, relIncompat_c6psol4_I0 hne, relIncompat_c6psol4_I1 hne]

theorem positive_c6psol4 {rn name : Str} (hne : name ≠ rn) (w : Version) :
    positivePkgs (c6psol4 rn name w) = [rn, name] := by
  have h1 : (name :: name :: [] : List Str).dedup = [name] := by
    rw [List.dedup_cons_of_mem]
    · simp
    · simp
  have h2 : (rn :: name :: name :: [] : List Str).dedup = [rn, name] := by
    rw [List.dedup_cons_of_not_mem]
    · rw [h1]
    · simp [Ne.symm hne]
  have h3 : (rn :: rn :: name :: name :: [] : List Str).dedup = [rn, name] := by
    rw [List.dedup_cons_of_mem]
    · exact h2
    · simp
  simp only [positivePkgs, c6psol4, c6psol3, c6psol2, c6psol1, List.filterMap_append,
    List.filterMap_cons, List.filterMap_nil]
  exact h3

theorem decided_c6psol4 (rn name : Str) (w : Version) :
    decidedPkgs (c6psol4 rn name w) = [rn, name] := by
  simp [decidedPkgs, decisionsOf, keysOf, c6psol4, c6psol3, c6psol2, c6psol1]

theorem candidates_c6psol4 {rn name : Str} (hne : name ≠ rn) (w : Version) :
    candidatePkgs (c6psol4 rn name w) = [] := by
  unfold candidatePkgs
  rw [positive_c6psol4 hne, decided_c6psol4]
  simp

theorem c6_propagate_psol4 {rn name : Str} (hne : name ≠ rn) (w : Version) (m : Nat) :
    propagate (m + 1) [c6I0 rn, c6I1 rn name] (c6psol4 rn name w) =
      some (none, c6psol4 rn name w) := by
  simp only [propagate, findConflict_c6psol4 hne, findAlmost_c6psol4 hne]

theorem c6_stepC {rn name : Str} (hne : name ≠ rn) (w : Version) (remote : Fetcher)
    (cache : Cache) (k : Nat) :
    solveLoop remote [] [] rn rootVersion0 (k + 1)
      ⟨cache, [c6I0 rn, c6I1 rn name], c6psol4 rn name w⟩ =
    Except.ok [(rn, rootVersion0), (name, w)] := by
  simp only [solveLoop, c6_propagate_psol4 hne, candidates_c6psol4 hne]
  rfl

theorem sortReleases_head_newest {rs : List Release} {h : Release} {t : List Release}
    (hs : sortReleases rs = h :: t) (hnp : ∃ r ∈ rs, r.version.isPre = false) :
    h.version.isPre = false ∧ h ∈ rs ∧
      ∀ r ∈ rs, r.version.isPre = false → Version.leB r.version h.version = true := by
  obtain ⟨r0, hr0mem, hr0pre⟩ := hnp
  have hr0sort : r0 ∈ sortReleases rs := (sortReleases_perm rs).mem_iff.mpr hr0mem
  have hr0A : r0 ∈ (sortReleases rs).filter (fun r => !r.version.isPre) :=
    List.mem_filter.mpr ⟨hr0sort, by simp [hr0pre]⟩
  have hsplit := sortReleases_split rs
  cases hA : (sortReleases rs).filter (fun r => !r.version.isPre) with
  | nil => rw [hA] at hr0A; exact absurd hr0A (List.not_mem_nil r0)
  | cons a ta =>
    rw [hA, hs] at hsplit
    have hha : h = a := by
      rw [List.cons_append] at hsplit
      injection hsplit with h1 h2
    have hhA : h ∈ (sortReleases rs).filter (fun r => !r.version.isPre) := by
      rw [hA, hha]
      exact List.mem_cons_self a ta
    have hpre : h.version.isPre = false := by
      have h2 := (List.mem_filter.mp hhA).2
      simpa using h2
    have hmem : h ∈ rs := by
      refine (sortReleases_perm rs).mem_iff.mp ?_
      rw [hs]
      exact List.mem_cons_self h t
    refine ⟨hpre, hmem, ?_⟩
    intro r hr hrpre
    have hrA : r ∈ (sortReleases rs).filter (fun q => !q.version.isPre) :=
      List.mem_filter.mpr ⟨(sortReleases_perm rs).mem_iff.mpr hr, by simp [hrpre]⟩
    have hsorted := sortReleases_nonpre_sorted rs
    rw [hA] at hrA hsorted
    rcases List.mem_cons.mp hrA with heq | hmemta
    · rw [heq, hha]
      exact Version.leB_refl _
    · have hge := (List.pairwise_cons.mp hsorted).1 r hmemta
      rw [hha]
      exact hge

theorem c6_solve_aux {remote : Fetcher} {rn name : Str} {pkg : Package} {h : Release}
    {t : List Release} (hne : name ≠ rn) (hf : remote name = Except.ok pkg)
    (hs : sortReleases pkg.releases = h :: t) (hnr : h.retirement_status = none)
    (hnd : h.requirements = []) :
    ∀ fuel sol0, solveLoop remote [] [] rn rootVersion0 fuel
        ⟨c6cache0 rn name, [c6I0 rn], []⟩ = Except.ok sol0 →
      sol0 = [(rn, rootVersion0), (name, h.version)] := by
  intro fuel sol0 hok
  match fuel, hok with
  | 0, hok => exact absurd hok (by simp [solveLoop])
  | 1, hok =>
    have h1 : solveLoop remote [] [] rn rootVersion0 1
        ⟨c6cache0 rn name, [c6I0 rn], []⟩ = Except.error SolveErr.fuelOut := rfl
    rw [h1] at hok
    exact absurd hok (by simp)
  | 2, hok =>
    have e1 : (2 : Nat) = 0 + 2 := rfl
    rw [e1, c6_stepA remote rn name 0] at hok
    have hp : propagate (0 + 1) [c6I0 rn, c6I1 rn name] (c6psol2 rn) = none := by
      simp only [propagate, findConflict_c6psol2 hne, findAlmost_c6psol2 hne]
    rw [show solveLoop remote [] [] rn rootVersion0 (0 + 1)
        ⟨c6cache0 rn name, [c6I0 rn, c6I1 rn name], c6psol2 rn⟩ =
        Except.error SolveErr.fuelOut by simp only [solveLoop, hp]] at hok
    exact absurd hok (by simp)
  | (k + 3), hok =>
    have e1 : k + 3 = (k + 1) + 2 := rfl
    rw [e1, c6_stepA remote rn name (k + 1)] at hok
    have e2 : (k + 1) + 1 = k + 2 := rfl
    rw [e2, c6_stepB hne hf hs hnr hnd k] at hok
    rw [c6_stepC hne h.version remote (c6cache1 rn name pkg) k] at hok
    exact (Except.ok.inj hok).symm

theorem c6_resolve_eval {remote : Fetcher} {rn name : Str} {pkg : Package} {h : Release}
    {t : List Release} (hne : name ≠ rn) (hf : remote name = Except.ok pkg)
    (hs : sortReleases pkg.releases = h :: t) (hnr : h.retirement_status = none)
    (hnd : h.requirements = []) :
    ∀ fuel sol, resolve_versions fuel remote [] rn [(name, Range.any)] [] = Except.ok sol →
      sol = [(name, h.version)] := by
  intro fuel sol hok
  simp only [resolve_versions, c6_root_deps, c6_exact_deps, c6_init_eval] at hok
  cases hsl : solveLoop remote [] [] rn rootVersion0 fuel
      ⟨c6cache0 rn name, [c6I0 rn], []⟩ with
  | error e =>
    rw [hsl] at hok
    cases e <;> simp at hok
  | ok sol0 =>
    rw [hsl] at hok
    have hsol0 := c6_solve_aux hne hf hs hnr hnd fuel sol0 hsl
    rw [hsol0] at hok
    simp [hne] at hok
    exact hok.symm

theorem c6_init_evalE (rn : Str) (prov : List (Str × Package)) :
    initState prov rn [] = ⟨c6cacheE rn prov, [c6I0 rn], []⟩ := rfl

theorem alookup_c6cacheE (rn : Str) (prov : List (Str × Package)) :
    alookup rn (c6cacheE rn prov) = some (c6rootE rn) :=
  alookup_insert_self rn (c6rootE rn) prov

theorem ensureAll_c6cacheE (remote : Fetcher) (rn : Str) (prov : List (Str × Package)) :
    ensureAll remote (c6cacheE rn prov) [rn] = Except.ok (c6cacheE rn prov) := by
  simp [ensureAll, ensure_package_fetched, alookup_c6cacheE]

theorem firstInRange_c6cacheE (rn : Str) (prov : List (Str × Package)) :
    firstInRange (c6cacheE rn prov) [] rn (exactVS rootVersion0) = some rootVersion0 := by
  simp [firstInRange, listAvailableVersions, alookup_c6cacheE, c6rootE, alookup,
    contains_exact_self]

theorem getDeps_c6rootE (remote : Fetcher) (rn : Str) (prov : List (Str × Package)) :
    get_dependencies remote [] (c6cacheE rn prov) rn rootVersion0 =
      Except.ok (c6cacheE rn prov, Dependencies.known []) := by
  simp [get_dependencies, ensure_package_fetched, alookup_c6cacheE, c6rootE,
    Release.is_retired, alookup]

theorem c6_stepAE (remote : Fetcher) (rn : Str) (prov : List (Str × Package)) (k : Nat) :
    solveLoop remote [] [] rn rootVersion0 (k + 2) ⟨c6cacheE rn prov, [c6I0 rn], []⟩ =
    solveLoop remote [] [] rn rootVersion0 (k + 1)
      ⟨c6cacheE rn prov, [c6I0 rn], c6psol2 rn⟩ := by
  have hprop : propagate (k + 2) [c6I0 rn] [] = some (none, c6psol1 rn) :=
    c6_propagate_init rn k
  simp only [solveLoop, hprop, candidates_c6psol1, List.map_cons, List.map_nil,
    ensureAll_c6cacheE, pickFewest, List.foldl_nil, firstInRange_c6cacheE,
    getDeps_c6rootE]
  rfl

theorem findConflict_c6psol2E (rn : Str) :
    findConflict (c6psol2 rn) [c6I0 rn] = none := by
  simp [findConflict, relIncompat_c6psol2_I0]

theorem findAlmost_c6psol2E (rn : Str) :
    findAlmost (c6psol2 rn) [c6I0 rn] = none := by
  simp [findAlmost, relIncompat_c6psol2_I0]

theorem c6_propagate_psol2E (rn : Str) (m : Nat) :
    propagate (m + 1) [c6I0 rn] (c6psol2 rn) = some (none, c6psol2 rn) := by
  simp only [propagate, findConflict_c6psol2E, findAlmost_c6psol2E]

theorem positive_c6psol2 (rn : Str) : positivePkgs (c6psol2 rn) = [rn] := by
  have h2 : (rn :: rn :: [] : List Str).dedup = [rn] := by
    rw [List.dedup_cons_of_mem]
    · simp
    · simp
  simp only [positivePkgs, c6psol2, c6psol1, List.filterMap_append, List.filterMap_cons,
    List.filterMap_nil]
  exact h2

theorem decided_c6psol2 (rn : Str) : decidedPkgs (c6psol2 rn) = [rn] := by
  simp [decidedPkgs, decisionsOf, keysOf, c6psol2, c6psol1]

theorem candidates_c6psol2 (rn : Str) : candidatePkgs (c6psol2 rn) = [] := by
  unfold candidatePkgs
  rw [positive_c6psol2, decided_c6psol2]
  simp

theorem c6_stepCE (remote : Fetcher) (rn : Str) (cache : Cache) (k : Nat) :
    solveLoop remote [] [] rn rootVersion0 (k + 1) ⟨cache, [c6I0 rn], c6psol2 rn⟩ =
    Except.ok [(rn, rootVersion0)] := by
  simp only [solveLoop, c6_propagate_psol2E, candidates_c6psol2]
  rfl

theorem c6_resolve_empty (remote : Fetcher) (prov : List (Str × Package)) (rn : Str)
    (m : Nat) :
    resolve_versions (m + 3) remote prov rn [] [] = Except.ok [] := by
  have hrd : root_dependencies [] [] = Except.ok [] := rfl
  have hed : exactDepsOf [] = [] := rfl
  simp only [resolve_versions, hrd, hed, c6_init_evalE]
  have e1 : m + 3 = (m + 1) + 2 := rfl
  rw [e1, c6_stepAE remote rn prov (m + 1)]
  have e2 : (m + 1) + 1 = m + 2 := rfl
  rw [e2, c6_stepCE remote rn (c6cacheE rn prov) (m + 1)]
  simp

/-- C6 (amended): for every fetch capability, root name, and single explicit
wildcard requirement on a package other than the root, with an empty locked
set, provided every fetched release of that package declares no dependencies
and is not retired and at least one non-prerelease release exists, a
successful resolve returns the map assigning the name the newest
non-prerelease version among the package's fetched releases; and a resolve
with an empty requirement set and empty locked set returns an empty map (for
every sufficient fuel, the provided packages being arbitrary).  The
no-dependency / no-retirement / non-prerelease-exists provisos are forced by
the counterexample: with dependencies, conflict-driven backtracking can
select an older version. -/
theorem c6_wildcard_newest (remote : Fetcher) (rn name : Str) (pkg : Package)
    (fuel : Nat) (sol : List (Str × Version)) (hne : name ≠ rn)
    (hf : remote name = Except.ok pkg)
    (hnr : ∀ r ∈ pkg.releases, r.retirement_status = none)
    (hnd : ∀ r ∈ pkg.releases, r.requirements = [])
    (hnp : ∃ r ∈ pkg.releases, r.version.isPre = false)
    (hok : resolve_versions fuel remote [] rn [(name, Range.any)] [] = Except.ok sol) :
    (∃ r ∈ pkg.releases, sol = [(name, r.version)] ∧ r.version.isPre = false ∧
      ∀ q ∈ pkg.releases, q.version.isPre = false →
        Version.leB q.version r.version = true) ∧
    (∀ m prov rn2, resolve_versions (m + 3) remote prov rn2 [] [] =
      Except.ok ([] : List (Str × Version))) := by
  constructor
  · have hnonnil : sortReleases pkg.releases ≠ [] := by
      obtain ⟨r0, hr0, _⟩ := hnp
      intro hnil
      have hmem : r0 ∈ sortReleases pkg.releases := (sortReleases_perm _).mem_iff.mpr hr0
      rw [hnil] at hmem
      exact (List.not_mem_nil r0) hmem
    cases hs : sortReleases pkg.releases with
    | nil => exact absurd hs hnonnil
    | cons h t =>
      have hhead := sortReleases_head_newest hs hnp
      have hsol := c6_resolve_eval hne hf hs (hnr h hhead.2.1) (hnd h hhead.2.1) fuel sol hok
      exact ⟨h, hhead.2.1, hsol, hhead.1, hhead.2.2⟩
  · intro m prov rn2
    exact c6_resolve_empty remote prov rn2 m

theorem c6_wildcard_newest_witness :
    (∃ r ∈ c6wPkg.releases,
        [((("a").data : Str), (⟨2, 0, 0, none⟩ : Version))] = [(("a").data, r.version)] ∧
        r.version.isPre = false ∧
        ∀ q ∈ c6wPkg.releases, q.version.isPre = false →
          Version.leB q.version r.version = true) ∧
    (∀ m prov rn2, resolve_versions (m + 3) c6wRemote prov rn2 [] [] =
      Except.ok ([] : List (Str × Version))) :=
  c6_wildcard_newest c6wRemote (("r").data) (("a").data) c6wPkg 5
    [(("a").data, ⟨2, 0, 0, none⟩)] (by decide) rfl (by decide) (by decide)
    (by decide) (by decide)

/-- C6 counterexample: under a single wildcard requirement on `a` with empty
locked set, resolution succeeds with `a = 1.0.0` although the newest
non-prerelease fetched release of `a` is `2.0.0` (whose requirement on `q` is
unsatisfiable, so the solver backtracks to the older version) — refuting the
claim that a successful resolve always returns the newest non-prerelease
version. -/
theorem c6_wildcard_newest_cex :
    resolve_versions 8 c6cexRemote [] (("r").data) [(("a").data, Range.any)] [] =
      Except.ok [(("a").data, ⟨1, 0, 0, none⟩)] ∧
    (∃ r ∈ c6cexPkgA.releases, r.version = ⟨2, 0, 0, none⟩ ∧ r.version.isPre = false) ∧
    (∀ q ∈ c6cexPkgA.releases, Version.leB q.version ⟨2, 0, 0, none⟩ = true) ∧
    (⟨1, 0, 0, none⟩ : Version) ≠ ⟨2, 0, 0, none⟩ := by
  decide

theorem lexNat_antisymm {x y : Nat} {k1 k2 : Bool} (h1 : lexNat x y k1 = true)
    (h2 : lexNat y x k2 = true) : x = y ∧ k1 = true ∧ k2 = true := by
  unfold lexNat at h1 h2
  rcases Nat.lt_trichotomy x y with h | h | h
  · rw [if_neg (by omega), if_pos h] at h2
    exact absurd h2 (by simp)
  · subst h
    rw [if_neg (by omega), if_neg (by omega)] at h1 h2
    exact ⟨rfl, h1, h2⟩
  · rw [if_neg (by omega), if_pos h] at h1
    exact absurd h1 (by simp)

theorem char_toNat_inj {a b : Char} (h : a.toNat = b.toNat) : a = b := by
  unfold Char.toNat at h
  exact Char.eq_of_val_eq (UInt32.toNat.inj h)

theorem strLeB_antisymm : ∀ {s t : Str}, strLeB s t = true → strLeB t s = true → s = t := by
  intro s
  induction s with
  | nil =>
    intro t h1 h2
    cases t with
    | nil => rfl
    | cons d ds => exact absurd h2 (by simp [strLeB])
  | cons c cs ih =>
    intro t h1 h2
    cases t with
    | nil => exact absurd h1 (by simp [strLeB])
    | cons d ds =>
      have h3 := lexNat_antisymm (show lexNat c.toNat d.toNat (strLeB cs ds) = true from h1)
        (show lexNat d.toNat c.toNat (strLeB ds cs) = true from h2)
      have hc : c = d := char_toNat_inj h3.1
      have hrest : cs = ds := ih h3.2.1 h3.2.2
      rw [hc, hrest]

theorem preLeB_antisymm : ∀ {p q : Option Str}, preLeB p q = true → preLeB q p = true →
    p = q := by
  intro p q h1 h2
  cases p with
  | none =>
    cases q with
    | none => rfl
    | some t => exact absurd h1 (by simp [preLeB])
  | some s =>
    cases q with
    | none => exact absurd h2 (by simp [preLeB])
    | some t => rw [strLeB_antisymm h1 h2]

theorem Version.leB_antisymm {a b : Version} (h1 : Version.leB a b = true)
    (h2 : Version.leB b a = true) : a = b := by
  unfold Version.leB at h1 h2
  have m1 := lexNat_antisymm h1 h2
  have m2 := lexNat_antisymm m1.2.1 m1.2.2
  have m3 := lexNat_antisymm m2.2.1 m2.2.2
  have m4 := preLeB_antisymm m3.2.1 m3.2.2
  cases a with
  | mk amj amn ap apre =>
    cases b with
    | mk bmj bmn bp bpre =>
      simp only at m1 m2 m3 m4
      rw [m1.1, m2.1, m3.1, m4]

theorem segInter_some {a b s : Seg} (h : segInter a b = some s) :
    s = (lbMax a.1 b.1, ubMin a.2 b.2) ∧
      segNonempty (lbMax a.1 b.1, ubMin a.2 b.2) = true := by
  unfold segInter at h
  by_cases hc : segNonempty (lbMax a.1 b.1, ubMin a.2 b.2) = true
  · rw [if_pos hc] at h
    exact ⟨(Option.some.inj h).symm, hc⟩
  · rw [if_neg hc] at h
    cases h

theorem leB_total_of_not {a b : Version} (h : ¬ Version.leB a b = true) :
    Version.leB b a = true :=
  (Version.leB_total a b).resolve_left h

theorem segInter_exact_right {v : Version} {t s : Seg}
    (h : segInter t (LB.inc v, UB.inc v) = some s) : s = (LB.inc v, UB.inc v) := by
  obtain ⟨l, u⟩ := t
  obtain ⟨hs, hne⟩ := segInter_some h
  have hlb : ∀ c : LB, lbMax c (LB.inc v) = LB.inc v ∨
      (∃ a, c = LB.inc a ∧ lbMax c (LB.inc v) = LB.inc a ∧ ¬ Version.leB a v = true) ∨
      (∃ a, c = LB.exc a ∧ lbMax c (LB.inc v) = LB.exc a ∧ Version.leB v a = true) := by
    intro c
    cases c with
    | ninf => exact Or.inl (by simp [lbMax, lbLeB])
    | inc a =>
      by_cases hav : Version.leB a v = true
      · exact Or.inl (by simp [lbMax, lbLeB, hav])
      · exact Or.inr (Or.inl ⟨a, rfl, by simp [lbMax, lbLeB, hav], hav⟩)
    | exc a =>
      by_cases hav : Version.ltB a v = true
      · exact Or.inl (by simp [lbMax, lbLeB, hav])
      · refine Or.inr (Or.inr ⟨a, rfl, by simp [lbMax, lbLeB, hav], ?_⟩)
        simp only [Version.ltB, Bool.not_eq_true] at hav
        simpa using hav
  have hub : ∀ c : UB, ubMin c (UB.inc v) = UB.inc v ∨
      (∃ b, c = UB.inc b ∧ ubMin c (UB.inc v) = UB.inc b ∧ ¬ Version.leB v b = true) ∨
      (∃ b, c = UB.exc b ∧ ubMin c (UB.inc v) = UB.exc b ∧ Version.leB b v = true) := by
    intro c
    cases c with
    | pinf => exact Or.inl (by simp [ubMin, ubLeB])
    | inc b =>
      by_cases hvb : Version.leB v b = true
      · exact Or.inl (by simp [ubMin, ubLeB, hvb])
      · exact Or.inr (Or.inl ⟨b, rfl, by simp [ubMin, ubLeB, hvb], hvb⟩)
    | exc b =>
      by_cases hvb : Version.ltB v b = true
      · exact Or.inl (by simp [ubMin, ubLeB, hvb])
      · refine Or.inr (Or.inr ⟨b, rfl, by simp [ubMin, ubLeB, hvb], ?_⟩)
        simp only [Version.ltB, Bool.not_eq_true] at hvb
        simpa using hvb
  rcases hlb l with hl | ⟨a, hla, hl, hav⟩ | ⟨a, hla, hl, hva⟩ <;>
    rcases hub u with hu | ⟨b, hub2, hu, hvb⟩ | ⟨b, hub2, hu, hbv⟩ <;>
    rw [hl, hu] at hs hne <;> simp only [segNonempty] at hne
  · exact hs
  · exact absurd hne hvb
  · simp [Version.ltB, hbv] at hne
  · exact absurd hne hav
  · exact absurd (Version.leB_trans hne (leB_total_of_not hvb)) hav
  · exact absurd (Version.leB_trans (leB_of_ltB hne) hbv) hav
  · simp [Version.ltB, hva] at hne
  · exact absurd (Version.leB_trans hva (leB_of_ltB hne)) hvb
  · simp [Version.ltB, Version.leB_trans hbv hva] at hne

theorem segInter_exact_left {v : Version} {t s : Seg}
    (h : segInter (LB.inc v, UB.inc v) t = some s) : s = (LB.inc v, UB.inc v) := by
  obtain ⟨l, u⟩ := t
  obtain ⟨hs, hne⟩ := segInter_some h
  have hlb : ∀ c : LB, lbMax (LB.inc v) c = LB.inc v ∨
      (∃ a, c = LB.inc a ∧ lbMax (LB.inc v) c = LB.inc a ∧ Version.leB v a = true) ∨
      (∃ a, c = LB.exc a ∧ lbMax (LB.inc v) c = LB.exc a ∧ Version.leB v a = true) := by
    intro c
    cases c with
    | ninf => exact Or.inl (by simp [lbMax, lbLeB])
    | inc a =>
      by_cases hva : Version.leB v a = true
      · exact Or.inr (Or.inl ⟨a, rfl, by simp [lbMax, lbLeB, hva], hva⟩)
      · exact Or.inl (by simp [lbMax, lbLeB, hva])
    | exc a =>
      by_cases hva : Version.leB v a = true
      · exact Or.inr (Or.inr ⟨a, rfl, by simp [lbMax, lbLeB, hva], hva⟩)
      · exact Or.inl (by simp [lbMax, lbLeB, hva])
  have hub : ∀ c : UB, ubMin (UB.inc v) c = UB.inc v ∨
      (∃ b, c = UB.inc b ∧ ubMin (UB.inc v) c = UB.inc b ∧ Version.leB b v = true) ∨
      (∃ b, c = UB.exc b ∧ ubMin (UB.inc v) c = UB.exc b ∧ Version.leB b v = true) := by
    intro c
    cases c with
    | pinf => exact Or.inl (by simp [ubMin, ubLeB])
    | inc b =>
      by_cases hbv : Version.leB b v = true
      · exact Or.inr (Or.inl ⟨b, rfl, by simp [ubMin, ubLeB, hbv], hbv⟩)
      · exact Or.inl (by simp [ubMin, ubLeB, hbv])
    | exc b =>
      by_cases hbv : Version.leB b v = true
      · exact Or.inr (Or.inr ⟨b, rfl, by simp [ubMin, ubLeB, hbv], hbv⟩)
      · exact Or.inl (by simp [ubMin, ubLeB, hbv])
  rcases hlb l with hl | ⟨a, hla, hl, hva⟩ | ⟨a, hla, hl, hva⟩ <;>
    rcases hub u with hu | ⟨b, hub2, hu, hbv⟩ | ⟨b, hub2, hu, hbv⟩ <;>
    rw [hl, hu] at hs hne <;> simp only [segNonempty] at hne
  · exact hs
  · rw [Version.leB_antisymm hbv hne] at hs
    exact hs
  · simp [Version.ltB, hbv] at hne
  · rw [Version.leB_antisymm hne hva] at hs
    exact hs
  · rw [Version.leB_antisymm (Version.leB_trans hne hbv) hva,
      Version.leB_antisymm hbv (Version.leB_trans hva hne)] at hs
    exact hs
  · simp [Version.ltB, Version.leB_trans hbv hva] at hne
  · simp [Version.ltB, hva] at hne
  · simp [Version.ltB, Version.leB_trans hbv hva] at hne
  · simp [Version.ltB, Version.leB_trans hbv hva] at hne

theorem allExact_inter_right (v : Version) (T : VS) : allExact v (VS.inter T (exactVS v)) := by
  intro s hs
  rw [VS.inter, List.mem_flatMap] at hs
  obtain ⟨a, ha, hs⟩ := hs
  rw [List.mem_filterMap] at hs
  obtain ⟨b, hb, hsb⟩ := hs
  have hb2 : b = (LB.inc v, UB.inc v) :=
    List.mem_singleton.mp (show b ∈ [(LB.inc v, UB.inc v)] from hb)
  rw [hb2] at hsb
  exact segInter_exact_right hsb

theorem allExact_inter_left {v : Version} {S : VS} (h : allExact v S) (U : VS) :
    allExact v (VS.inter S U) := by
  intro s hs
  rw [VS.inter, List.mem_flatMap] at hs
  obtain ⟨a, ha, hs⟩ := hs
  rw [List.mem_filterMap] at hs
  obtain ⟨b, hb, hsb⟩ := hs
  rw [h a ha] at hsb
  exact segInter_exact_left hsb

theorem compl_exact (v : Version) :
    VS.compl (exactVS v) = [(LB.ninf, UB.exc v), (LB.exc v, UB.pinf)] := rfl

theorem segInter_exact_ray1 (v : Version) :
    segInter (LB.inc v, UB.inc v) (LB.ninf, UB.exc v) = none := by
  simp [segInter, lbMax, ubMin, lbLeB, ubLeB, segNonempty, Version.ltB, Version.leB_refl]

theorem segInter_exact_ray2 (v : Version) :
    segInter (LB.inc v, UB.inc v) (LB.exc v, UB.pinf) = none := by
  simp [segInter, lbMax, ubMin, lbLeB, ubLeB, segNonempty, Version.ltB, Version.leB_refl]

theorem inter_nil_of_allExact {v : Version} : ∀ {S : VS}, allExact v S →
    VS.inter S [(LB.ninf, UB.exc v), (LB.exc v, UB.pinf)] = [] := by
  intro S
  induction S with
  | nil => intro _; rfl
  | cons s rest ih =>
    intro h
    have hs := h s (List.mem_cons_self s rest)
    have hrest : allExact v rest := fun t ht => h t (List.mem_cons_of_mem s ht)
    show ([(LB.ninf, UB.exc v), (LB.exc v, UB.pinf)].filterMap (fun b => segInter s b)) ++
      VS.inter rest [(LB.ninf, UB.exc v), (LB.exc v, UB.pinf)] = []
    rw [ih hrest, hs]
    simp [List.filterMap, segInter_exact_ray1, segInter_exact_ray2]

theorem subset_of_allExact {v : Version} {S : VS} (h : allExact v S) :
    VS.subset S (exactVS v) = true := by
  unfold VS.subset
  rw [compl_exact, inter_nil_of_allExact h]
  rfl

theorem foldl_termIntersect_decision {p : Str} {v : Version} {l : Nat} :
    ∀ (rest : List Assignment) (t : Term),
      ((∃ S, t = Term.pos S ∧ allExact v S) ∨ Assignment.decision p v l ∈ rest) →
      ∃ S', rest.foldl (fun acc b => termIntersect acc b.toTerm) t = Term.pos S' ∧
        allExact v S' := by
  intro rest
  induction rest with
  | nil =>
    intro t h
    rcases h with ⟨S, rfl, hall⟩ | habs
    · exact ⟨S, rfl, hall⟩
    · exact absurd habs (List.not_mem_nil _)
  | cons c cs ih =>
    intro t h
    show ∃ S', cs.foldl (fun acc b => termIntersect acc b.toTerm) (termIntersect t c.toTerm) =
      Term.pos S' ∧ allExact v S'
    rcases h with ⟨S, rfl, hall⟩ | hmem
    · apply ih
      left
      cases hc : c.toTerm with
      | pos b =>
        exact ⟨VS.inter S b, rfl, allExact_inter_left hall b⟩
      | neg b =>
        exact ⟨VS.inter S (VS.compl b), rfl, allExact_inter_left hall (VS.compl b)⟩
    · rcases List.mem_cons.mp hmem with heq | hcs
      · apply ih
        left
        cases t with
        | pos a =>
          refine ⟨VS.inter a (exactVS v), ?_, allExact_inter_right v a⟩
          rw [← heq]
          rfl
        | neg a =>
          refine ⟨VS.inter (VS.compl a) (exactVS v), ?_, allExact_inter_right v (VS.compl a)⟩
          rw [← heq]
          rfl
      · apply ih
        right
        exact hcs

theorem relTerm_decision_satisfied {psol : List Assignment} {p : Str} {v : Version} {l : Nat}
    (h : Assignment.decision p v l ∈ psol) :
    relTerm psol p (Term.pos (exactVS v)) = TermRel.satisfied := by
  have hmem : Assignment.decision p v l ∈ psol.filter (fun a => decide (a.pkg = p)) :=
    List.mem_filter.mpr ⟨h, by simp [Assignment.pkg]⟩
  cases hfil : psol.filter (fun a => decide (a.pkg = p)) with
  | nil =>
    rw [hfil] at hmem
    exact absurd hmem (List.not_mem_nil _)
  | cons a rest =>
    rw [hfil] at hmem
    have hstart : (∃ S, a.toTerm = Term.pos S ∧ allExact v S) ∨
        Assignment.decision p v l ∈ rest := by
      rcases List.mem_cons.mp hmem with heq | hrest
      · left
        refine ⟨exactVS v, ?_, ?_⟩
        · rw [← heq]
          rfl
        · intro s hs
          exact List.mem_singleton.mp (show s ∈ [(LB.inc v, UB.inc v)] from hs)
      · right
        exact hrest
    obtain ⟨S', hfold, hall⟩ := foldl_termIntersect_decision rest a.toTerm hstart
    have hpc : psolConstraint psol p =
        some (rest.foldl (fun acc b => termIntersect acc b.toTerm) a.toTerm) := by
      unfold psolConstraint
      rw [hfil]
    unfold relTerm
    rw [hpc, hfold]
    have hsub : termSubset (Term.pos S') (Term.pos (exactVS v)) = true := by
      simp only [termSubset]
      exact subset_of_allExact hall
    simp [hsub]

theorem relTerm_nil (p : Str) (t : Term) : relTerm [] p t = TermRel.inconclusive := rfl

theorem relIncompat_nil_ne_sat {I : Incompat} (h : I ≠ []) :
    relIncompat [] I ≠ IncompatRel.satisfied := by
  cases I with
  | nil => exact absurd rfl h
  | cons pt rest =>
    unfold relIncompat
    have hall : ((pt :: rest).all fun q =>
        decide (relTerm [] q.1 q.2 = TermRel.satisfied)) = false := by
      simp [List.all_cons, relTerm_nil]
    rw [hall]
    simp only [Bool.false_eq_true, if_false]
    split
    · simp
    · split <;> simp

theorem propagate_append : ∀ {f : Nat} {store : List Incompat} {psol : List Assignment}
    {r : Option Incompat} {psol2 : List Assignment},
    propagate f store psol = some (r, psol2) →
    ∃ ext, psol2 = psol ++ ext ∧ ∀ a ∈ ext, a.isDecision = false := by
  intro f
  induction f with
  | zero => intro store psol r psol2 h; cases h
  | succ g ih =>
    intro store psol r psol2 h
    unfold propagate at h
    cases hfc : findConflict psol store with
    | some I =>
      rw [hfc] at h
      have h1 := Option.some.inj h
      refine ⟨[], ?_, by intro a ha; exact absurd ha (List.not_mem_nil a)⟩
      rw [List.append_nil]
      exact (congrArg Prod.snd h1).symm
    | none =>
      rw [hfc] at h
      cases hfa : findAlmost psol store with
      | none =>
        rw [hfa] at h
        have h1 := Option.some.inj h
        refine ⟨[], ?_, by intro a ha; exact absurd ha (List.not_mem_nil a)⟩
        rw [List.append_nil]
        exact (congrArg Prod.snd h1).symm
      | some trip =>
        obtain ⟨I, q, t⟩ := trip
        rw [hfa] at h
        have h' : propagate g store (psol ++ [Assignment.derivation q t.negate
            (decisionLevel psol) I]) = some (r, psol2) := h
        obtain ⟨ext, heq, hext⟩ := ih h'
        refine ⟨Assignment.derivation q t.negate (decisionLevel psol) I :: ext, ?_, ?_⟩
        · rw [heq, List.append_assoc]
          rfl
        · intro a ha
          rcases List.mem_cons.mp ha with rfl | ha2
          · rfl
          · exact hext a ha2

theorem propagate_fixpoint : ∀ {f : Nat} {store : List Incompat} {psol psol2 : List Assignment},
    propagate f store psol = some (none, psol2) →
    findConflict psol2 store = none ∧ findAlmost psol2 store = none := by
  intro f
  induction f with
  | zero => intro store psol psol2 h; cases h
  | succ g ih =>
    intro store psol psol2 h
    unfold propagate at h
    cases hfc : findConflict psol store with
    | some I =>
      rw [hfc] at h
      have h1 := Option.some.inj h
      have h2 := congrArg Prod.fst h1
      cases h2
    | none =>
      rw [hfc] at h
      cases hfa : findAlmost psol store with
      | none =>
        rw [hfa] at h
        have h1 := Option.some.inj h
        have h2 : psol = psol2 := congrArg Prod.snd h1
        rw [← h2]
        exact ⟨hfc, hfa⟩
      | some trip =>
        obtain ⟨I, q, t⟩ := trip
        rw [hfa] at h
        exact ih h

theorem propagate_decision {f : Nat} {store : List Incompat} {psol : List Assignment}
    {r : Option Incompat} {psol2 : List Assignment}
    (h : propagate f store psol = some (r, psol2)) {p : Str} {v : Version} {l : Nat}
    (hd : Assignment.decision p v l ∈ psol2) : Assignment.decision p v l ∈ psol := by
  obtain ⟨ext, heq, hext⟩ := propagate_append h
  rw [heq] at hd
  rcases List.mem_append.mp hd with h1 | h2
  · exact h1
  · have h3 := hext _ h2
    simp [Assignment.isDecision] at h3

theorem propagate_nil_root {f : Nat} {store rest : List Incompat} {rn : Str}
    {r : Option Incompat} {psol2 : List Assignment}
    (hstore : store = c6I0 rn :: rest) (hnn : ∀ I ∈ store, I ≠ [])
    (h : propagate f store [] = some (r, psol2)) :
    Assignment.derivation rn (Term.pos (exactVS rootVersion0)) 0 (c6I0 rn) ∈ psol2 := by
  cases f with
  | zero => cases h
  | succ g =>
    unfold propagate at h
    have hfc : findConflict [] store = none := by
      apply List.find?_eq_none.mpr
      intro I hI
      simp only [decide_eq_true_eq]
      exact relIncompat_nil_ne_sat (hnn I hI)
    rw [hfc] at h
    have hfa : findAlmost [] store = some (c6I0 rn, rn, Term.neg (exactVS rootVersion0)) := by
      rw [hstore]
      rfl
    rw [hfa] at h
    have h' : propagate g store ([] ++ [Assignment.derivation rn
        (Term.neg (exactVS rootVersion0)).negate (decisionLevel []) (c6I0 rn)]) =
        some (r, psol2) := h
    obtain ⟨ext, heq, hext⟩ := propagate_append h'
    rw [heq]
    apply List.mem_append_left
    exact List.mem_singleton.mpr rfl

theorem resolveConflict_ne_nil {rootName : Str} {rootVersion : Version} :
    ∀ {f : Nat} {I : Incompat} {psol : List Assignment} {learned : Incompat} {lvl : Nat},
    resolveConflict rootName rootVersion f I psol = Except.ok (learned, lvl) →
    learned ≠ [] := by
  intro f
  induction f with
  | zero => intro I psol learned lvl h; cases h
  | succ g ih =>
    intro I psol learned lvl h
    unfold resolveConflict at h
    by_cases ht : isTerminal rootName rootVersion I = true
    · rw [if_pos ht] at h
      cases h
    · rw [if_neg ht] at h
      have hIne : I ≠ [] := by
        intro hnil
        rw [hnil] at ht
        exact ht rfl
      split at h
      · cases h
      · split at h
        · cases h
        · dsimp only at h
          split at h
          · have h2 : I = learned := congrArg Prod.fst (Except.ok.inj h)
            rw [← h2]
            exact hIne
          · split at h
            · have h2 : I = learned := congrArg Prod.fst (Except.ok.inj h)
              rw [← h2]
              exact hIne
            · exact ih h

theorem ensure_preserve {remote : Fetcher} {cache cache2 : Cache} {nm rn : Str} {P : Package}
    (h : ensure_package_fetched remote cache nm = Except.ok cache2)
    (hrn : alookup rn cache = some P) : alookup rn cache2 = some P := by
  unfold ensure_package_fetched at h
  cases hl : alookup nm cache with
  | some q =>
    rw [hl] at h
    cases h
    exact hrn
  | none =>
    rw [hl] at h
    cases hr : remote nm with
    | error e => rw [hr] at h; cases h
    | ok pkg =>
      rw [hr] at h
      cases h
      have hne : nm ≠ rn := by
        intro he
        rw [he, hrn] at hl
        cases hl
      rw [alookup_insert_ne _ _ hne]
      exact hrn

theorem ensureAll_preserve {remote : Fetcher} {rn : Str} {P : Package} :
    ∀ {names : List Str} {cache cache2 : Cache},
    ensureAll remote cache names = Except.ok cache2 →
    alookup rn cache = some P → alookup rn cache2 = some P := by
  intro names
  induction names with
  | nil =>
    intro cache cache2 h hrn
    cases h
    exact hrn
  | cons nm rest ih =>
    intro cache cache2 h hrn
    unfold ensureAll at h
    cases he : ensure_package_fetched remote cache nm with
    | error e => rw [he] at h; cases h
    | ok cmid =>
      rw [he] at h
      exact ih h (ensure_preserve he hrn)

theorem getDeps_preserve {remote : Fetcher} {locked : List (Str × Version)} {cache cache2 : Cache}
    {nm rn : Str} {v : Version} {d : Dependencies} {P : Package}
    (h : get_dependencies remote locked cache nm v = Except.ok (cache2, d))
    (hrn : alookup rn cache = some P) : alookup rn cache2 = some P := by
  unfold get_dependencies at h
  split at h
  · cases h
  · rename_i cmid he
    have hmid : alookup rn cmid = some P := ensure_preserve he hrn
    split at h
    · have h2 : cmid = cache2 := congrArg Prod.fst (Except.ok.inj h)
      rw [← h2]
      exact hmid
    · split at h
      · have h2 : cmid = cache2 := congrArg Prod.fst (Except.ok.inj h)
        rw [← h2]
        exact hmid
      · have h2 : cmid = cache2 := congrArg Prod.fst (Except.ok.inj h)
        rw [← h2]
        exact hmid

theorem firstInRange_exact {cache : Cache} {exact : List (Str × Version)} {p : Str}
    {V v : Version} {vs : VS} (hx : alookup p exact = some V)
    (h : firstInRange cache exact p vs = some v) : v = V := by
  unfold firstInRange at h
  have hv := List.mem_of_find?_eq_some h
  unfold listAvailableVersions at hv
  cases hc : alookup p cache with
  | none =>
    rw [hc] at hv
    exact absurd hv (List.not_mem_nil v)
  | some pkg =>
    rw [hc] at hv
    rw [List.mem_map] at hv
    obtain ⟨r, hr, hrv⟩ := hv
    have h2 := (List.mem_filter.mp hr).2
    simp only [hx] at h2
    rw [← hrv]
    exact of_decide_eq_true h2

theorem firstInRange_root {cache : Cache} {exact : List (Str × Version)} {rn : Str}
    {rootPkg : Package} {rel : Release} {vs : VS} {v : Version}
    (hc : alookup rn cache = some rootPkg) (hrel : rootPkg.releases = [rel])
    (h : firstInRange cache exact rn vs = some v) : v = rel.version := by
  unfold firstInRange at h
  have hv := List.mem_of_find?_eq_some h
  unfold listAvailableVersions at hv
  simp only [hc, hrel] at hv
  rw [List.mem_map] at hv
  obtain ⟨r, hr, hrv⟩ := hv
  have h2 := (List.mem_filter.mp hr).1
  have h3 : r = rel := List.mem_singleton.mp h2
  rw [← hrv, h3]

theorem foldl_termIntersect_pos : ∀ {rest : List Assignment} {t0 : Term} {A : VS},
    rest.foldl (fun acc b => termIntersect acc b.toTerm) t0 = Term.pos A →
    (∃ s, t0 = Term.pos s) ∨ ∃ b ∈ rest, ∃ s, b.toTerm = Term.pos s := by
  intro rest
  induction rest with
  | nil =>
    intro t0 A h
    exact Or.inl ⟨A, h⟩
  | cons c cs ih =>
    intro t0 A h
    have h' : cs.foldl (fun acc b => termIntersect acc b.toTerm)
        (termIntersect t0 c.toTerm) = Term.pos A := h
    rcases ih h' with ⟨s, hs⟩ | ⟨b, hb, s, hbs⟩
    · cases t0 with
      | pos a => exact Or.inl ⟨a, rfl⟩
      | neg a =>
        cases hct : c.toTerm with
        | pos b2 => exact Or.inr ⟨c, List.mem_cons_self c cs, b2, hct⟩
        | neg b2 =>
          rw [hct] at hs
          exact absurd hs (by simp [termIntersect])
    · exact Or.inr ⟨b, List.mem_cons_of_mem c hb, s, hbs⟩

theorem psolConstraint_pos_positive {psol : List Assignment} {n : Str} {A : VS}
    (h : psolConstraint psol n = some (Term.pos A)) : n ∈ positivePkgs psol := by
  unfold psolConstraint at h
  cases hfil : psol.filter (fun a => decide (a.pkg = n)) with
  | nil =>
    rw [hfil] at h
    cases h
  | cons a rest =>
    rw [hfil] at h
    have h0 : some (rest.foldl (fun acc b => termIntersect acc b.toTerm) a.toTerm) =
        some (Term.pos A) := h
    have h' := Option.some.inj h0
    have hw : ∃ b ∈ a :: rest, ∃ s, b.toTerm = Term.pos s := by
      rcases foldl_termIntersect_pos h' with ⟨s, hs⟩ | ⟨b, hb, s, hbs⟩
      · exact ⟨a, List.mem_cons_self a rest, s, hs⟩
      · exact ⟨b, List.mem_cons_of_mem a hb, s, hbs⟩
    obtain ⟨b, hb, s, hbs⟩ := hw
    rw [← hfil] at hb
    have hbpsol := (List.mem_filter.mp hb).1
    have hbpkg : b.pkg = n := of_decide_eq_true (List.mem_filter.mp hb).2
    unfold positivePkgs
    rw [List.mem_dedup, List.mem_filterMap]
    refine ⟨b, hbpsol, ?_⟩
    cases b with
    | decision p v l =>
      simp only [Assignment.pkg] at hbpkg
      simp [hbpkg]
    | derivation p t l cause =>
      cases t with
      | pos w =>
        simp only [Assignment.pkg] at hbpkg
        simp [hbpkg]
      | neg w => exact absurd hbs (by simp [Assignment.toTerm])

theorem decided_of_candidates_nil {psol : List Assignment} {p : Str}
    (hc : candidatePkgs psol = []) (hp : p ∈ positivePkgs psol) : p ∈ decidedPkgs psol := by
  unfold candidatePkgs at hc
  rw [List.map_eq_nil_iff] at hc
  have h2 := List.filter_eq_nil_iff.mp hc
  have h3 := h2 p hp
  simp only [decide_eq_true_eq] at h3
  exact not_not.mp h3

theorem exists_decision_of_decided {psol : List Assignment} {p : Str}
    (h : p ∈ decidedPkgs psol) : ∃ v l, Assignment.decision p v l ∈ psol := by
  unfold decidedPkgs keysOf at h
  rw [List.mem_map] at h
  obtain ⟨⟨q, v⟩, hq, hqe⟩ := h
  unfold decisionsOf at hq
  rw [List.mem_filterMap] at hq
  obtain ⟨a, ha, hae⟩ := hq
  cases a with
  | decision p2 v2 l2 =>
    have h1 := Option.some.inj hae
    have hp2 : p2 = q := congrArg Prod.fst h1
    have hq2 : q = p := hqe
    refine ⟨v2, l2, ?_⟩
    rw [hp2, hq2] at ha
    exact ha
  | derivation _ _ _ _ => cases hae

theorem alookup_decisionsOf {psol : List Assignment} {n : Str} {V : Version}
    (hdec : n ∈ decidedPkgs psol)
    (hall : ∀ v l, Assignment.decision n v l ∈ psol → v = V) :
    alookup n (decisionsOf psol) = some V := by
  cases ha : alookup n (decisionsOf psol) with
  | none =>
    have h1 := alookup_none_iff_not_mem_keys.mp ha
    exact absurd hdec h1
  | some v =>
    have hmem := alookup_eq_some_mem ha
    unfold decisionsOf at hmem
    rw [List.mem_filterMap] at hmem
    obtain ⟨a, hap, hae⟩ := hmem
    cases a with
    | decision p2 v2 l2 =>
      have h1 := Option.some.inj hae
      have hp2 : p2 = n := congrArg Prod.fst h1
      have hv2 : v2 = v := congrArg Prod.snd h1
      rw [hp2, hv2] at hap
      rw [hall v l2 hap]
    | derivation _ _ _ _ => cases hae

theorem not_sat_of_findConflict_none {psol : List Assignment} {store : List Incompat}
    {I : Incompat} (h : findConflict psol store = none) (hI : I ∈ store) :
    relIncompat psol I ≠ IncompatRel.satisfied := by
  intro hrel
  have h1 := List.find?_eq_none.mp h I hI
  simp [hrel] at h1

theorem not_almost_of_findAlmost_none {psol : List Assignment} {store : List Incompat}
    {I : Incompat} (h : findAlmost psol store = none) (hI : I ∈ store) :
    ∀ p t, relIncompat psol I ≠ IncompatRel.almost p t := by
  intro p t hrel
  have h1 := List.findSome?_eq_none_iff.mp h I hI
  rw [hrel] at h1
  cases h1

theorem relIncompat_two_contradicted {psol : List Assignment} {rn nn : Str} {t1 t2 : Term}
    (h1 : relTerm psol rn t1 = TermRel.satisfied)
    (hns : relIncompat psol [(rn, t1), (nn, t2)] ≠ IncompatRel.satisfied)
    (hna : ∀ p t, relIncompat psol [(rn, t1), (nn, t2)] ≠ IncompatRel.almost p t) :
    relTerm psol nn t2 = TermRel.contradicted := by
  cases h2 : relTerm psol nn t2 with
  | satisfied => exact absurd (by simp [relIncompat, h1, h2]) hns
  | contradicted => rfl
  | inconclusive => exact absurd (by simp [relIncompat, h1, h2]) (hna nn t2)

theorem relTerm_contradicted_pos {psol : List Assignment} {n : Str} {W : VS}
    (h : relTerm psol n (Term.neg W) = TermRel.contradicted) :
    ∃ A, psolConstraint psol n = some (Term.pos A) := by
  unfold relTerm at h
  cases hc : psolConstraint psol n with
  | none =>
    rw [hc] at h
    exact absurd (show TermRel.inconclusive = TermRel.contradicted from h) (by decide)
  | some a =>
    rw [hc] at h
    cases a with
    | pos A => exact ⟨A, rfl⟩
    | neg A =>
      have h2 : (if termSubset (Term.neg A) (Term.neg W) = true then TermRel.satisfied
          else if termDisjoint (Term.neg A) (Term.neg W) = true then TermRel.contradicted
          else TermRel.inconclusive) = TermRel.contradicted := h
      by_cases hts : termSubset (Term.neg A) (Term.neg W) = true
      · rw [if_pos hts] at h2
        simp at h2
      · rw [if_neg hts] at h2
        have hd : termDisjoint (Term.neg A) (Term.neg W) = false := rfl
        rw [hd] at h2
        simp at h2

theorem getDeps_c10root {remote : Fetcher} {locked : List (Str × Version)} {cache : Cache}
    {rn : Str} {reqs : List (Str × Dependency)}
    (hc : alookup rn cache = some (c10root rn reqs)) :
    get_dependencies remote locked cache rn rootVersion0 =
      Except.ok (cache,
        Dependencies.known (reqs.map (fun q => (q.1, q.2.requirement.toVS)))) := by
  have hens : ensure_package_fetched remote cache rn = Except.ok cache := by
    unfold ensure_package_fetched
    rw [hc]
  unfold get_dependencies
  simp only [hens, hc, c10root, Option.toList, List.flatMap_cons, List.flatMap_nil,
    List.append_nil, List.find?, Release.is_retired]
  simp

theorem c10_solve_aux {remote : Fetcher} {locked : List (Str × Version)}
    {exact : List (Str × Version)} {rn n : Str} {V : Version}
    {reqs : List (Str × Dependency)}
    (hx : alookup n exact = some V)
    (hreq : (n, lockedDependency V) ∈ reqs) :
    ∀ (fuel : Nat) (st : SState) (sol0 : List (Str × Version)),
      c10Inv rn n V reqs st →
      solveLoop remote locked exact rn rootVersion0 fuel st = Except.ok sol0 →
      alookup n sol0 = some V := by
  intro fuel
  induction fuel with
  | zero =>
    intro st sol0 hinv h
    cases h
  | succ g ih =>
    intro st sol0 hinv hok
    obtain ⟨hcache, ⟨rest0, hstore⟩, hnn, hIn, hdecn, hdecrn, hderiv⟩ := hinv
    unfold solveLoop at hok
    split at hok
    · cases hok
    case _ conf psol2 hp =>
      have hroot2 : Assignment.derivation rn (Term.pos (exactVS rootVersion0)) 0 (c6I0 rn)
          ∈ psol2 := by
        rcases hderiv with hd | hd
        · obtain ⟨ext, heq, _⟩ := propagate_append hp
          rw [heq]
          exact List.mem_append_left _ hd
        · rw [hd] at hp
          exact propagate_nil_root hstore hnn hp
      have hdec2n : ∀ v l, Assignment.decision n v l ∈ psol2 → v = V := fun v l hd =>
        hdecn v l (propagate_decision hp hd)
      have hdec2rn : ∀ v l, Assignment.decision rn v l ∈ psol2 → v = rootVersion0 :=
        fun v l hd => hdecrn v l (propagate_decision hp hd)
      have hIn2 : (∃ v l, Assignment.decision rn v l ∈ psol2) → c10In rn n V ∈ st.store := by
        rintro ⟨v, l, hd⟩
        exact hIn ⟨v, l, propagate_decision hp hd⟩
      split at hok
      · -- conflict, resolution errored
        cases hok
      case _ I learned lvl hrc =>
        -- conflict resolved: recurse on the backtracked state
        refine ih _ sol0 ?_ hok
        refine ⟨hcache, ⟨rest0 ++ [learned], by rw [hstore]; rfl⟩, ?_, ?_, ?_, ?_, ?_⟩
        · intro I2 hI2
          rcases List.mem_append.mp hI2 with h1 | h2
          · exact hnn I2 h1
          · rw [List.mem_singleton.mp h2]
            exact resolveConflict_ne_nil hrc
        · rintro ⟨v, l, hd⟩
          exact List.mem_append_left _ (hIn2 ⟨v, l, (List.mem_filter.mp hd).1⟩)
        · intro v l hd
          exact hdec2n v l (List.mem_filter.mp hd).1
        · intro v l hd
          exact hdec2rn v l (List.mem_filter.mp hd).1
        · left
          apply List.mem_filter.mpr
          refine ⟨hroot2, ?_⟩
          simp [Assignment.level]
    case _ psol2 hp =>
      have hroot2 : Assignment.derivation rn (Term.pos (exactVS rootVersion0)) 0 (c6I0 rn)
          ∈ psol2 := by
        rcases hderiv with hd | hd
        · obtain ⟨ext, heq, _⟩ := propagate_append hp
          rw [heq]
          exact List.mem_append_left _ hd
        · rw [hd] at hp
          exact propagate_nil_root hstore hnn hp
      have hdec2n : ∀ v l, Assignment.decision n v l ∈ psol2 → v = V := fun v l hd =>
        hdecn v l (propagate_decision hp hd)
      have hdec2rn : ∀ v l, Assignment.decision rn v l ∈ psol2 → v = rootVersion0 :=
        fun v l hd => hdecrn v l (propagate_decision hp hd)
      have hIn2 : (∃ v l, Assignment.decision rn v l ∈ psol2) → c10In rn n V ∈ st.store := by
        rintro ⟨v, l, hd⟩
        exact hIn ⟨v, l, propagate_decision hp hd⟩
      split at hok
      case _ hcand =>
        -- success: no undecided positively-constrained package remains
        have hsol : decisionsOf psol2 = sol0 := Except.ok.inj hok
        obtain ⟨hfc, hfa⟩ := propagate_fixpoint hp
        have hrnpos : rn ∈ positivePkgs psol2 := by
          rw [positivePkgs, List.mem_dedup, List.mem_filterMap]
          exact ⟨_, hroot2, rfl⟩
        have hrndec := decided_of_candidates_nil hcand hrnpos
        obtain ⟨vr, lr, hvr⟩ := exists_decision_of_decided hrndec
        have hvr0 : vr = rootVersion0 := hdec2rn vr lr hvr
        rw [hvr0] at hvr
        have hInS : c10In rn n V ∈ st.store := hIn2 ⟨rootVersion0, lr, hvr⟩
        have hsat : relTerm psol2 rn (Term.pos (exactVS rootVersion0)) = TermRel.satisfied :=
          relTerm_decision_satisfied hvr
        have hcon : relTerm psol2 n (Term.neg ((Range.bare V).toVS)) =
            TermRel.contradicted := by
          refine relIncompat_two_contradicted hsat ?_ ?_
          · exact not_sat_of_findConflict_none hfc hInS
          · exact not_almost_of_findAlmost_none hfa hInS
        obtain ⟨A, hA⟩ := relTerm_contradicted_pos hcon
        have hnpos := psolConstraint_pos_positive hA
        have hndec := decided_of_candidates_nil hcand hnpos
        rw [← hsol]
        exact alookup_decisionsOf hndec hdec2n
      case _ c cs hcand =>
        split at hok
        · cases hok
        case _ cache2 hens =>
          have hcache2 : alookup rn cache2 = some (c10root rn reqs) :=
            ensureAll_preserve hens hcache
          split at hok
          · cases hok
          case _ p vs hpick =>
            dsimp only at hok
            split at hok
            case _ hfir =>
              refine ih _ sol0 ?_ hok
              refine ⟨hcache2, ⟨rest0 ++ [[(p, Term.pos vs)]], by rw [hstore]; rfl⟩,
                ?_, ?_, ?_, ?_, ?_⟩
              · intro I2 hI2
                rcases List.mem_append.mp hI2 with h1 | h2
                · exact hnn I2 h1
                · rw [List.mem_singleton.mp h2]
                  simp
              · rintro ⟨v, l, hd⟩
                exact List.mem_append_left _ (hIn2 ⟨v, l, hd⟩)
              · exact hdec2n
              · exact hdec2rn
              · left
                exact hroot2
            case _ v hfir =>
              have hnewn : ∀ v2 l2, Assignment.decision n v2 l2 ∈
                  psol2 ++ [Assignment.decision p v (decisionLevel psol2 + 1)] → v2 = V := by
                intro v2 l2 hd
                rcases List.mem_append.mp hd with h1 | h2
                · exact hdec2n v2 l2 h1
                · have h3 := List.mem_singleton.mp h2
                  injection h3 with e1 e2 e3
                  rw [← e1] at hfir
                  rw [e2]
                  exact firstInRange_exact hx hfir
              have hnewrn : ∀ v2 l2, Assignment.decision rn v2 l2 ∈
                  psol2 ++ [Assignment.decision p v (decisionLevel psol2 + 1)] →
                  v2 = rootVersion0 := by
                intro v2 l2 hd
                rcases List.mem_append.mp hd with h1 | h2
                · exact hdec2rn v2 l2 h1
                · have h3 := List.mem_singleton.mp h2
                  injection h3 with e1 e2 e3
                  rw [← e1] at hfir
                  rw [e2]
                  exact firstInRange_root hcache2 rfl hfir
              split at hok
              · cases hok
              case _ cache3 hgd =>
                -- dependencies unknown: impossible for the root, otherwise recurse
                have hcache3 : alookup rn cache3 = some (c10root rn reqs) := by
                  have h1 := getDeps_preserve hgd hcache2
                  exact h1
                refine ih _ sol0 ?_ hok
                refine ⟨hcache3, ⟨rest0 ++ [[(p, Term.pos (exactVS v))]],
                  by rw [hstore]; rfl⟩, ?_, ?_, hnewn, hnewrn, ?_⟩
                · intro I2 hI2
                  rcases List.mem_append.mp hI2 with h1 | h2
                  · exact hnn I2 h1
                  · rw [List.mem_singleton.mp h2]
                    simp
                · rintro ⟨v2, l2, hd⟩
                  rcases List.mem_append.mp hd with h1 | h2
                  · exact List.mem_append_left _ (hIn2 ⟨v2, l2, h1⟩)
                  · exfalso
                    have h3 := List.mem_singleton.mp h2
                    injection h3 with e1 e2 e3
                    rw [← e1] at hfir hgd
                    have hv0 : v = rootVersion0 := firstInRange_root hcache2 rfl hfir
                    rw [hv0] at hgd
                    rw [getDeps_c10root hcache2] at hgd
                    have h4 := Except.ok.inj hgd
                    have h5 : Dependencies.known (reqs.map (fun q => (q.1, q.2.requirement.toVS)))
                        = Dependencies.unknown := congrArg Prod.snd h4
                    cases h5
                · left
                  exact List.mem_append_left _ hroot2
              case _ cache3 deps hgd =>
                have hcache3 : alookup rn cache3 = some (c10root rn reqs) :=
                  getDeps_preserve hgd hcache2
                refine ih _ sol0 ?_ hok
                refine ⟨hcache3, ⟨rest0 ++ depIncompats p v deps, by rw [hstore]; rfl⟩,
                  ?_, ?_, hnewn, hnewrn, ?_⟩
                · intro I2 hI2
                  rcases List.mem_append.mp hI2 with h1 | h2
                  · exact hnn I2 h1
                  · unfold depIncompats at h2
                    rw [List.mem_map] at h2
                    obtain ⟨d, hd, hde⟩ := h2
                    rw [← hde]
                    simp
                · rintro ⟨v2, l2, hd⟩
                  rcases List.mem_append.mp hd with h1 | h2
                  · exact List.mem_append_left _ (hIn2 ⟨v2, l2, h1⟩)
                  · -- the fresh decision is on the root: its dependencies contain the
                    -- seeded requirement, so the tying incompatibility lands in the store
                    have h3 := List.mem_singleton.mp h2
                    injection h3 with e1 e2 e3
                    rw [← e1] at hfir hgd
                    have hv0 : v = rootVersion0 := firstInRange_root hcache2 rfl hfir
                    rw [hv0] at hgd
                    rw [getDeps_c10root hcache2] at hgd
                    have h4 := Except.ok.inj hgd
                    have h5 : Dependencies.known (reqs.map (fun q => (q.1, q.2.requirement.toVS)))
                        = Dependencies.known deps := congrArg Prod.snd h4
                    have h6 : reqs.map (fun q => (q.1, q.2.requirement.toVS)) = deps := by
                      injection h5
                    apply List.mem_append_right
                    unfold depIncompats
                    rw [List.mem_map]
                    refine ⟨(n, (Range.bare V).toVS), ?_, ?_⟩
                    · rw [← h6]
                      rw [List.mem_map]
                      exact ⟨(n, lockedDependency V), hreq, rfl⟩
                    · rw [← e1, hv0]
                      rfl
                · left
                  exact List.mem_append_left _ hroot2

/-- C10: every name in the locked set is seeded into the merged root
requirement map as a bare exact version requirement even when no explicit
requirement mentions it, that requirement's raw string places the name in the
exact-pin set, and consequently whenever resolution succeeds the output
assigns the locked name (when distinct from the root) exactly its locked
version. -/
theorem c10_locked_seeding (E : List (Str × Range)) (locked : List (Str × Version))
    (n : Str) (V : Version) (fuel : Nat) (remote : Fetcher)
    (prov : List (Str × Package)) (rn : Str) (sol : List (Str × Version))
    (hnd : (keysOf locked).Nodup) (hlock : alookup n locked = some V) (hwf : V.Wf)
    (hne : n ≠ rn) :
    (∀ reqs, root_dependencies E locked = Except.ok reqs →
      alookup n reqs = some (lockedDependency V) ∧
      alookup n (exactDepsOf reqs) = some V) ∧
    (resolve_versions fuel remote prov rn E locked = Except.ok sol →
      alookup n sol = some V) := by
  have hpart1 : ∀ reqs, root_dependencies E locked = Except.ok reqs →
      alookup n reqs = some (lockedDependency V) ∧
      alookup n (exactDepsOf reqs) = some V := by
    intro reqs hrd
    have hseed : alookup n reqs = some (lockedDependency V) :=
      rootDepsLoop_locked_lookup hlock (seedLocked_lookup hnd hlock) hrd
    exact ⟨hseed, alookup_exactDepsOf hseed (parse_exact_version_bare hwf)⟩
  refine ⟨hpart1, ?_⟩
  intro hok
  unfold resolve_versions at hok
  split at hok
  · cases hok
  case _ reqs hrd =>
    obtain ⟨hseed, hx⟩ := hpart1 reqs hrd
    have hreqmem : (n, lockedDependency V) ∈ reqs := alookup_eq_some_mem hseed
    dsimp only at hok
    split at hok
    · cases hok
    · cases hok
    · cases hok
    case _ sol0 hsl =>
      have hInv : c10Inv rn n V reqs (initState prov rn reqs) := by
        refine ⟨alookup_insert_self rn (c10root rn reqs) prov, ⟨[], rfl⟩, ?_, ?_, ?_, ?_,
          Or.inr rfl⟩
        · intro I hI
          rw [List.mem_singleton.mp hI]
          simp [c6I0]
        · rintro ⟨v, l, hd⟩
          exact absurd hd (List.not_mem_nil _)
        · intro v l hd
          exact absurd hd (List.not_mem_nil _)
        · intro v l hd
          exact absurd hd (List.not_mem_nil _)
      have hs0 := c10_solve_aux hx hreqmem fuel (initState prov rn reqs) sol0 hInv hsl
      have hfilter := Except.ok.inj hok
      rw [← hfilter, alookup_filter_ne (Ne.symm hne)]
      exact hs0

theorem c10_locked_seeding_witness :
    (∀ reqs, root_dependencies [] [(("q").data, ⟨1, 2, 3, none⟩)] = Except.ok reqs →
      alookup (("q").data) reqs = some (lockedDependency ⟨1, 2, 3, none⟩) ∧
      alookup (("q").data) (exactDepsOf reqs) = some ⟨1, 2, 3, none⟩) ∧
    (resolve_versions 8 c10wRemote [] (("r").data) [] [(("q").data, ⟨1, 2, 3, none⟩)] =
        Except.ok [(("q").data, ⟨1, 2, 3, none⟩)] →
      alookup (("q").data) [(("q").data, (⟨1, 2, 3, none⟩ : Version))] =
        some (⟨1, 2, 3, none⟩ : Version)) :=
  c10_locked_seeding [] [(("q").data, ⟨1, 2, 3, none⟩)] (("q").data) ⟨1, 2, 3, none⟩ 8
    c10wRemote [] (("r").data) [(("q").data, ⟨1, 2, 3, none⟩)] (by decide) (by decide)
    (by decide) (by decide)
